import Mathlib

/-!
# Merkle DAG builder (`dag.go`, `file.go`)

A shallow embedding of the slicing code of package `merkledag` and theorems about it.

Modelling conventions.

* The three external collaborators of the package are parameters of the embedding, collected
  in `Env`: `json.Marshal` restricted to `Object` values (`marshal`), the digest computed by the
  `hash.Hash` that the caller passes in (`digest`), and the `KVStore` methods `Has` and `Put`
  over an arbitrary store state `σ`.  Both store methods may fail; the code discards their
  error results, and so does the embedding (the failure flag is only recorded in the call log).
* A `hash.Hash` is modelled by the bytes written to it since its last `Reset`: `Write` appends,
  `Reset` empties, `Sum(nil)` returns `digest` of these bytes and leaves them unchanged.  The
  hash passed in may already hold bytes.
* Mutable state is passed explicitly in `St`: the store, the hash accumulator, the log of
  store calls and the log of the objects handed to `json.Marshal`.
* A `Node` is a `File` or a `Dir`, and `Type()` tells which; a directory iterator yields a
  finite list of children; `Bytes()` returns the same slice on every call.
* Go `int` values are unbounded here (`Nat`, and `Int` in `Link.Size`).  A Go `int` has 64
  bits; for a buffer of fewer than `2 ^ 53` bytes the height is at most 3 and every sum the
  code forms stays below `2 ^ 63`, so nothing wraps.  The conversion `int(x.Size())` from
  `uint64` is modelled with its wrap-around.
* A result `none` means that the Go call does not return normally (a slice-bounds panic or an
  unbounded recursion).
-/

namespace Merkledag

/-! ## Data model -/

/-- One byte. -/
abbrev Byte := UInt8

/-- A Go `[]byte` value.  `nil` is the nil slice, `mk bs` a non-nil slice holding `bs`;
`encoding/json` tells a nil slice from an empty one. -/
inductive GoBytes where
  | nil
  | mk (bs : List Byte)
deriving DecidableEq, Repr

/-- The bytes held by a slice. -/
def GoBytes.toList : GoBytes → List Byte
  | .nil => []
  | .mk bs => bs

/-- Go `len(b)`. -/
def GoBytes.len (b : GoBytes) : Nat := b.toList.length

/-- Go `b[lo:hi]`: `none` is the slice-bounds panic; slicing a nil slice gives a nil slice. -/
def GoBytes.slice (b : GoBytes) (lo hi : Nat) : Option GoBytes :=
  if lo ≤ hi ∧ hi ≤ b.len then
    match b with
    | .nil => some .nil
    | .mk bs => some (.mk ((bs.take hi).drop lo))
  else none

/-- Go `append(b, xs...)`. -/
def GoBytes.append (b : GoBytes) (xs : List Byte) : GoBytes :=
  match b, xs with
  | .nil, [] => .nil
  | b, xs => .mk (b.toList ++ xs)

/-- Struct `Link` of `dag.go`. -/
structure Link where
  Name : String
  Hash : List Byte
  Size : Int
deriving DecidableEq, Repr

/-- Struct `Object` of `dag.go`; a nil `Links` slice is the empty list (the code only ever
appends to a nil `Links`, so an empty non-nil `Links` never occurs). -/
structure Object where
  Links : List Link
  Data : GoBytes
deriving DecidableEq, Repr

/-- Modelled from the spec: interface `File` of `file.go` declares `Size`, `Type` and `Bytes`;
the method `Name` that `sliceDirectory` calls is declared in no source file and is taken from
the spec (`child.name()`).  `Size` is a `uint64`. -/
structure File where
  Name : String
  Size : Nat
  Bytes : GoBytes
deriving Repr

mutual
/-- Interface `Node` of `file.go`, with `Type() == FILE` exactly for the values that are a `File`. -/
inductive Node where
  | file (f : File)
  | dir (d : Dir)
/-- Interface `Dir` of `file.go`; `It` lists the children in the order the iterator yields them
(`Name` as for `File`). -/
inductive Dir where
  | mk (Name : String) (Size : Nat) (It : List Node)
end

/-- Method `Name` of a directory. -/
def Dir.Name : Dir → String
  | .mk n _ _ => n

/-- Method `Size` of a directory. -/
def Dir.Size : Dir → Nat
  | .mk _ s _ => s

/-- The children a directory iterator yields. -/
def Dir.It : Dir → List Node
  | .mk _ _ c => c

/-- Go conversion `int(u)` of a `uint64` on a 64-bit platform. -/
def intOfUint64 (u : Nat) : Int :=
  if u % 2 ^ 64 < 2 ^ 63 then ((u % 2 ^ 64 : Nat) : Int) else ((u % 2 ^ 64 : Nat) : Int) - 2 ^ 64

/-- Leaf size, `256 * 1024` in `dag.go`. -/
def leafSize : Nat := 256 * 1024

/-- Fanout, the loop bound `4096` in `dag.go`. -/
def fanout : Nat := 4096

/-- The bytes of `[]byte("data")`. -/
def tagData : List Byte := [100, 97, 116, 97]

/-- The bytes of `[]byte("link")`. -/
def tagLink : List Byte := [108, 105, 110, 107]

/-- The bytes of `[]byte("tree")`. -/
def tagTree : List Byte := [116, 114, 101, 101]

/-! ## External collaborators and state -/

/-- One call of a store method, with what it reported. -/
inductive Call where
  | has (key : List Byte) (found failed : Bool)
  | put (key value : List Byte) (failed : Bool)
deriving DecidableEq, Repr

/-- Modelled from the spec: the interface `KVStore` is declared in no source file; its methods
are taken as `Has(key) (bool, error)` and `Put(key, value) error`, as the spec gives them and
as `dag.go` calls them, acting on a store state.  `Has` gives the reported existence, whether
it failed, and the store after the call; `Put` gives whether it failed and the store after
the call.  The other two collaborators are `json.Marshal` on objects and the digest of the
hash. -/
structure Env (σ : Type) where
  marshal : Object → List Byte
  digest : List Byte → List Byte
  Has : σ → List Byte → Bool × Bool × σ
  Put : σ → List Byte → List Byte → Bool × σ

/-- The mutable state of a build. -/
structure St (σ : Type) where
  store : σ
  h : List Byte
  calls : List Call
  built : List Object

variable {σ : Type}

/-- Call `h.Reset()`. -/
def hReset (st : St σ) : St σ := { st with h := [] }

/-- Call `h.Write(p)`. -/
def hWrite (p : List Byte) (st : St σ) : St σ := { st with h := st.h ++ p }

/-- Call `h.Sum(nil)`. -/
def hSum (E : Env σ) (st : St σ) : List Byte := E.digest st.h

/-- Call `json.Marshal(o)`, logged. -/
def jsonMarshal (E : Env σ) (o : Object) (st : St σ) : List Byte × St σ :=
  (E.marshal o, { st with built := st.built ++ [o] })

/-- Call `store.Has(key)`, logged; the error result is dropped as in `exists, _ := ...`. -/
def storeHas (E : Env σ) (key : List Byte) (st : St σ) : Bool × St σ :=
  ((E.Has st.store key).1,
    { st with store := (E.Has st.store key).2.2,
              calls := st.calls ++ [Call.has key (E.Has st.store key).1 (E.Has st.store key).2.1] })

/-- Call `store.Put(key, value)`, logged; the error result is dropped. -/
def storePut (E : Env σ) (key value : List Byte) (st : St σ) : St σ :=
  { st with store := (E.Put st.store key value).2,
            calls := st.calls ++ [Call.put key value (E.Put st.store key value).1] }

/-! ## The functions of `dag.go` -/

/-- The statements that end both levels of `dfsForSlice` (lines 91-97, 122-128) and
`sliceDirectory` (lines 205-211): marshal the object, reset the hash and write the
serialization, ask the store for the digest, and put the serialization if it is reported
absent. -/
def putObject (E : Env σ) (links : Object) (st : St σ) : St σ :=
  let m := jsonMarshal E links st
  let st := hWrite m.1 (hReset m.2)
  let r := storeHas E (hSum E st) st
  if !r.1 then storePut E (hSum E r.2) m.1 r.2 else r.2

/-- The same statements for a leaf `blob` (lines 51-57, 74-80, 142-148): the value put is the
raw `data`, not the serialization. -/
def putBlob (E : Env σ) (blob : Object) (data : GoBytes) (st : St σ) : St σ :=
  let m := jsonMarshal E blob st
  let st := hWrite m.1 (hReset m.2)
  let r := storeHas E (hSum E st) st
  if !r.1 then storePut E (hSum E r.2) data.toList r.2 else r.2

/-- The loop of the leaf level of `dfsForSlice` (lines 63-90); `n` is the number of iterations
`for i := 1; i <= 4096; i++` still allows. -/
def leafLoop (E : Env σ) (node : File) :
    Nat → Object → Nat → Nat → St σ → Option (Object × Nat × St σ)
  | 0, links, totalLen, _, st => some (links, totalLen, st)
  | n + 1, links, totalLen, seedId, st =>
    let end_ := if node.Bytes.len < seedId + leafSize then node.Bytes.len else seedId + leafSize
    match node.Bytes.slice seedId end_ with
    | none => none
    | some data =>
      let blob : Object := { Links := [], Data := data }
      let totalLen := totalLen + data.len
      let st := putBlob E blob data st
      let links : Object :=
        { Links := links.Links ++ [{ Name := "", Hash := hSum E st, Size := (data.len : Int) }],
          Data := links.Data.append tagData }
      let seedId := seedId + leafSize
      if seedId ≥ node.Bytes.len then some (links, totalLen, st)
      else leafLoop E node n links totalLen seedId st

/-- The loop of an internal level of `dfsForSlice` (lines 103-121); `child` is the recursive
call `dfsForSlice(hight-1, node, store, seedId, h)`, and `seedId` is not assigned in the loop. -/
def internalLoop (E : Env σ) (node : File)
    (child : Nat → St σ → Option (Object × Nat × St σ)) (seedId : Nat) :
    Nat → Object → Nat → St σ → Option (Object × Nat × St σ)
  | 0, links, totalLen, st => some (links, totalLen, st)
  | n + 1, links, totalLen, st =>
    if seedId ≥ node.Bytes.len then some (links, totalLen, st)
    else
      match child seedId st with
      | none => none
      | some (c, childLen, st) =>
        let totalLen := totalLen + childLen
        let m := jsonMarshal E c st
        let st := hWrite m.1 (hReset m.2)
        let typeName := if c.Links = [] then tagData else tagLink
        let links : Object :=
          { Links := links.Links ++ [{ Name := "", Hash := hSum E st, Size := (childLen : Int) }],
            Data := links.Data.append typeName }
        internalLoop E node child seedId n links totalLen st

/-- Function `dfsForSlice(hight, node, store, seedId, h)`.  With `hight <= 0` the Go code takes
the `else` branch and recurses with ever smaller heights, so the recursive call never returns. -/
def dfsForSlice (E : Env σ) (node : File) :
    Nat → Nat → St σ → Option (Object × Nat × St σ)
  | 0, seedId, st =>
    match internalLoop E node (fun _ _ => none) seedId fanout { Links := [], Data := .nil } 0 st with
    | none => none
    | some (links, totalLen, st) => some (links, totalLen, putObject E links st)
  | 1, seedId, st =>
    if node.Bytes.len - seedId ≤ leafSize then
      match node.Bytes.slice seedId node.Bytes.len with
      | none => none
      | some data =>
        let blob : Object := { Links := [], Data := data }
        some (blob, data.len, putBlob E blob data st)
    else
      match leafLoop E node fanout { Links := [], Data := .nil } 0 seedId st with
      | none => none
      | some (links, totalLen, st) => some (links, totalLen, putObject E links st)
  | hight + 2, seedId, st =>
    match internalLoop E node (fun s t => dfsForSlice E node (hight + 1) s t) seedId fanout
        { Links := [], Data := .nil } 0 st with
    | none => none
    | some (links, totalLen, st) => some (links, totalLen, putObject E links st)

/-- The computation of `linkLen` in `sliceFile` (line 152). -/
def linkLen (size : Nat) : Nat := (size + (leafSize - 1)) / leafSize

/-- The loop `for { hight++; tmp /= 4096; if tmp == 0 { break } }` of `sliceFile`. -/
def hightLoop (hight tmp : Nat) : Nat :=
  if tmp / fanout = 0 then hight + 1 else hightLoop (hight + 1) (tmp / fanout)
termination_by tmp
decreasing_by
  rename_i h
  exact Nat.div_lt_self (Nat.pos_of_ne_zero (fun h0 => h (by simp [h0]))) (by decide)

/-- Function `sliceFile(node, store, h)`. -/
def sliceFile (E : Env σ) (node : File) (st : St σ) : Option (Object × St σ) :=
  if node.Bytes.len ≤ leafSize then
    let data := node.Bytes
    let blob : Object := { Links := [], Data := data }
    some (blob, putBlob E blob data st)
  else
    let hight := hightLoop 0 (linkLen node.Bytes.len)
    match dfsForSlice E node hight 0 st with
    | none => none
    | some (res, _, st) => some (res, st)

mutual
/-- Function `sliceDirectory(node, store, h)`. -/
def sliceDirectory (E : Env σ) : Dir → St σ → Option (Object × St σ)
  | .mk _ _ It, st =>
    match dirLoop E It { Links := [], Data := .nil } st with
    | none => none
    | some (tree, st) => some (tree, putObject E tree st)
/-- The loop `for iter.Next()` of `sliceDirectory` over the children still to come. -/
def dirLoop (E : Env σ) : List Node → Object → St σ → Option (Object × St σ)
  | [], tree, st => some (tree, st)
  | .file file :: rest, tree, st =>
    match sliceFile E file st with
    | none => none
    | some (fileSlice, st) =>
      let m := jsonMarshal E fileSlice st
      let st := hWrite m.1 (hReset m.2)
      let elemType := if fileSlice.Links = [] then tagData else tagLink
      let tree : Object :=
        { Links := tree.Links ++
            [{ Name := file.Name, Hash := hSum E st, Size := intOfUint64 file.Size }],
          Data := tree.Data.append elemType }
      dirLoop E rest tree st
  | .dir dir :: rest, tree, st =>
    match sliceDirectory E dir st with
    | none => none
    | some (dirSlice, st) =>
      let m := jsonMarshal E dirSlice st
      let st := hWrite m.1 (hReset m.2)
      let tree : Object :=
        { Links := tree.Links ++
            [{ Name := dir.Name, Hash := hSum E st, Size := intOfUint64 dir.Size }],
          Data := tree.Data.append tagTree }
      dirLoop E rest tree st
end

/-- Function `Add(store, node, h)`. -/
def Add (E : Env σ) (node : Node) (st : St σ) : Option (List Byte × St σ) :=
  match node with
  | .file file =>
    match sliceFile E file st with
    | none => none
    | some (fileSlice, st) =>
      let m := jsonMarshal E fileSlice st
      let st := hWrite m.1 m.2
      some (hSum E st, st)
  | .dir dir =>
    match sliceDirectory E dir st with
    | none => none
    | some (dirSlice, st) =>
      let m := jsonMarshal E dirSlice st
      let st := hWrite m.1 m.2
      some (hSum E st, st)

/-! ## A concrete environment -/

/-- The standard base64 alphabet. -/
def b64Char (n : Nat) : Byte :=
  if n < 26 then (65 + n).toUInt8
  else if n < 52 then (97 + (n - 26)).toUInt8
  else if n < 62 then (48 + (n - 52)).toUInt8
  else if n = 62 then 43 else 47

/-- Standard base64 with padding, the encoding `encoding/json` gives a `[]byte`. -/
def base64 : List Byte → List Byte
  | [] => []
  | [a] => [b64Char (a.toNat / 4), b64Char (a.toNat % 4 * 16), 61, 61]
  | [a, b] =>
    [b64Char (a.toNat / 4), b64Char (a.toNat % 4 * 16 + b.toNat / 16),
      b64Char (b.toNat % 16 * 4), 61]
  | a :: b :: c :: rest =>
    b64Char (a.toNat / 4) :: b64Char (a.toNat % 4 * 16 + b.toNat / 16) ::
      b64Char (b.toNat % 16 * 4 + c.toNat / 64) :: b64Char (c.toNat % 64) :: base64 rest

/-- The bytes of an ASCII text. -/
def ascii (s : String) : List Byte := s.toList.map (fun c => c.toNat.toUInt8)

/-- The decimal digits of a natural number. -/
def decimal (n : Nat) : List Byte := ascii (toString n)

/-- A JSON number for an `int`. -/
def jsonInt (i : Int) : List Byte :=
  if i < 0 then 45 :: decimal i.natAbs else decimal i.natAbs

/-- A JSON string for a `[]byte`; a nil slice is `null`. -/
def jsonBytes : GoBytes → List Byte
  | .nil => ascii "null"
  | .mk bs => [34] ++ base64 bs ++ [34]

/-- A JSON string for a name made of letters, digits and the characters `. _ -`, which
`encoding/json` copies unchanged; other characters are not modelled. -/
def jsonName (s : String) : List Byte := [34] ++ ascii s ++ [34]

/-- The encoding of a `Link`: the fields `Name`, `Hash`, `Size` in declaration order.  The
`Hash` is what `h.Sum(nil)` returned, nil when the digest has no bytes. -/
def jsonLink (l : Link) : List Byte :=
  ascii "\x7b\"Name\":" ++ jsonName l.Name ++ ascii ",\"Hash\":" ++
    jsonBytes (GoBytes.append .nil l.Hash) ++ ascii ",\"Size\":" ++ jsonInt l.Size ++ ascii "\x7d"

/-- The elements of a JSON array, comma separated. -/
def jsonLinks : List Link → List Byte
  | [] => []
  | [l] => jsonLink l
  | l :: ls => jsonLink l ++ [44] ++ jsonLinks ls

/-- What `json.Marshal` gives for an `Object` (names as in `jsonName`). -/
def goJSON (o : Object) : List Byte :=
  ascii "\x7b\"Links\":" ++
    (if o.Links = [] then ascii "null" else [91] ++ jsonLinks o.Links ++ [93]) ++
    ascii ",\"Data\":" ++ jsonBytes o.Data ++ ascii "\x7d"

/-- One step of the 32-bit FNV-1a hash of Go package `hash/fnv`. -/
def fnvStep (acc : Nat) (b : Byte) : Nat := (Nat.xor acc b.toNat) * 16777619 % 2 ^ 32

/-- The digest of `fnv.New32a()`: four bytes, most significant first. -/
def fnv32a (bs : List Byte) : List Byte :=
  let v := bs.foldl fnvStep 2166136261
  [(v / 2 ^ 24).toUInt8, (v / 2 ^ 16 % 256).toUInt8, (v / 2 ^ 8 % 256).toUInt8, (v % 256).toUInt8]

/-- Modelled from the spec: a store that is a key-value map, as an association list from keys
to values (no store is implemented in the source files). -/
abbrev MapStore := List (List Byte × List Byte)

/-- The value a map store holds under a key. -/
def MapStore.get (s : MapStore) (key : List Byte) : Option (List Byte) :=
  (s.find? (fun p => p.1 = key)).map (fun p => p.2)

/-- Record a value under a key, replacing the value the key had. -/
def MapStore.put (s : MapStore) (key value : List Byte) : MapStore :=
  (key, value) :: s.filter (fun p => p.1 ≠ key)

/-- The environment of a build against a map store that never fails, with any serialization
and digest. -/
def mapEnv (marshal : Object → List Byte) (digest : List Byte → List Byte) : Env MapStore where
  marshal := marshal
  digest := digest
  Has := fun s k => ((s.get k).isSome, false, s)
  Put := fun s k v => (false, s.put k v)

/-- The environment with Go JSON, FNV-1a and a map store. -/
def goEnv : Env MapStore := mapEnv goJSON fnv32a

/-- A fresh state: empty store, a hash just created, empty logs. -/
def St.init : St MapStore := { store := [], h := [], calls := [], built := [] }

/-! ## Runs: what a build does to the state -/

/-- The digest of the serialization of an object, the key it is stored under. -/
def keyOf (E : Env σ) (o : Object) : List Byte := E.digest (E.marshal o)

/-- The groups of statements through which the functions change the state: `putBlob`,
`putObject`, and the hashing of a child by its parent (marshal, reset, write). -/
inductive Ev where
  | blob (o : Object) (data : GoBytes)
  | obj (o : Object)
  | rehash (o : Object)
deriving DecidableEq, Repr

/-- The object an event marshals. -/
def Ev.object : Ev → Object
  | .blob o _ => o
  | .obj o => o
  | .rehash o => o

/-- The object an event offers to the store, if it does. -/
def Ev.put : Ev → Option Object
  | .blob o _ => some o
  | .obj o => some o
  | .rehash _ => none

/-- The state after one event. -/
def step (E : Env σ) : Ev → St σ → St σ
  | .blob o d, st => putBlob E o d st
  | .obj o, st => putObject E o st
  | .rehash o, st => hWrite (jsonMarshal E o st).1 (hReset (jsonMarshal E o st).2)

/-- The state after a sequence of events. -/
def run (E : Env σ) : List Ev → St σ → St σ
  | [], st => st
  | e :: es, st => run E es (step E e st)

/-- The objects the events of a sequence offer to the store. -/
def putsOf (evs : List Ev) : List Object := evs.filterMap Ev.put

/-- A sequence of events is well formed after the objects `os` were offered to the store: a
blob is a leaf holding the data put; an object put as its serialization links only to
objects offered earlier, by their keys, and has links unless it is the empty object; an object
hashed again was offered earlier. -/
def Ok (E : Env σ) : List Object → List Ev → Prop
  | _, [] => True
  | os, .blob o d :: es => (o.Links = [] ∧ o.Data = d) ∧ Ok E (os ++ [o]) es
  | os, .obj o :: es =>
    ((∀ l ∈ o.Links, ∃ c ∈ os, l.Hash = keyOf E c) ∧
      (o.Links ≠ [] ∨ o = { Links := [], Data := .nil })) ∧ Ok E (os ++ [o]) es
  | os, .rehash o :: es => o ∈ os ∧ Ok E os es

/-- The events of building `o`: they end with offering `o` to the store, and are well
formed whatever was offered before. -/
def Builds (E : Env σ) (o : Object) (evs : List Ev) : Prop :=
  (∃ pre e, evs = pre ++ [e] ∧ e.put = some o) ∧ ∀ os, Ok E os evs

/-- Every `Put` of a call sequence comes right after a `Has` of the same key that reported
the key absent. -/
inductive Guarded : List Call → Prop
  | nil : Guarded []
  | has (key : List Byte) (found failed : Bool) (rest : List Call) :
      Guarded rest → Guarded (Call.has key found failed :: rest)
  | hasPut (key value : List Byte) (failed failed2 : Bool) (rest : List Call) :
      Guarded rest →
      Guarded (Call.has key false failed :: Call.put key value failed2 :: rest)

/-- A store faithfully records `Put`: `Has` leaves the store as it is, a key that was put is
reported present, and a key reported present stays so after any `Put`. -/
def Faithful (E : Env σ) : Prop :=
  (∀ s k, (E.Has s k).2.2 = s) ∧
  (∀ s k v, (E.Has (E.Put s k v).2 k).1 = true) ∧
  (∀ s k v k2, (E.Has s k2).1 = true → (E.Has (E.Put s k v).2 k2).1 = true)

/-- What a `Put` made by an event puts. -/
def PutOf (E : Env σ) (e : Ev) (k v : List Byte) : Prop :=
  (∃ o d, e = Ev.blob o d ∧ k = keyOf E o ∧ v = d.toList) ∨
    (∃ o, e = Ev.obj o ∧ k = keyOf E o ∧ v = E.marshal o)

/-! ## The leaf level in closed form -/

/-- The chunk of at most `leafSize` bytes that starts at `seedId`. -/
def chunkAt (b : GoBytes) (seedId : Nat) : GoBytes :=
  match b with
  | .nil => .nil
  | .mk bs => .mk ((bs.drop seedId).take leafSize)

/-- The leaf object holding some data. -/
def leafOf (data : GoBytes) : Object := { Links := [], Data := data }

/-- The link to a child: no name, the key of the child, the number of bytes it covers. -/
def linkTo (E : Env σ) (child : Object) (size : Nat) : Link :=
  { Name := "", Hash := keyOf E child, Size := (size : Int) }

/-- The cursor positions at which the leaf loop cuts a chunk, given `n` iterations. -/
def leafSeeds (len : Nat) : Nat → Nat → List Nat
  | 0, _ => []
  | n + 1, seedId =>
    seedId :: (if seedId + leafSize ≥ len then [] else leafSeeds len n (seedId + leafSize))

/-- The object of links the leaf level returns from the cursor `seedId`. -/
def leafLevelObject (E : Env σ) (b : GoBytes) (seedId : Nat) : Object :=
  { Links := (leafSeeds b.len fanout seedId).map
      (fun s => linkTo E (leafOf (chunkAt b s)) (chunkAt b s).len),
    Data := .mk (List.replicate (leafSeeds b.len fanout seedId).length tagData).flatten }

/-- The number of bytes the leaf level reports as covered from the cursor `seedId`. -/
def leafLevelLen (b : GoBytes) (seedId : Nat) : Nat :=
  ((leafSeeds b.len fanout seedId).map (fun s => (chunkAt b s).len)).sum

/-- The events of the leaf level from the cursor `seedId`: one blob per chunk, then the object
of links. -/
def leafLevelEvents (E : Env σ) (b : GoBytes) (seedId : Nat) : List Ev :=
  (leafSeeds b.len fanout seedId).map (fun s => Ev.blob (leafOf (chunkAt b s)) (chunkAt b s)) ++
    [Ev.obj (leafLevelObject E b seedId)]

/-! ## An internal level in closed form -/

/-- The kind tag a parent records for a child: `data` for a child without links, else `link`. -/
def kindTag (c : Object) : List Byte := if c.Links = [] then tagData else tagLink

/-- The object an internal level returns when every one of its `fanout` children is the
object `c` covering `childLen` bytes. -/
def internalObject (E : Env σ) (c : Object) (childLen : Nat) : Object :=
  { Links := List.replicate fanout (linkTo E c childLen),
    Data := .mk (List.replicate fanout (kindTag c)).flatten }

/-- The events of such an internal level: `fanout` times the events of the child followed by
its hashing, then the object of links. -/
def internalEvents (E : Env σ) (c : Object) (childLen : Nat) (cevs : List Ev) : List Ev :=
  (List.replicate fanout (cevs ++ [Ev.rehash c])).flatten ++ [Ev.obj (internalObject E c childLen)]

/-- The empty object `&Object{}`. -/
def emptyObject : Object := { Links := [], Data := .nil }

/-! ## Further notions used in the statements -/

/-- The links of an object all point to objects of a list, by their keys. -/
def LinksIn (E : Env σ) (os : List Object) (o : Object) : Prop :=
  ∀ l ∈ o.Links, ∃ c ∈ os, l.Hash = keyOf E c

/-- Every `Put` in a call sequence is immediately preceded by a `Has` of the same key that
reported the key absent. -/
def PutsGuarded (cs : List Call) : Prop :=
  ∀ pre k v f post, cs = pre ++ Call.put k v f :: post →
    ∃ pre2 f2, pre = pre2 ++ [Call.has k false f2]

/-- An object is stored: the store reports its key and the keys of its links present. -/
def Stored (E : Env σ) (s : σ) (c : Object) : Prop :=
  (E.Has s (keyOf E c)).1 = true ∧ ∀ l ∈ c.Links, (E.Has s l.Hash).1 = true

/-- A file of `4095 * 262144 + 1` zero bytes: the shortest file with 4096 leaves, the
shortest for which `sliceFile` computes height 2. -/
def bigFile : File :=
  { Name := "big", Size := 1073479681, Bytes := .mk (List.replicate 1073479681 0) }

/-- A file of 262145 zero bytes, one byte more than a leaf holds. -/
def twoLeafFile : File :=
  { Name := "two", Size := 262145, Bytes := .mk (List.replicate 262145 0) }


/-! ## The results of slicing in closed form -/

/-- The number of bytes `dfsForSlice` reports at a height of at least 1 (the value at height 0
is not used). -/
def dfsLen (b : GoBytes) : Nat → Nat → Nat
  | 0, _ => 0
  | 1, seedId => if b.len - seedId ≤ leafSize then (chunkAt b seedId).len else leafLevelLen b seedId
  | hight + 2, seedId => if seedId < b.len then fanout * dfsLen b (hight + 1) seedId else 0

/-- The object `dfsForSlice` returns at a height of at least 1. -/
def dfsObject (E : Env σ) (b : GoBytes) : Nat → Nat → Object
  | 0, _ => emptyObject
  | 1, seedId =>
    if b.len - seedId ≤ leafSize then leafOf (chunkAt b seedId) else leafLevelObject E b seedId
  | hight + 2, seedId =>
    if seedId < b.len then
      internalObject E (dfsObject E b (hight + 1) seedId) (dfsLen b (hight + 1) seedId)
    else emptyObject

/-- The events of `dfsForSlice` at a height of at least 1. -/
def dfsEvents (E : Env σ) (b : GoBytes) : Nat → Nat → List Ev
  | 0, _ => []
  | 1, seedId =>
    if b.len - seedId ≤ leafSize then [Ev.blob (leafOf (chunkAt b seedId)) (chunkAt b seedId)]
    else leafLevelEvents E b seedId
  | hight + 2, seedId =>
    if seedId < b.len then
      internalEvents E (dfsObject E b (hight + 1) seedId) (dfsLen b (hight + 1) seedId)
        (dfsEvents E b (hight + 1) seedId)
    else [Ev.obj emptyObject]

/-- The object `sliceFile` returns. -/
def fileObject (E : Env σ) (node : File) : Object :=
  if node.Bytes.len ≤ leafSize then leafOf node.Bytes
  else dfsObject E node.Bytes (hightLoop 0 (linkLen node.Bytes.len)) 0

/-- The events of `sliceFile`. -/
def fileEvents (E : Env σ) (node : File) : List Ev :=
  if node.Bytes.len ≤ leafSize then [Ev.blob (leafOf node.Bytes) node.Bytes]
  else dfsEvents E node.Bytes (hightLoop 0 (linkLen node.Bytes.len)) 0

mutual
/-- The object `sliceDirectory` returns. -/
def dirObject (E : Env σ) : Dir → Object
  | .mk _ _ It => childrenObject E It { Links := [], Data := .nil }
/-- The object the loop of `sliceDirectory` returns, from the object `tree`. -/
def childrenObject (E : Env σ) : List Node → Object → Object
  | [], tree => tree
  | .file file :: rest, tree =>
    childrenObject E rest
      { Links := tree.Links ++
          [{ Name := file.Name, Hash := keyOf E (fileObject E file),
             Size := intOfUint64 file.Size }],
        Data := tree.Data.append (kindTag (fileObject E file)) }
  | .dir dir :: rest, tree =>
    childrenObject E rest
      { Links := tree.Links ++
          [{ Name := dir.Name, Hash := keyOf E (dirObject E dir),
             Size := intOfUint64 dir.Size }],
        Data := tree.Data.append tagTree }
end

mutual
/-- The events of `sliceDirectory`. -/
def dirEvents (E : Env σ) : Dir → List Ev
  | .mk _ _ It => childrenEvents E It ++ [Ev.obj (childrenObject E It { Links := [], Data := .nil })]
/-- The events of the loop of `sliceDirectory`. -/
def childrenEvents (E : Env σ) : List Node → List Ev
  | [] => []
  | .file file :: rest =>
    fileEvents E file ++ [Ev.rehash (fileObject E file)] ++ childrenEvents E rest
  | .dir dir :: rest =>
    dirEvents E dir ++ [Ev.rehash (dirObject E dir)] ++ childrenEvents E rest
end

/-- The object slicing a node returns, a file or a directory. -/
def nodeObject (E : Env σ) : Node → Object
  | .file file => fileObject E file
  | .dir dir => dirObject E dir

/-- The events of slicing a node. -/
def nodeEvents (E : Env σ) : Node → List Ev
  | .file file => fileEvents E file
  | .dir dir => dirEvents E dir

/-- Slicing a node as `Add` and `sliceDirectory` do: `sliceFile` for a file, `sliceDirectory`
for a directory. -/
def sliceNode (E : Env σ) : Node → St σ → Option (Object × St σ)
  | .file file, st => sliceFile E file st
  | .dir dir, st => sliceDirectory E dir st

/-- Method `Name` of a node. -/
def Node.Name : Node → String
  | .file f => f.Name
  | .dir d => d.Name

/-- Method `Size` of a node. -/
def Node.Size : Node → Nat
  | .file f => f.Size
  | .dir d => d.Size


/-- The link `sliceDirectory` appends for a child: its name, the key of the object slicing it
returns, and its size converted to `int`. -/
def childLink (E : Env σ) (c : Node) : Link :=
  { Name := c.Name, Hash := keyOf E (nodeObject E c), Size := intOfUint64 c.Size }

/-- The tag `sliceDirectory` appends for a child: `tree` for a directory, and for a file the
kind tag of the object slicing it returns. -/
def codeTag (E : Env σ) : Node → List Byte
  | .file f => kindTag (fileObject E f)
  | .dir _ => tagTree

/-- The tag of a child in the words of the specification: `tree` for a subdirectory, `link` for
a file with more than 262144 bytes, `data` for a file with at most 262144 bytes. -/
def childTag : Node → List Byte
  | .dir _ => tagTree
  | .file f => if 262144 < f.Bytes.len then tagLink else tagData


/-- A directory with one child, a file that reports the size `2 ^ 63`. -/
def hugeSizeDir : Dir :=
  .mk "d" 0 [.file { Name := "x", Size := 9223372036854775808, Bytes := .nil }]


/-- A directory holding a file of three bytes and an empty subdirectory. -/
def smallTree : Node :=
  .dir (.mk "root" 0 [.file { Name := "f", Size := 3, Bytes := .mk [97, 98, 99] },
    .dir (.mk "sub" 0 [])])


/-- A number that determines an object: the code of its links and data as nested lists of
numbers. -/
def objectCode (o : Object) : Nat :=
  Encodable.encode
    ((o.Links.map (fun l => (l.Name.toList.map Char.toNat, l.Hash.map UInt8.toNat, l.Size)),
      (match o.Data with
        | .nil => none
        | .mk bs => some (bs.map UInt8.toNat))) :
      List (List Nat × List Nat × Int) × Option (List Nat))

/-- An injective serialization: as many zero bytes as the code of the object. -/
def unaryMarshal (o : Object) : List Byte := List.replicate (objectCode o) 0

/-- A map store with an injective serialization and the identity as digest. -/
def plainEnv : Env MapStore := mapEnv unaryMarshal id

/-- Two files with different names. -/
def fileA : Node := .file { Name := "a", Size := 1, Bytes := .mk [97] }

/-- The second of two files with different names. -/
def fileB : Node := .file { Name := "b", Size := 1, Bytes := .mk [98] }


/-- A store that records exactly what was put: it is faithful, and a `Put` under one key
does not change what `Has` reports for another key. -/
def Exact (E : Env σ) : Prop :=
  Faithful E ∧ ∀ s k v k2, k2 ≠ k → (E.Has (E.Put s k v).2 k2).1 = (E.Has s k2).1

/-- A file whose `Bytes()` is the nil slice. -/
def nilFile (name : String) : File := { Name := name, Size := 0, Bytes := .nil }

/-- A file whose `Bytes()` is an empty slice that is not nil. -/
def emptyFile (name : String) : File := { Name := name, Size := 0, Bytes := .mk [] }

/-- A directory that yields an empty subdirectory and then two files of nil content under
different names. -/
def nilTwinsDir : Dir :=
  .mk "d" 0 [.dir (.mk "e" 0 []), .file (nilFile "a"), .file (nilFile "b")]

/-- A file of the three bytes `abc` under a given name. -/
def abcFile (name : String) : File := { Name := name, Size := 3, Bytes := .mk [97, 98, 99] }


/-- The file `a.txt`: ten bytes `a`. -/
def aTxt : File := { Name := "a.txt", Size := 10, Bytes := .mk (ascii "aaaaaaaaaa") }

/-- The file `b.txt`: ten bytes `b`. -/
def bTxt : File := { Name := "b.txt", Size := 10, Bytes := .mk (ascii "bbbbbbbbbb") }

/-- A directory entry as the directory of the example gets it: the name, the digest of the
serialization of the single-leaf object of the content, and the size 10. -/
def exampleLink (marshal : Object → List Byte) (digest : List Byte → List Byte)
    (name content : String) : Link :=
  { Name := name, Hash := digest (marshal { Links := [], Data := .mk (ascii content) }),
    Size := 10 }

/-- The directory object of the example. -/
def exampleObject (marshal : Object → List Byte) (digest : List Byte → List Byte) : Object :=
  { Links := [exampleLink marshal digest "a.txt" "aaaaaaaaaa",
      exampleLink marshal digest "b.txt" "bbbbbbbbbb"],
    Data := .mk (ascii "datadata") }


/-- Whether a call of a store method failed. -/
def Call.failed : Call → Bool
  | .has _ _ failed => failed
  | .put _ _ failed => failed

/-- A store every call of which fails: `Has` reports an error and no key, `Put` reports an
error and records nothing.  The serialization is Go JSON and the digest FNV-1a. -/
def failEnv : Env MapStore where
  marshal := goJSON
  digest := fnv32a
  Has := fun s _ => (false, true, s)
  Put := fun s _ _ => (true, s)


/-- An event within the limits: its object has at most `fanout` links and, when it has none,
at most `leafSize` bytes of data; a blob is the leaf of the data put, and an object put as its
serialization has links. -/
def Bounded (e : Ev) : Prop :=
  e.object.Links.length ≤ fanout ∧ (e.object.Links = [] → e.object.Data.len ≤ leafSize) ∧
    match e with
    | .blob o d => o = leafOf d
    | .obj o => o.Links ≠ []
    | .rehash _ => True


/-- A file of three bytes, as a buffer for `dfsForSlice`. -/
def threeBytes : File := { Name := "f", Size := 3, Bytes := .mk [1, 2, 3] }

/-! ## The state after the basic steps -/

theorem fanout_pos : 0 < fanout := by decide

@[simp] theorem putBlob_h (E : Env σ) (o : Object) (d : GoBytes) (st : St σ) :
    (putBlob E o d st).h = E.marshal o := by
  simp only [putBlob]
  split <;> simp [storePut, storeHas, hWrite, hReset, jsonMarshal]

@[simp] theorem putObject_h (E : Env σ) (o : Object) (st : St σ) :
    (putObject E o st).h = E.marshal o := by
  simp only [putObject]
  split <;> simp [storePut, storeHas, hWrite, hReset, jsonMarshal]

@[simp] theorem putBlob_built (E : Env σ) (o : Object) (d : GoBytes) (st : St σ) :
    (putBlob E o d st).built = st.built ++ [o] := by
  simp only [putBlob]
  split <;> simp [storePut, storeHas, hWrite, hReset, jsonMarshal]

@[simp] theorem putObject_built (E : Env σ) (o : Object) (st : St σ) :
    (putObject E o st).built = st.built ++ [o] := by
  simp only [putObject]
  split <;> simp [storePut, storeHas, hWrite, hReset, jsonMarshal]

theorem hSum_putBlob (E : Env σ) (o : Object) (d : GoBytes) (st : St σ) :
    hSum E (putBlob E o d st) = keyOf E o := by
  simp [hSum, keyOf]

theorem hSum_rehash (E : Env σ) (o : Object) (st : St σ) :
    hSum E (hWrite (jsonMarshal E o st).1 (hReset (jsonMarshal E o st).2)) = keyOf E o := by
  simp [hSum, keyOf, hWrite, hReset, jsonMarshal]

/-- The calls `putBlob` makes: one `Has`, and one `Put` of the data if it reported absence. -/
theorem putBlob_calls (E : Env σ) (o : Object) (d : GoBytes) (st : St σ) :
    (putBlob E o d st).calls = st.calls ++
      (if (E.Has st.store (keyOf E o)).1 then
        [Call.has (keyOf E o) true (E.Has st.store (keyOf E o)).2.1]
      else
        [Call.has (keyOf E o) false (E.Has st.store (keyOf E o)).2.1,
          Call.put (keyOf E o) d.toList
            (E.Put (E.Has st.store (keyOf E o)).2.2 (keyOf E o) d.toList).1]) := by
  unfold putBlob
  cases hf : (E.Has st.store (keyOf E o)).1 <;>
    simp [storePut, storeHas, hWrite, hReset, jsonMarshal, hSum, keyOf] at hf ⊢ <;> simp [hf]

/-- The calls `putObject` makes: one `Has`, and one `Put` of the serialization if it
reported absence. -/
theorem putObject_calls (E : Env σ) (o : Object) (st : St σ) :
    (putObject E o st).calls = st.calls ++
      (if (E.Has st.store (keyOf E o)).1 then
        [Call.has (keyOf E o) true (E.Has st.store (keyOf E o)).2.1]
      else
        [Call.has (keyOf E o) false (E.Has st.store (keyOf E o)).2.1,
          Call.put (keyOf E o) (E.marshal o)
            (E.Put (E.Has st.store (keyOf E o)).2.2 (keyOf E o) (E.marshal o)).1]) := by
  unfold putObject
  cases hf : (E.Has st.store (keyOf E o)).1 <;>
    simp [storePut, storeHas, hWrite, hReset, jsonMarshal, hSum, keyOf] at hf ⊢ <;> simp [hf]

/-- The store after `putBlob`. -/
theorem putBlob_store (E : Env σ) (o : Object) (d : GoBytes) (st : St σ) :
    (putBlob E o d st).store =
      if (E.Has st.store (keyOf E o)).1 then (E.Has st.store (keyOf E o)).2.2
      else (E.Put (E.Has st.store (keyOf E o)).2.2 (keyOf E o) d.toList).2 := by
  unfold putBlob
  cases hf : (E.Has st.store (keyOf E o)).1 <;>
    simp [storePut, storeHas, hWrite, hReset, jsonMarshal, hSum, keyOf] at hf ⊢ <;> simp [hf]

/-- The store after `putObject`. -/
theorem putObject_store (E : Env σ) (o : Object) (st : St σ) :
    (putObject E o st).store =
      if (E.Has st.store (keyOf E o)).1 then (E.Has st.store (keyOf E o)).2.2
      else (E.Put (E.Has st.store (keyOf E o)).2.2 (keyOf E o) (E.marshal o)).2 := by
  unfold putObject
  cases hf : (E.Has st.store (keyOf E o)).1 <;>
    simp [storePut, storeHas, hWrite, hReset, jsonMarshal, hSum, keyOf] at hf ⊢ <;> simp [hf]

/-! ## Runs -/

@[simp] theorem run_nil (E : Env σ) (st : St σ) : run E [] st = st := rfl

@[simp] theorem run_cons (E : Env σ) (e : Ev) (es : List Ev) (st : St σ) :
    run E (e :: es) st = run E es (step E e st) := rfl

theorem run_append (E : Env σ) (a b : List Ev) (st : St σ) :
    run E (a ++ b) st = run E b (run E a st) := by
  induction a generalizing st with
  | nil => rfl
  | cons e es ih => simp [ih]

theorem step_built (E : Env σ) (e : Ev) (st : St σ) :
    (step E e st).built = st.built ++ [e.object] := by
  cases e <;> simp [step, Ev.object, hWrite, hReset, jsonMarshal]

/-- A run marshals the objects of its events, in order. -/
theorem run_built (E : Env σ) (evs : List Ev) (st : St σ) :
    (run E evs st).built = st.built ++ evs.map Ev.object := by
  induction evs generalizing st with
  | nil => simp
  | cons e es ih => simp [ih, step_built]

theorem step_h (E : Env σ) (e : Ev) (st : St σ) : (step E e st).h = E.marshal e.object := by
  cases e <;> simp [step, Ev.object, hWrite, hReset, jsonMarshal]

/-- After a run the hash holds the serialization of the last object marshalled, and nothing
else. -/
theorem run_h (E : Env σ) (pre : List Ev) (e : Ev) (st : St σ) :
    (run E (pre ++ [e]) st).h = E.marshal e.object := by
  rw [run_append]
  simp [step_h]

theorem guarded_append {a b : List Call} (ha : Guarded a) (hb : Guarded b) :
    Guarded (a ++ b) := by
  induction ha with
  | nil => simpa using hb
  | has key found failed rest _ ih => exact Guarded.has key found failed _ ih
  | hasPut key value failed failed2 rest _ ih =>
    exact Guarded.hasPut key value failed failed2 _ ih

theorem step_calls (E : Env σ) (e : Ev) (st : St σ) :
    ∃ cs, (step E e st).calls = st.calls ++ cs ∧ Guarded cs ∧
      ∀ k v f, Call.put k v f ∈ cs → PutOf E e k v := by
  cases e with
  | blob o d =>
    refine ⟨_, putBlob_calls E o d st, ?_, ?_⟩
    · split
      · exact Guarded.has _ _ _ _ Guarded.nil
      · exact Guarded.hasPut _ _ _ _ _ Guarded.nil
    · intro k v f hmem
      split at hmem
      · simp at hmem
      · simp at hmem
        exact Or.inl ⟨o, d, rfl, hmem.1, hmem.2.1⟩
  | obj o =>
    refine ⟨_, putObject_calls E o st, ?_, ?_⟩
    · split
      · exact Guarded.has _ _ _ _ Guarded.nil
      · exact Guarded.hasPut _ _ _ _ _ Guarded.nil
    · intro k v f hmem
      split at hmem
      · simp at hmem
      · simp at hmem
        exact Or.inr ⟨o, rfl, hmem.1, hmem.2.1⟩
  | rehash o =>
    exact ⟨[], by simp [step, hWrite, hReset, jsonMarshal], Guarded.nil, by simp⟩

/-- The store calls of a run: they extend the log, every `Put` among them is guarded by a
`Has`, and every `Put` is the one of an event of the run. -/
theorem run_calls (E : Env σ) (evs : List Ev) (st : St σ) :
    ∃ cs, (run E evs st).calls = st.calls ++ cs ∧ Guarded cs ∧
      ∀ k v f, Call.put k v f ∈ cs → ∃ e ∈ evs, PutOf E e k v := by
  induction evs generalizing st with
  | nil => exact ⟨[], by simp, Guarded.nil, by simp⟩
  | cons e es ih =>
    obtain ⟨c1, h1, g1, p1⟩ := step_calls E e st
    obtain ⟨c2, h2, g2, p2⟩ := ih (step E e st)
    refine ⟨c1 ++ c2, by simp [h2, h1], guarded_append g1 g2, ?_⟩
    intro k v f hmem
    rcases List.mem_append.mp hmem with h | h
    · exact ⟨e, by simp, p1 k v f h⟩
    · obtain ⟨e2, he2, hp⟩ := p2 k v f h
      exact ⟨e2, by simp [he2], hp⟩

/-! ## Well-formed event sequences -/

theorem putsOf_append (a b : List Ev) : putsOf (a ++ b) = putsOf a ++ putsOf b := by
  simp [putsOf]

theorem ev_object_of_put {e : Ev} {o : Object} (h : e.put = some o) : e.object = o := by
  cases e <;> simp_all [Ev.put, Ev.object]

theorem ok_append (E : Env σ) {a b : List Ev} : ∀ {os : List Object},
    Ok E os a → Ok E (os ++ putsOf a) b → Ok E os (a ++ b) := by
  induction a with
  | nil => intro os _ hb; simpa [putsOf] using hb
  | cons e es ih =>
    intro os ha hb
    cases e with
    | blob o d => exact ⟨ha.1, ih ha.2 (by simpa [putsOf, Ev.put] using hb)⟩
    | obj o => exact ⟨ha.1, ih ha.2 (by simpa [putsOf, Ev.put] using hb)⟩
    | rehash o => exact ⟨ha.1, ih ha.2 (by simpa [putsOf, Ev.put] using hb)⟩

/-- The object a building sequence builds is among the objects it offers to the store. -/
theorem builds_mem_putsOf {E : Env σ} {o : Object} {evs : List Ev} (h : Builds E o evs) :
    o ∈ putsOf evs := by
  obtain ⟨⟨pre, e, rfl, he⟩, _⟩ := h
  simp [putsOf, he]

/-- After building `o` the hash holds the serialization of `o`. -/
theorem builds_run_h {E : Env σ} {o : Object} {evs : List Ev} (h : Builds E o evs)
    (st : St σ) : (run E evs st).h = E.marshal o := by
  obtain ⟨⟨pre, e, rfl, he⟩, _⟩ := h
  rw [run_h, ev_object_of_put he]

/-! ## The leaf level -/

theorem goBytes_append_tag (d : GoBytes) (t : List Byte) (ht : t ≠ []) :
    d.append t = .mk (d.toList ++ t) := by
  cases d <;> cases t <;> simp_all [GoBytes.append, GoBytes.toList]

theorem tagData_ne : tagData ≠ [] := by decide

theorem tagLink_ne : tagLink ≠ [] := by decide

theorem tagTree_ne : tagTree ≠ [] := by decide

/-- Inside the buffer the slice `[seedId:end]` of the leaf loop is the chunk at `seedId`. -/
theorem slice_chunk (b : GoBytes) (seedId : Nat) (h : seedId ≤ b.len) :
    b.slice seedId (if b.len < seedId + leafSize then b.len else seedId + leafSize) =
      some (chunkAt b seedId) := by
  cases b with
  | nil =>
    simp only [GoBytes.len, GoBytes.toList, List.length_nil] at h ⊢
    have : seedId = 0 := by omega
    subst this
    simp [GoBytes.slice, chunkAt, GoBytes.len, GoBytes.toList]
  | mk bs =>
    simp only [GoBytes.len, GoBytes.toList] at h ⊢
    unfold GoBytes.slice chunkAt
    simp only [GoBytes.len, GoBytes.toList]
    split
    · next hlt =>
      rw [if_pos ⟨h, le_refl _⟩]
      simp only [List.take_length, Option.some.injEq, GoBytes.mk.injEq]
      rw [List.take_of_length_le]
      simp only [List.length_drop]
      omega
    · next hge =>
      rw [if_pos ⟨by omega, by omega⟩]
      simp only [Option.some.injEq, GoBytes.mk.injEq]
      rw [List.drop_take]
      congr 1
      omega

/-- The tail slice `[seedId:]` of a buffer with at most `leafSize` bytes left. -/
theorem slice_tail (b : GoBytes) (seedId : Nat) (h : seedId ≤ b.len)
    (hl : b.len - seedId ≤ leafSize) :
    b.slice seedId b.len = some (chunkAt b seedId) := by
  have := slice_chunk b seedId h
  by_cases hlt : b.len < seedId + leafSize
  · simpa [hlt] using this
  · have e : seedId + leafSize = b.len := by omega
    simpa [hlt, e] using this

/-- The leaf loop in closed form: it cuts the chunks at `leafSeeds`, puts each as a blob and
appends one link and one tag per chunk.  It returns for every state. -/
theorem leafLoop_eq (E : Env σ) (node : File) (n : Nat) :
    ∀ (links : Object) (totalLen seedId : Nat) (st : St σ), seedId ≤ node.Bytes.len →
    leafLoop E node (n + 1) links totalLen seedId st =
      some (
        { Links := links.Links ++ (leafSeeds node.Bytes.len (n + 1) seedId).map
            (fun s => linkTo E (leafOf (chunkAt node.Bytes s)) (chunkAt node.Bytes s).len),
          Data := .mk (links.Data.toList ++
            (List.replicate (leafSeeds node.Bytes.len (n + 1) seedId).length tagData).flatten) },
        totalLen + ((leafSeeds node.Bytes.len (n + 1) seedId).map
          (fun s => (chunkAt node.Bytes s).len)).sum,
        run E ((leafSeeds node.Bytes.len (n + 1) seedId).map
          (fun s => Ev.blob (leafOf (chunkAt node.Bytes s)) (chunkAt node.Bytes s))) st) := by
  induction n with
  | zero =>
    intro links totalLen seedId st hs
    simp only [leafLoop, slice_chunk _ _ hs, hSum_putBlob, goBytes_append_tag _ _ tagData_ne]
    simp [leafSeeds, leafLoop, linkTo, leafOf, step]
  | succ n ih =>
    intro links totalLen seedId st hs
    rw [leafLoop]
    simp only [slice_chunk _ _ hs, hSum_putBlob, goBytes_append_tag _ _ tagData_ne]
    by_cases hge : seedId + leafSize ≥ node.Bytes.len
    · simp [leafSeeds, hge, linkTo, leafOf, step]
    · have e : leafSeeds node.Bytes.len (n + 1 + 1) seedId =
          seedId :: leafSeeds node.Bytes.len (n + 1) (seedId + leafSize) := by
        rw [leafSeeds, if_neg hge]
      rw [if_neg hge, ih _ _ _ _ (by omega), e]
      simp [linkTo, leafOf, step, GoBytes.toList, List.replicate_succ, Nat.add_assoc]

theorem leafSize_eq : leafSize = 262144 := by decide

theorem fanout_eq : fanout = 4096 := by decide

theorem chunkAt_len (b : GoBytes) (s : Nat) : (chunkAt b s).len = min leafSize (b.len - s) := by
  cases b <;> simp [chunkAt, GoBytes.len, GoBytes.toList]

theorem chunkAt_toList (b : GoBytes) (s : Nat) :
    (chunkAt b s).toList = (b.toList.drop s).take leafSize := by
  cases b <;> simp [chunkAt, GoBytes.toList]

theorem map_range_succ {α : Type} (f : Nat → α) (k : Nat) :
    (List.range (k + 1)).map f = f 0 :: (List.range k).map (fun i => f (i + 1)) := by
  rw [List.range_succ_eq_map, List.map_cons, List.map_map]
  rfl

theorem seeds_shift (seedId L : Nat) :
    (fun i => seedId + (i + 1) * L) = fun i => seedId + L + i * L := by
  funext i
  rw [Nat.succ_mul]
  omega

/-- With enough iterations the leaf loop cuts at every multiple of `leafSize` from the cursor
up to the end of the buffer. -/
theorem leafSeeds_eq_range (len : Nat) : ∀ (n seedId : Nat), seedId < len →
    len - seedId ≤ n * leafSize →
    leafSeeds len n seedId =
      (List.range ((len - seedId + (leafSize - 1)) / leafSize)).map
        (fun i => seedId + i * leafSize) := by
  intro n
  induction n with
  | zero => intro seedId h1 h2; omega
  | succ n ih =>
    intro seedId h1 h2
    rw [leafSeeds]
    by_cases hge : seedId + leafSize ≥ len
    · rw [if_pos hge]
      have e : (len - seedId + (leafSize - 1)) / leafSize = 1 := by
        rw [leafSize_eq] at hge ⊢
        omega
      rw [e, map_range_succ, Nat.zero_mul, Nat.add_zero]
      rfl
    · rw [if_neg hge, ih (seedId + leafSize) (by omega) (by
        rw [Nat.succ_mul] at h2
        omega)]
      have e : (len - seedId + (leafSize - 1)) / leafSize =
          (len - (seedId + leafSize) + (leafSize - 1)) / leafSize + 1 := by
        rw [leafSize_eq] at hge ⊢
        omega
      rw [e, map_range_succ, Nat.zero_mul, Nat.add_zero, seeds_shift]

/-- The chunks the leaf loop cuts add up to what is left of the buffer. -/
theorem leafSeeds_sum (b : GoBytes) : ∀ (n seedId : Nat), seedId < b.len →
    b.len - seedId ≤ n * leafSize →
    ((leafSeeds b.len n seedId).map (fun s => (chunkAt b s).len)).sum = b.len - seedId := by
  intro n
  induction n with
  | zero => intro seedId h1 h2; omega
  | succ n ih =>
    intro seedId h1 h2
    rw [leafSeeds]
    by_cases hge : seedId + leafSize ≥ b.len
    · rw [if_pos hge]
      simp only [List.map_cons, List.map_nil, List.sum_cons, List.sum_nil, chunkAt_len]
      omega
    · rw [if_neg hge]
      simp only [List.map_cons, List.sum_cons]
      rw [ih (seedId + leafSize) (by omega) (by
        rw [Nat.succ_mul] at h2
        omega), chunkAt_len]
      omega

/-- The chunks the leaf loop cuts, in order, are what is left of the buffer. -/
theorem leafSeeds_flatten (b : GoBytes) : ∀ (n seedId : Nat), seedId < b.len →
    b.len - seedId ≤ n * leafSize →
    ((leafSeeds b.len n seedId).map (fun s => (chunkAt b s).toList)).flatten =
      b.toList.drop seedId := by
  intro n
  induction n with
  | zero => intro seedId h1 h2; omega
  | succ n ih =>
    intro seedId h1 h2
    rw [leafSeeds]
    by_cases hge : seedId + leafSize ≥ b.len
    · rw [if_pos hge]
      simp only [List.map_cons, List.map_nil, List.flatten_cons, List.flatten_nil,
        List.append_nil, chunkAt_toList]
      apply List.take_of_length_le
      simp only [List.length_drop]
      unfold GoBytes.len at hge
      omega
    · rw [if_neg hge]
      simp only [List.map_cons, List.flatten_cons]
      rw [ih (seedId + leafSize) (by omega) (by
        rw [Nat.succ_mul] at h2
        omega), chunkAt_toList]
      have := List.take_append_drop leafSize (b.toList.drop seedId)
      rw [List.drop_drop] at this
      exact this

/-- The leaf level of `dfsForSlice` when more than `leafSize` bytes are left: the closed form
of the loop, followed by putting the object of links.  It returns for every state. -/
theorem dfsForSlice_one_loop (E : Env σ) (node : File) (seedId : Nat) (st : St σ)
    (h : leafSize < node.Bytes.len - seedId) :
    dfsForSlice E node 1 seedId st =
      some (leafLevelObject E node.Bytes seedId, leafLevelLen node.Bytes seedId,
        run E (leafLevelEvents E node.Bytes seedId) st) := by
  obtain ⟨n, hn⟩ : ∃ n, fanout = n + 1 := ⟨4095, by decide⟩
  rw [dfsForSlice, if_neg (by omega)]
  unfold leafLevelEvents leafLevelLen leafLevelObject
  rw [hn, leafLoop_eq E node n _ _ _ _ (by omega)]
  simp only [run_append, run_cons, run_nil, step, GoBytes.toList, List.nil_append, Nat.zero_add]

/-- The leaf level of `dfsForSlice` when at most `leafSize` bytes are left: one blob. -/
theorem dfsForSlice_one_blob (E : Env σ) (node : File) (seedId : Nat) (st : St σ)
    (hs : seedId ≤ node.Bytes.len) (h : node.Bytes.len - seedId ≤ leafSize) :
    dfsForSlice E node 1 seedId st =
      some (leafOf (chunkAt node.Bytes seedId), (chunkAt node.Bytes seedId).len,
        run E [Ev.blob (leafOf (chunkAt node.Bytes seedId)) (chunkAt node.Bytes seedId)] st) := by
  rw [dfsForSlice, if_pos h, slice_tail _ _ hs h]
  simp [leafOf, step]

/-! ## The internal levels -/

theorem kindTag_ne (c : Object) : kindTag c ≠ [] := by
  unfold kindTag
  split
  · exact tagData_ne
  · exact tagLink_ne

/-- With the cursor at or past the end of the buffer the internal loop builds nothing. -/
theorem internalLoop_done (E : Env σ) (node : File)
    (child : Nat → St σ → Option (Object × Nat × St σ)) (seedId : Nat)
    (h : seedId ≥ node.Bytes.len) (n : Nat) (links : Object) (totalLen : Nat) (st : St σ) :
    internalLoop E node child seedId n links totalLen st = some (links, totalLen, st) := by
  cases n <;> simp [internalLoop, h]

/-- The internal loop in closed form, with the cursor inside the buffer: every iteration
calls the child at the same cursor, so every iteration builds the same child. -/
theorem internalLoop_eq (E : Env σ) (node : File)
    (child : Nat → St σ → Option (Object × Nat × St σ)) (seedId : Nat)
    (c : Object) (cl : Nat) (cevs : List Ev)
    (hchild : ∀ st, child seedId st = some (c, cl, run E cevs st))
    (hlt : seedId < node.Bytes.len) (n : Nat) :
    ∀ (links : Object) (totalLen : Nat) (st : St σ),
    internalLoop E node child seedId (n + 1) links totalLen st =
      some (
        { Links := links.Links ++ List.replicate (n + 1) (linkTo E c cl),
          Data := .mk (links.Data.toList ++ (List.replicate (n + 1) (kindTag c)).flatten) },
        totalLen + (n + 1) * cl,
        run E (List.replicate (n + 1) (cevs ++ [Ev.rehash c])).flatten st) := by
  have hnot : ¬ seedId ≥ node.Bytes.len := by omega
  induction n with
  | zero =>
    intro links totalLen st
    have e : (if c.Links = [] then tagData else tagLink) = kindTag c := rfl
    simp only [internalLoop, if_neg hnot, hchild, hSum_rehash, e,
      goBytes_append_tag _ _ (kindTag_ne c)]
    simp [linkTo, run_append, step]
  | succ n ih =>
    intro links totalLen st
    rw [internalLoop]
    simp only [if_neg hnot, hchild, hSum_rehash]
    rw [ih]
    have e : (if c.Links = [] then tagData else tagLink) = kindTag c := rfl
    rw [e, goBytes_append_tag _ _ (kindTag_ne c)]
    simp only [GoBytes.toList, List.replicate_succ (n := n + 1), List.flatten_cons,
      List.append_assoc, List.singleton_append, run_append, run_cons, run_nil, step,
      List.cons_append, List.nil_append, linkTo]
    congr 3
    rw [Nat.succ_mul (n + 1) cl]
    omega

/-- An internal level of `dfsForSlice` with the cursor inside the buffer, in closed form:
`fanout` links to the child built at the unchanged cursor. -/
theorem dfsForSlice_internal (E : Env σ) (node : File) (hight seedId : Nat)
    (c : Object) (cl : Nat) (cevs : List Ev)
    (hchild : ∀ st, dfsForSlice E node (hight + 1) seedId st = some (c, cl, run E cevs st))
    (hlt : seedId < node.Bytes.len) (st : St σ) :
    dfsForSlice E node (hight + 2) seedId st =
      some (internalObject E c cl, fanout * cl, run E (internalEvents E c cl cevs) st) := by
  obtain ⟨n, hn⟩ : ∃ n, fanout = n + 1 := ⟨4095, by decide⟩
  rw [dfsForSlice]
  unfold internalEvents internalObject
  rw [hn, internalLoop_eq E node _ seedId c cl cevs hchild hlt n]
  simp only [run_append, run_cons, run_nil, step, GoBytes.toList, List.nil_append, Nat.zero_add]

/-- An internal level of `dfsForSlice` with the cursor at or past the end of the buffer: the
empty object. -/
theorem dfsForSlice_internal_done (E : Env σ) (node : File) (hight seedId : Nat)
    (hge : seedId ≥ node.Bytes.len) (st : St σ) :
    dfsForSlice E node (hight + 2) seedId st =
      some (emptyObject, 0, run E [Ev.obj emptyObject] st) := by
  rw [dfsForSlice, internalLoop_done E node _ seedId hge]
  rfl

/-! ## The height computed by `sliceFile` -/

/-- The loop adds to `hight` the least `k ≥ 1` with `tmp < fanout ^ k`. -/
theorem hightLoop_spec (tmp : Nat) : ∀ hight,
    hight + 1 ≤ hightLoop hight tmp ∧ tmp < fanout ^ (hightLoop hight tmp - hight) ∧
      ∀ k, 1 ≤ k → tmp < fanout ^ k → hightLoop hight tmp ≤ hight + k := by
  induction tmp using Nat.strong_induction_on with
  | _ tmp ih =>
    intro hight
    rw [hightLoop]
    by_cases h0 : tmp / fanout = 0
    · rw [if_pos h0]
      have hlt : tmp < fanout := (Nat.div_eq_zero_iff fanout_pos).mp h0
      exact ⟨le_refl _, by simpa using hlt, fun k hk _ => by omega⟩
    · rw [if_neg h0]
      have hpos : 0 < tmp := Nat.pos_of_ne_zero (fun h => h0 (by simp [h]))
      have hlt : tmp / fanout < tmp := Nat.div_lt_self hpos (by decide)
      obtain ⟨h1, h2, h3⟩ := ih (tmp / fanout) hlt (hight + 1)
      refine ⟨by omega, ?_, ?_⟩
      · have e : hightLoop (hight + 1) (tmp / fanout) - hight
            = (hightLoop (hight + 1) (tmp / fanout) - (hight + 1)) + 1 := by omega
        rw [e, pow_succ]
        exact (Nat.div_lt_iff_lt_mul fanout_pos).mp h2
      · intro k hk hlt'
        rcases k with _ | k
        · omega
        · rcases k with _ | k
          · exact absurd (Nat.div_eq_of_lt (by simpa using hlt')) h0
          · have := h3 (k + 1) (by omega)
              ((Nat.div_lt_iff_lt_mul fanout_pos).mpr (by simpa [pow_succ] using hlt'))
            omega

/-- Dividing `k` times by the fanout is dividing by its `k`-th power. -/
theorem iterate_div_fanout (k n : Nat) : (fun x => x / 4096)^[k] n = n / 4096 ^ k := by
  induction k generalizing n with
  | zero => simp
  | succ k ih =>
    rw [Function.iterate_succ_apply, ih, Nat.div_div_eq_div_mul, pow_succ, Nat.mul_comm]

/-- C6: for every leaf count `n`, the height `hightLoop 0 n` that `sliceFile` computes is at
least 1, dividing `n` by 4096 that many times gives 0 (that is, `n < 4096 ^ height`), and no
smaller positive number of divisions does: it is the smallest `h ≥ 1` with `n < 4096 ^ h`. -/
theorem hight_is_least_number_of_divisions (n : Nat) :
    1 ≤ hightLoop 0 n ∧ n < 4096 ^ hightLoop 0 n ∧
      (fun x => x / 4096)^[hightLoop 0 n] n = 0 ∧
      ∀ h, 1 ≤ h → (n < 4096 ^ h ∨ (fun x => x / 4096)^[h] n = 0) → hightLoop 0 n ≤ h := by
  obtain ⟨h1, h2, h3⟩ := hightLoop_spec n 0
  have h2' : n < 4096 ^ hightLoop 0 n := by simpa [fanout] using h2
  refine ⟨by omega, h2', ?_, ?_⟩
  · rw [iterate_div_fanout]
    exact Nat.div_eq_of_lt h2'
  · intro h hh hor
    have hlt : n < fanout ^ h := by
      rcases hor with hlt | hit
      · simpa [fanout] using hlt
      · rw [iterate_div_fanout] at hit
        have := (Nat.div_eq_zero_iff (by positivity)).mp hit
        simpa [fanout] using this
    simpa using h3 h hh hlt

/-- C7, the claim as stated fails at 8192 leaves: 8192 is a multiple of 4096, the minimum
height needed for it (the least `h ≥ 1` with `4096 ^ h ≥ 8192`) is 2, and the height
computed is 2 as well, not 3. -/
theorem hight_multiple_of_fanout_not_one_greater :
    4096 ∣ 8192 ∧ IsLeast {h : Nat | 1 ≤ h ∧ 8192 ≤ 4096 ^ h} 2 ∧
      hightLoop 0 8192 = 2 ∧ hightLoop 0 8192 ≠ 2 + 1 := by
  have e : hightLoop 0 8192 = 2 := by rw [hightLoop, hightLoop]; decide
  refine ⟨by decide, ⟨⟨by decide, by decide⟩, ?_⟩, e, by rw [e]; decide⟩
  rintro h ⟨h1, h2⟩
  rcases h with _ | _ | h
  · omega
  · exact absurd h2 (by decide)
  · omega

/-- C7 as amended: let `m` be the minimum height needed for `n` leaves, the least `h ≥ 1`
with `4096 ^ h ≥ n`.  The height computed is `m + 1` when `n` is the power `4096 ^ m` of the
fanout (for example `n = 4096`), and `m` for every other `n`, the other multiples of 4096
included. -/
theorem hight_one_greater_iff_power_of_fanout (n m : Nat)
    (hm : IsLeast {h : Nat | 1 ≤ h ∧ n ≤ 4096 ^ h} m) :
    hightLoop 0 n = if n = 4096 ^ m then m + 1 else m := by
  obtain ⟨⟨hm1, hm2⟩, hmin⟩ := hm
  obtain ⟨h1, h2, h3⟩ := hightLoop_spec n 0
  simp only [Nat.zero_add, Nat.sub_zero, fanout] at h1 h2 h3
  have hle : m ≤ hightLoop 0 n := hmin ⟨h1, le_of_lt h2⟩
  split
  · next heq =>
    have hup : hightLoop 0 n ≤ m + 1 :=
      h3 (m + 1) (by omega) (by rw [heq]; exact Nat.pow_lt_pow_right (by decide) (by omega))
    have hne : hightLoop 0 n ≠ m := by
      intro hh
      rw [hh, heq] at h2
      exact lt_irrefl _ h2
    omega
  · next hne =>
    have hup : hightLoop 0 n ≤ m := h3 m hm1 (lt_of_le_of_ne hm2 hne)
    omega

/-- C7 as amended, at 4096 leaves: the minimum needed is 1 and the height computed is 2. -/
theorem hight_one_greater_iff_power_of_fanout_witness :
    IsLeast {h : Nat | 1 ≤ h ∧ 4096 ≤ 4096 ^ h} 1 ∧
      hightLoop 0 4096 = if 4096 = 4096 ^ 1 then 1 + 1 else 1 :=
  ⟨⟨⟨by decide, by decide⟩, fun _ hh => hh.1⟩,
    hight_one_greater_iff_power_of_fanout 4096 1 ⟨⟨by decide, by decide⟩, fun _ hh => hh.1⟩⟩

/-! ## What `dfsForSlice` and `sliceFile` build -/

theorem ok_blobs (E : Env σ) (f : Nat → GoBytes) (l : List Nat) : ∀ os : List Object,
    Ok E os (l.map (fun s => Ev.blob (leafOf (f s)) (f s))) := by
  induction l with
  | nil => intro os; trivial
  | cons a l ih => intro os; exact ⟨⟨rfl, rfl⟩, ih _⟩

theorem putsOf_blobs (f : Nat → GoBytes) (l : List Nat) :
    putsOf (l.map (fun s => Ev.blob (leafOf (f s)) (f s))) = l.map (fun s => leafOf (f s)) := by
  induction l with
  | nil => rfl
  | cons a l ih =>
    simp only [List.map_cons, putsOf, List.filterMap_cons, Ev.put] at ih ⊢
    rw [ih]

theorem ok_replicate_flatten (E : Env σ) (x : List Ev) (hx : ∀ os, Ok E os x) (n : Nat) :
    ∀ os, Ok E os (List.replicate n x).flatten := by
  induction n with
  | zero => intro os; trivial
  | succ n ih =>
    intro os
    rw [List.replicate_succ, List.flatten_cons]
    exact ok_append E (hx os) (ih _)

theorem leafSeeds_ne_nil (len n seedId : Nat) : leafSeeds len (n + 1) seedId ≠ [] := by
  simp [leafSeeds]

/-- One blob builds a leaf. -/
theorem builds_blob (E : Env σ) (d : GoBytes) : Builds E (leafOf d) [Ev.blob (leafOf d) d] :=
  ⟨⟨[], _, rfl, rfl⟩, fun _ => ⟨⟨rfl, rfl⟩, trivial⟩⟩

/-- The empty object alone is a building sequence. -/
theorem builds_empty (E : Env σ) : Builds E emptyObject [Ev.obj emptyObject] :=
  ⟨⟨[], _, rfl, rfl⟩, fun _ => ⟨⟨by simp [emptyObject], Or.inr rfl⟩, trivial⟩⟩

/-- The events of the leaf level build its object of links. -/
theorem builds_leafLevel (E : Env σ) (b : GoBytes) (seedId : Nat) :
    Builds E (leafLevelObject E b seedId) (leafLevelEvents E b seedId) := by
  refine ⟨⟨_, _, rfl, rfl⟩, fun os => ?_⟩
  unfold leafLevelEvents
  refine ok_append E (ok_blobs E _ _ os) ⟨⟨?_, Or.inl ?_⟩, trivial⟩
  · intro l hl
    simp only [leafLevelObject, List.mem_map] at hl
    obtain ⟨s, hs, rfl⟩ := hl
    refine ⟨leafOf (chunkAt b s), ?_, rfl⟩
    rw [putsOf_blobs]
    exact List.mem_append_right _ (List.mem_map.mpr ⟨s, hs, rfl⟩)
  · obtain ⟨n, hn⟩ : ∃ n, fanout = n + 1 := ⟨4095, by decide⟩
    simp only [leafLevelObject, hn, ne_eq, List.map_eq_nil_iff]
    exact leafSeeds_ne_nil _ _ _

/-- The events of an internal level build its object of links, when the events of the child
build the child. -/
theorem builds_internal (E : Env σ) (c : Object) (cl : Nat) (cevs : List Ev)
    (hc : Builds E c cevs) : Builds E (internalObject E c cl) (internalEvents E c cl cevs) := by
  refine ⟨⟨_, _, rfl, rfl⟩, fun os => ?_⟩
  unfold internalEvents
  have hx : ∀ os, Ok E os (cevs ++ [Ev.rehash c]) := fun os =>
    ok_append E (hc.2 os) ⟨List.mem_append_right _ (builds_mem_putsOf hc), trivial⟩
  obtain ⟨n, hn⟩ : ∃ n, fanout = n + 1 := ⟨4095, by decide⟩
  refine ok_append E (ok_replicate_flatten E _ hx _ os) ⟨⟨?_, Or.inl ?_⟩, trivial⟩
  · intro l hl
    simp only [internalObject] at hl
    rw [List.eq_of_mem_replicate hl]
    refine ⟨c, List.mem_append_right _ ?_, rfl⟩
    rw [hn, List.replicate_succ, List.flatten_cons, putsOf_append, putsOf_append]
    exact List.mem_append_left _ (List.mem_append_left _ (builds_mem_putsOf hc))
  · simp only [internalObject, hn, List.replicate_succ]
    exact List.cons_ne_nil _ _

/-- For every height at least 1 and every cursor inside the buffer (its end included),
`dfsForSlice` returns, and the object, the number of bytes reported and the events do not
depend on the state it is called in. -/
theorem dfsForSlice_builds (E : Env σ) (node : File) : ∀ hight, 1 ≤ hight →
    ∀ seedId, seedId ≤ node.Bytes.len →
    ∃ o t evs, (∀ st, dfsForSlice E node hight seedId st = some (o, t, run E evs st)) ∧
      Builds E o evs := by
  intro hight
  induction hight with
  | zero => intro h; omega
  | succ k ih =>
    intro _ seedId hs
    rcases k with _ | k
    · by_cases hl : node.Bytes.len - seedId ≤ leafSize
      · exact ⟨_, _, _, fun st => dfsForSlice_one_blob E node seedId st hs hl, builds_blob E _⟩
      · exact ⟨_, _, _, fun st => dfsForSlice_one_loop E node seedId st (by omega),
          builds_leafLevel E _ _⟩
    · by_cases hlt : seedId < node.Bytes.len
      · obtain ⟨c, cl, cevs, hc, hb⟩ := ih (by omega) seedId hs
        exact ⟨_, _, _, fun st => dfsForSlice_internal E node k seedId c cl cevs hc hlt st,
          builds_internal E c cl cevs hb⟩
      · exact ⟨_, _, _, fun st => dfsForSlice_internal_done E node k seedId (by omega) st,
          builds_empty E⟩

/-- For every file `sliceFile` returns, and the object and the events do not depend on the
state it is called in. -/
theorem sliceFile_builds (E : Env σ) (node : File) :
    ∃ o evs, (∀ st, sliceFile E node st = some (o, run E evs st)) ∧ Builds E o evs := by
  by_cases hle : node.Bytes.len ≤ leafSize
  · refine ⟨leafOf node.Bytes, [Ev.blob (leafOf node.Bytes) node.Bytes], fun st => ?_,
      builds_blob E _⟩
    simp [sliceFile, hle, leafOf, step]
  · obtain ⟨o, t, evs, ho, hb⟩ := dfsForSlice_builds E node
      (hightLoop 0 (linkLen node.Bytes.len)) (hightLoop_spec _ 0).1 0 (Nat.zero_le _)
    exact ⟨o, evs, fun st => by simp [sliceFile, hle, ho], hb⟩

/-! ## What `sliceDirectory` and `Add` build -/

/-- One step of the directory loop: after the child `c` was built by `cevs`, the loop hashes
it again, appends a link to it and goes on. -/
theorem dirLoop_step (E : Env σ) (c : Object) (cevs : List Ev) (hc : Builds E c cevs)
    (name : String) (size : Int) (tag : List Byte) (tree : Object)
    (o : Object) (evs : List Ev)
    (h2 : ∀ os, LinksIn E os
        { Links := tree.Links ++ [{ Name := name, Hash := keyOf E c, Size := size }],
          Data := tree.Data.append tag } →
      Ok E os evs ∧ LinksIn E (os ++ putsOf evs) o) :
    ∀ os, LinksIn E os tree →
      Ok E os (cevs ++ [Ev.rehash c] ++ evs) ∧
        LinksIn E (os ++ putsOf (cevs ++ [Ev.rehash c] ++ evs)) o := by
  intro os hos
  have hp : putsOf (cevs ++ [Ev.rehash c]) = putsOf cevs := by
    simp [putsOf, Ev.put]
  have hin : LinksIn E (os ++ putsOf cevs)
      { Links := tree.Links ++ [{ Name := name, Hash := keyOf E c, Size := size }],
        Data := tree.Data.append tag } := by
    intro l hl
    rcases List.mem_append.mp hl with h | h
    · obtain ⟨c2, hc2, e⟩ := hos l h
      exact ⟨c2, List.mem_append_left _ hc2, e⟩
    · simp only [List.mem_singleton] at h
      subst h
      exact ⟨c, List.mem_append_right _ (builds_mem_putsOf hc), rfl⟩
  obtain ⟨hok, hl⟩ := h2 _ hin
  refine ⟨ok_append E (ok_append E (hc.2 os) ⟨List.mem_append_right _ (builds_mem_putsOf hc), trivial⟩)
    (by rw [hp]; exact hok), ?_⟩
  rw [putsOf_append, hp, ← List.append_assoc]
  exact hl

mutual
/-- For every directory `sliceDirectory` returns, and the object and the events do not depend
on the state it is called in. -/
theorem sliceDirectory_builds (E : Env σ) : ∀ dir : Dir,
    ∃ o evs, (∀ st, sliceDirectory E dir st = some (o, run E evs st)) ∧ Builds E o evs
  | .mk _ _ It => by
    obtain ⟨o, evs, h1, h2, h3⟩ := dirLoop_builds E It { Links := [], Data := .nil }
    refine ⟨o, evs ++ [Ev.obj o], fun st => ?_, ⟨evs, _, rfl, rfl⟩, fun os => ?_⟩
    · simp [sliceDirectory, h1, run_append, step]
    · have hemp : LinksIn E os { Links := [], Data := .nil } := by
        intro l hl
        simp at hl
      exact ok_append E (h2 os hemp).1 ⟨⟨(h2 os hemp).2, h3 (Or.inr rfl)⟩, trivial⟩
/-- The directory loop returns for every list of children; its events are well formed and
every link it appends points to a child built before. -/
theorem dirLoop_builds (E : Env σ) : ∀ (children : List Node) (tree : Object),
    ∃ o evs, (∀ st, dirLoop E children tree st = some (o, run E evs st)) ∧
      (∀ os, LinksIn E os tree → Ok E os evs ∧ LinksIn E (os ++ putsOf evs) o) ∧
      ((tree.Links ≠ [] ∨ tree = { Links := [], Data := .nil }) →
        (o.Links ≠ [] ∨ o = { Links := [], Data := .nil }))
  | [], tree =>
    ⟨tree, [], fun st => by simp [dirLoop], fun os h => ⟨trivial, by simpa [putsOf] using h⟩,
      fun h => h⟩
  | .file f :: rest, tree => by
    obtain ⟨c, cevs, hc, hb⟩ := sliceFile_builds E f
    obtain ⟨o, evs, h1, h2, h3⟩ := dirLoop_builds E rest
      { Links := tree.Links ++ [{ Name := f.Name, Hash := keyOf E c, Size := intOfUint64 f.Size }],
        Data := tree.Data.append (kindTag c) }
    refine ⟨o, cevs ++ [Ev.rehash c] ++ evs, fun st => ?_,
      dirLoop_step E c cevs hb _ _ _ tree o evs h2, fun _ => h3 (Or.inl ?_)⟩
    · simp only [dirLoop, hc, hSum_rehash]
      rw [show (if c.Links = [] then tagData else tagLink) = kindTag c from rfl, h1]
      simp [run_append, step]
    · simp
  | .dir d :: rest, tree => by
    obtain ⟨c, cevs, hc, hb⟩ := sliceDirectory_builds E d
    obtain ⟨o, evs, h1, h2, h3⟩ := dirLoop_builds E rest
      { Links := tree.Links ++ [{ Name := d.Name, Hash := keyOf E c, Size := intOfUint64 d.Size }],
        Data := tree.Data.append tagTree }
    refine ⟨o, cevs ++ [Ev.rehash c] ++ evs, fun st => ?_,
      dirLoop_step E c cevs hb _ _ _ tree o evs h2, fun _ => h3 (Or.inl ?_)⟩
    · simp only [dirLoop, hc, hSum_rehash, h1]
      simp [run_append, step]
    · simp
end

/-- For every root node and every state `Add` returns.  With `o` the root object and `evs`
the events of slicing the node, it marshals `o` once more, writes the serialization to the
hash without a reset, and returns the digest of what the hash then holds: the serialization
of `o` twice. -/
theorem Add_eq (E : Env σ) (node : Node) :
    ∃ o evs, Builds E o evs ∧ ∀ st, Add E node st =
      some (E.digest (E.marshal o ++ E.marshal o),
        hWrite (E.marshal o) (jsonMarshal E o (run E evs st)).2) := by
  cases node with
  | file f =>
    obtain ⟨o, evs, h, hb⟩ := sliceFile_builds E f
    refine ⟨o, evs, hb, fun st => ?_⟩
    simp only [Add, h]
    simp [hSum, hWrite, jsonMarshal, builds_run_h hb]
  | dir d =>
    obtain ⟨o, evs, h, hb⟩ := sliceDirectory_builds E d
    refine ⟨o, evs, hb, fun st => ?_⟩
    simp only [Add, h]
    simp [hSum, hWrite, jsonMarshal, builds_run_h hb]

/-! ## `sliceFile` on files of one leaf and of one level -/

/-- C2: for a file whose content has at most 262144 bytes (the empty file and a file of
exactly 262144 bytes included) `sliceFile` returns, for every store and hash state, the single
leaf object without links whose data is the whole content.  It asks the store for the digest
of that object's serialization; when the store reports the key absent it puts the raw content
bytes under that key, and when the store reports it present it puts nothing. -/
theorem sliceFile_small_is_single_leaf (E : Env σ) (node : File) (st : St σ)
    (h : node.Bytes.len ≤ 262144) :
    ∃ st2, sliceFile E node st = some ({ Links := [], Data := node.Bytes }, st2) ∧
      ((E.Has st.store (E.digest (E.marshal { Links := [], Data := node.Bytes }))).1 = false →
        st2.store = (E.Put
          (E.Has st.store (E.digest (E.marshal { Links := [], Data := node.Bytes }))).2.2
          (E.digest (E.marshal { Links := [], Data := node.Bytes })) node.Bytes.toList).2 ∧
        ∃ f1 f2, st2.calls = st.calls ++
          [Call.has (E.digest (E.marshal { Links := [], Data := node.Bytes })) false f1,
            Call.put (E.digest (E.marshal { Links := [], Data := node.Bytes }))
              node.Bytes.toList f2]) ∧
      ((E.Has st.store (E.digest (E.marshal { Links := [], Data := node.Bytes }))).1 = true →
        ∃ f1, st2.calls = st.calls ++
          [Call.has (E.digest (E.marshal { Links := [], Data := node.Bytes })) true f1]) := by
  have hle : node.Bytes.len ≤ leafSize := by rw [leafSize_eq]; exact h
  refine ⟨putBlob E { Links := [], Data := node.Bytes } node.Bytes st, ?_, ?_, ?_⟩
  · simp [sliceFile, hle]
  · intro hf
    rw [putBlob_store, putBlob_calls]
    simp only [keyOf, hf]
    exact ⟨by simp, _, _, rfl⟩
  · intro hf
    rw [putBlob_calls]
    simp only [keyOf, hf]
    exact ⟨_, rfl⟩

/-- C2 at the empty file (a nil content) against an empty map store: one leaf, and the empty
content is put under the digest of the leaf's serialization. -/
theorem sliceFile_small_is_single_leaf_witness :
    (GoBytes.nil).len ≤ 262144 ∧
    ∃ st2, sliceFile goEnv { Name := "empty", Size := 0, Bytes := .nil } St.init =
        some ({ Links := [], Data := .nil }, st2) ∧
      st2.store = [([207, 195, 205, 206], [])] :=
  ⟨by decide, by
    obtain ⟨st2, h1, h2, _⟩ := sliceFile_small_is_single_leaf goEnv
      { Name := "empty", Size := 0, Bytes := .nil } St.init (by decide)
    exact ⟨st2, h1, (h2 (by decide)).1.trans (by decide)⟩⟩

/-- A file with more than `leafSize` bytes and at most 4095 leaves gets height 1. -/
theorem hight_one (len : Nat) (h : len ≤ 4095 * 262144) : hightLoop 0 (linkLen len) = 1 := by
  obtain ⟨h1, _, h3⟩ := hightLoop_spec (linkLen len) 0
  have hl : linkLen len < fanout ^ 1 := by
    rw [pow_one, fanout_eq]
    unfold linkLen
    rw [leafSize_eq]
    omega
  have := h3 1 (le_refl 1) hl
  omega

/-- C3: for a file of `n` bytes with `262144 < n ≤ 4095 * 262144`, `sliceFile` returns, for
every store and hash state, an object with exactly `⌈n / 262144⌉` links, at least two.  Link
`i` has an empty name, size `min 262144 (n - i * 262144)` and as hash the digest of the
serialization of the leaf holding the bytes from `i * 262144` on, at most 262144 of them.
These chunks in link order make up the whole content, the sizes add up to `n`, and the data
of the object is the tag `data` once per link. -/
theorem sliceFile_single_level (E : Env σ) (node : File) (st : St σ)
    (hlo : 262144 < node.Bytes.len) (hhi : node.Bytes.len ≤ 4095 * 262144) :
    ∃ o st2, sliceFile E node st = some (o, st2) ∧
      o.Links = (List.range ((node.Bytes.len + 262143) / 262144)).map (fun i =>
        { Name := "",
          Hash := E.digest (E.marshal
            { Links := [], Data := .mk ((node.Bytes.toList.drop (i * 262144)).take 262144) }),
          Size := ((min 262144 (node.Bytes.len - i * 262144) : Nat) : Int) }) ∧
      o.Links.length = (node.Bytes.len + 262143) / 262144 ∧
      2 ≤ o.Links.length ∧
      (o.Links.length - 1) * 262144 < node.Bytes.len ∧
      node.Bytes.len ≤ o.Links.length * 262144 ∧
      ((List.range ((node.Bytes.len + 262143) / 262144)).map
        (fun i => (node.Bytes.toList.drop (i * 262144)).take 262144)).flatten =
          node.Bytes.toList ∧
      (o.Links.map (fun l => l.Size)).sum = (node.Bytes.len : Int) ∧
      o.Data = .mk (List.replicate o.Links.length [100, 97, 116, 97]).flatten := by
  have hgt : ¬ node.Bytes.len ≤ leafSize := by rw [leafSize_eq]; omega
  have hloop : leafSize < node.Bytes.len - 0 := by rw [leafSize_eq]; omega
  have hseeds := leafSeeds_eq_range node.Bytes.len fanout 0 (by omega)
    (by rw [fanout_eq, leafSize_eq]; omega)
  have hsum := leafSeeds_sum node.Bytes fanout 0 (by omega)
    (by rw [fanout_eq, leafSize_eq]; omega)
  have hflat := leafSeeds_flatten node.Bytes fanout 0 (by omega)
    (by rw [fanout_eq, leafSize_eq]; omega)
  have hk : (node.Bytes.len - 0 + (leafSize - 1)) / leafSize =
      (node.Bytes.len + 262143) / 262144 := by
    rw [leafSize_eq]
    omega
  rw [hk] at hseeds
  simp only [Nat.zero_add] at hseeds
  obtain ⟨bs, hbs⟩ : ∃ bs, node.Bytes = .mk bs := by
    cases hb : node.Bytes with
    | nil => rw [hb] at hlo; simp [GoBytes.len, GoBytes.toList] at hlo
    | mk bs => exact ⟨bs, rfl⟩
  have hsf : sliceFile E node st = some (leafLevelObject E node.Bytes 0,
      run E (leafLevelEvents E node.Bytes 0) st) := by
    simp only [sliceFile, if_neg hgt, hight_one _ hhi, dfsForSlice_one_loop E node 0 st hloop]
  have hlen : (leafLevelObject E node.Bytes 0).Links.length =
      (node.Bytes.len + 262143) / 262144 := by
    simp [leafLevelObject, hseeds]
  refine ⟨_, _, hsf, ?_, hlen, ?_, ?_, ?_, ?_, ?_, ?_⟩
  · simp only [leafLevelObject, hseeds, List.map_map]
    apply List.map_congr_left
    intro i _
    simp only [Function.comp, linkTo, leafOf, keyOf, chunkAt_len, leafSize_eq]
    simp only [hbs, chunkAt, GoBytes.toList, leafSize_eq]
  · rw [hlen]
    omega
  · rw [hlen]
    omega
  · rw [hlen]
    omega
  · rw [hseeds, List.map_map] at hflat
    simpa only [List.drop_zero, Function.comp, chunkAt_toList, leafSize_eq] using hflat
  · have e2 : ∀ l : List Nat,
        (List.map (fun l => l.Size)
          (List.map (fun s => linkTo E (leafOf (chunkAt node.Bytes s)) (chunkAt node.Bytes s).len)
            l)).sum =
        (((List.map (fun s => (chunkAt node.Bytes s).len) l).sum : Nat) : Int) := by
      intro l
      induction l with
      | nil => simp
      | cons a l ih =>
        simp only [List.map_cons, List.sum_cons, ih, Nat.cast_add]
        rfl
    simp only [leafLevelObject]
    rw [e2, hsum]
    simp
  · simp [leafLevelObject, tagData]

theorem twoLeafFile_len : twoLeafFile.Bytes.len = 262145 := by
  show (List.replicate 262145 (0 : Byte)).length = _
  exact List.length_replicate _ _

/-- C3 at a file of 262145 bytes: two links, and the data is the tag `data` twice. -/
theorem sliceFile_single_level_witness :
    262144 < twoLeafFile.Bytes.len ∧ twoLeafFile.Bytes.len ≤ 4095 * 262144 ∧
    ∃ o st2, sliceFile goEnv twoLeafFile St.init = some (o, st2) ∧ o.Links.length = 2 ∧
      o.Data = .mk [100, 97, 116, 97, 100, 97, 116, 97] := by
  have h1 : 262144 < twoLeafFile.Bytes.len := by rw [twoLeafFile_len]; decide
  have h2 : twoLeafFile.Bytes.len ≤ 4095 * 262144 := by rw [twoLeafFile_len]; decide
  obtain ⟨o, st2, h, _, hl, _, _, _, _, _, hd⟩ :=
    sliceFile_single_level goEnv twoLeafFile St.init h1 h2
  have hl2 : o.Links.length = 2 := by rw [hl, twoLeafFile_len]
  refine ⟨h1, h2, o, st2, h, hl2, ?_⟩
  rw [hd, hl2]
  rfl

/-! ## Two levels: the children of an internal level -/

theorem bigFile_len : bigFile.Bytes.len = 1073479681 := by
  show (List.replicate 1073479681 (0 : Byte)).length = _
  exact List.length_replicate _ _

theorem bigFile_hight : hightLoop 0 (linkLen bigFile.Bytes.len) = 2 := by
  have e : linkLen bigFile.Bytes.len = 4096 := by
    rw [bigFile_len]
    decide
  rw [e, hightLoop, hightLoop]
  decide

/-- The leaf level called on `bigFile` at cursor 0 covers the whole file. -/
theorem bigFile_leafLevel (E : Env σ) (st : St σ) :
    dfsForSlice E bigFile 1 0 st =
      some (leafLevelObject E bigFile.Bytes 0, 1073479681,
        run E (leafLevelEvents E bigFile.Bytes 0) st) := by
  have hsum := leafSeeds_sum bigFile.Bytes fanout 0 (by rw [bigFile_len]; decide)
    (by rw [bigFile_len]; decide)
  rw [dfsForSlice_one_loop E bigFile 0 st (by rw [bigFile_len]; decide)]
  unfold leafLevelLen
  rw [hsum, bigFile_len]

/-! ## Store calls -/

theorem guarded_putsGuarded {cs : List Call} (h : Guarded cs) : PutsGuarded cs := by
  induction h with
  | nil =>
    intro pre k v f post e
    simp at e
  | has key found failed rest _ ih =>
    intro pre k v f post e
    rcases pre with _ | ⟨p, pre⟩
    · simp at e
    · simp only [List.cons_append, List.cons.injEq] at e
      obtain ⟨pre2, f2, h2⟩ := ih pre k v f post e.2
      exact ⟨p :: pre2, f2, by simp [h2]⟩
  | hasPut key value failed failed2 rest _ ih =>
    intro pre k v f post e
    rcases pre with _ | ⟨p, pre⟩
    · simp at e
    · simp only [List.cons_append, List.cons.injEq] at e
      rcases pre with _ | ⟨q, pre⟩
      · simp only [List.nil_append, List.cons.injEq, Call.put.injEq] at e
        exact ⟨[], failed, by simp [← e.1, e.2.1.1]⟩
      · simp only [List.cons_append, List.cons.injEq] at e
        obtain ⟨pre2, f2, h2⟩ := ih pre k v f post e.2.2
        exact ⟨p :: q :: pre2, f2, by simp [h2]⟩

theorem find_filter_of_imp {α : Type} (p q : α → Bool) (hpq : ∀ a, p a = true → q a = true)
    (s : List α) : (s.filter q).find? p = s.find? p := by
  induction s with
  | nil => rfl
  | cons a s ih =>
    by_cases hq : q a = true
    · rw [List.filter_cons_of_pos hq]
      by_cases hp : p a = true
      · rw [List.find?_cons_of_pos _ hp, List.find?_cons_of_pos _ hp]
      · rw [List.find?_cons_of_neg _ hp, List.find?_cons_of_neg _ hp, ih]
    · rw [List.filter_cons_of_neg hq, ih,
        List.find?_cons_of_neg _ (fun hp => hq (hpq a hp))]

theorem mapStore_get_put_of_ne (s : MapStore) (k v k2 : List Byte) (h : k2 ≠ k) :
    (s.put k v).get k2 = s.get k2 := by
  unfold MapStore.get MapStore.put
  rw [List.find?_cons_of_neg _ (by simpa using fun e => h e.symm)]
  rw [find_filter_of_imp]
  intro a ha
  simp only [decide_eq_true_eq] at ha
  simpa [ha] using h

theorem mapStore_get_put_self (s : MapStore) (k v : List Byte) :
    (s.put k v).get k = some v := by
  simp [MapStore.get, MapStore.put]

/-- A map store is a faithful store. -/
theorem mapEnv_faithful (marshal : Object → List Byte) (digest : List Byte → List Byte) :
    Faithful (mapEnv marshal digest) := by
  refine ⟨fun _ _ => rfl, fun s k v => ?_, fun s k v k2 h => ?_⟩
  · simp [mapEnv, mapStore_get_put_self]
  · by_cases e : k2 = k
    · subst e
      simp [mapEnv, mapStore_get_put_self]
    · simpa [mapEnv, mapStore_get_put_of_ne _ _ _ _ e] using h

/-- A guarded offer to a map store keeps every entry the store had. -/
theorem mapEnv_offer_keeps (s : MapStore) (key value k v : List Byte) (h : s.get k = some v) :
    (if (s.get key).isSome then s else s.put key value).get k = some v := by
  split
  · exact h
  · next hn =>
    have hne : k ≠ key := by
      intro e
      rw [e] at h
      simp [h] at hn
    rw [mapStore_get_put_of_ne _ _ _ _ hne]
    exact h

theorem mapEnv_step_keeps (marshal : Object → List Byte) (digest : List Byte → List Byte)
    (e : Ev) (st : St MapStore) (k v : List Byte) (h : st.store.get k = some v) :
    (step (mapEnv marshal digest) e st).store.get k = some v := by
  cases e with
  | blob o d =>
    simp only [step, putBlob_store]
    exact mapEnv_offer_keeps st.store _ _ k v h
  | obj o =>
    simp only [step, putObject_store]
    exact mapEnv_offer_keeps st.store _ _ k v h
  | rehash o => simpa [step, hWrite, hReset, jsonMarshal] using h

/-- A run against a map store keeps every entry the store had, value included. -/
theorem mapEnv_run_keeps (marshal : Object → List Byte) (digest : List Byte → List Byte)
    (evs : List Ev) : ∀ (st : St MapStore) (k v : List Byte), st.store.get k = some v →
    (run (mapEnv marshal digest) evs st).store.get k = some v := by
  induction evs with
  | nil => intro st k v h; exact h
  | cons e es ih =>
    intro st k v h
    exact ih _ k v (mapEnv_step_keeps marshal digest e st k v h)

/-! ## Faithful stores -/

theorem faithful_offer_present {E : Env σ} (hE : Faithful E) (s : σ) (key value k : List Byte)
    (h : (E.Has s k).1 = true) :
    (E.Has (if (E.Has s key).1 then (E.Has s key).2.2
      else (E.Put (E.Has s key).2.2 key value).2) k).1 = true := by
  rw [hE.1]
  split
  · exact h
  · exact hE.2.2 s key value k h

theorem faithful_offer_self {E : Env σ} (hE : Faithful E) (s : σ) (key value : List Byte) :
    (E.Has (if (E.Has s key).1 then (E.Has s key).2.2
      else (E.Put (E.Has s key).2.2 key value).2) key).1 = true := by
  rw [hE.1]
  split
  · next h => exact h
  · exact hE.2.1 s key value

theorem faithful_step_present {E : Env σ} (hE : Faithful E) (e : Ev) (st : St σ)
    (k : List Byte) (h : (E.Has st.store k).1 = true) :
    (E.Has (step E e st).store k).1 = true := by
  cases e with
  | blob o d =>
    simp only [step, putBlob_store]
    exact faithful_offer_present hE _ _ _ _ h
  | obj o =>
    simp only [step, putObject_store]
    exact faithful_offer_present hE _ _ _ _ h
  | rehash o => simpa [step, hWrite, hReset, jsonMarshal] using h

theorem faithful_step_put {E : Env σ} (hE : Faithful E) (e : Ev) (st : St σ) (o : Object)
    (h : e.put = some o) : (E.Has (step E e st).store (keyOf E o)).1 = true := by
  cases e with
  | blob o2 d =>
    simp only [Ev.put, Option.some.injEq] at h
    subst h
    simp only [step, putBlob_store]
    exact faithful_offer_self hE _ _ _
  | obj o2 =>
    simp only [Ev.put, Option.some.injEq] at h
    subst h
    simp only [step, putObject_store]
    exact faithful_offer_self hE _ _ _
  | rehash o2 => simp [Ev.put] at h

theorem stored_step {E : Env σ} (hE : Faithful E) (e : Ev) (st : St σ) (c : Object)
    (h : Stored E st.store c) : Stored E (step E e st).store c :=
  ⟨faithful_step_present hE e st _ h.1, fun l hl => faithful_step_present hE e st _ (h.2 l hl)⟩

/-- After a well-formed run against a faithful store, every object offered to the store
before or during the run is stored, together with the keys of its links. -/
theorem run_stored {E : Env σ} (hE : Faithful E) (evs : List Ev) :
    ∀ (os : List Object) (st : St σ), Ok E os evs → (∀ c ∈ os, Stored E st.store c) →
    ∀ c ∈ os ++ putsOf evs, Stored E (run E evs st).store c := by
  induction evs with
  | nil => intro os st _ h c hc; exact h c (by simpa [putsOf] using hc)
  | cons e es ih =>
    intro os st hok h c hc
    cases e with
    | blob o d =>
      refine ih (os ++ [o]) _ hok.2 ?_ c (by simpa [putsOf, Ev.put] using hc)
      intro c2 hc2
      rcases List.mem_append.mp hc2 with h2 | h2
      · exact stored_step hE _ st _ (h c2 h2)
      · simp only [List.mem_singleton] at h2
        subst h2
        exact ⟨faithful_step_put hE _ st _ rfl, fun l hl => by simp [hok.1.1] at hl⟩
    | obj o =>
      refine ih (os ++ [o]) _ hok.2 ?_ c (by simpa [putsOf, Ev.put] using hc)
      intro c2 hc2
      rcases List.mem_append.mp hc2 with h2 | h2
      · exact stored_step hE _ st _ (h c2 h2)
      · simp only [List.mem_singleton] at h2
        subst h2
        refine ⟨faithful_step_put hE _ st _ rfl, fun l hl => ?_⟩
        obtain ⟨c3, hc3, e3⟩ := hok.1.1 l hl
        rw [e3]
        exact faithful_step_present hE _ st _ (h c3 hc3).1
    | rehash o =>
      refine ih os _ hok.2 ?_ c (by simpa [putsOf, Ev.put] using hc)
      intro c2 hc2
      exact stored_step hE _ st _ (h c2 hc2)

/-- In a well-formed sequence the object of every event was offered to the store, before the
sequence or in it. -/
theorem ok_object_mem (E : Env σ) (evs : List Ev) : ∀ os : List Object, Ok E os evs →
    ∀ e ∈ evs, e.object ∈ os ++ putsOf evs := by
  induction evs with
  | nil => intro os _ e he; simp at he
  | cons a es ih =>
    intro os hok e he
    rcases List.mem_cons.mp he with h | h
    · subst h
      cases e with
      | blob o d => simp [putsOf, Ev.put, Ev.object]
      | obj o => simp [putsOf, Ev.put, Ev.object]
      | rehash o => exact List.mem_append_left _ hok.1
    · cases a with
      | blob o d =>
        have := ih _ hok.2 e h
        simpa [putsOf, Ev.put] using this
      | obj o =>
        have := ih _ hok.2 e h
        simpa [putsOf, Ev.put] using this
      | rehash o =>
        have := ih _ hok.2 e h
        simpa [putsOf, Ev.put] using this

/-- In a well-formed sequence a blob is a leaf holding the data put, and an object put as its
serialization has links unless it is the empty object. -/
theorem ok_shape (E : Env σ) (evs : List Ev) : ∀ os : List Object, Ok E os evs →
    ∀ e ∈ evs, (∀ o d, e = Ev.blob o d → o.Links = [] ∧ o.Data = d) ∧
      (∀ o, e = Ev.obj o → o.Links ≠ [] ∨ o = { Links := [], Data := .nil }) := by
  induction evs with
  | nil => intro os _ e he; simp at he
  | cons a es ih =>
    intro os hok e he
    rcases List.mem_cons.mp he with h | h
    · subst h
      cases e with
      | blob o d =>
        refine ⟨fun o2 d2 e2 => ?_, fun o2 e2 => by simp at e2⟩
        simp only [Ev.blob.injEq] at e2
        rw [← e2.1, ← e2.2]
        exact hok.1
      | obj o =>
        refine ⟨fun o2 d2 e2 => by simp at e2, fun o2 e2 => ?_⟩
        simp only [Ev.obj.injEq] at e2
        rw [← e2]
        exact hok.1.2
      | rehash o => exact ⟨fun o2 d2 e2 => by simp at e2, fun o2 e2 => by simp at e2⟩
    · cases a with
      | blob o d => exact ih _ hok.2 e h
      | obj o => exact ih _ hok.2 e h
      | rehash o => exact ih _ hok.2 e h

/-! ## The claims about `Add`, the cursor and the store -/

set_option maxRecDepth 100000 in
/-- C1 (the code departs from it): `Add` on a file holding `abc`, with an empty map store, Go
JSON and a fresh FNV-1a hash.  Slicing computes the digest `[107, 160, 9, 141]` of the
serialization of the root object and stores the root under it; `Add` returns
`[9, 230, 206, 37]`, the digest of that serialization written twice, because it writes the
serialization to the hash again without a reset. -/
theorem Add_digest_is_not_root_key :
    (Add goEnv (.file { Name := "f", Size := 3, Bytes := .mk [97, 98, 99] }) St.init).map
        (fun r => (r.1, r.2.store, r.2.calls)) =
      some ([9, 230, 206, 37], [([107, 160, 9, 141], [97, 98, 99])],
        [Call.has [107, 160, 9, 141] false false,
          Call.put [107, 160, 9, 141] [97, 98, 99] false]) ∧
    (sliceFile goEnv { Name := "f", Size := 3, Bytes := .mk [97, 98, 99] } St.init).map
        (fun r => (r.1, fnv32a (goJSON r.1), fnv32a (goJSON r.1 ++ goJSON r.1))) =
      some ({ Links := [], Data := .mk [97, 98, 99] }, [107, 160, 9, 141],
        [9, 230, 206, 37]) := by
  decide

theorem leafLevelObject_links_ne (E : Env σ) (b : GoBytes) (seedId : Nat) :
    (leafLevelObject E b seedId).Links ≠ [] := by
  obtain ⟨n, hn⟩ : ∃ n, fanout = n + 1 := ⟨4095, by decide⟩
  simp only [leafLevelObject, hn, ne_eq, List.map_eq_nil_iff]
  exact leafSeeds_ne_nil _ _ _

/-- The root of `bigFile`: 4096 links to one and the same child, the leaf level built from
cursor 0. -/
theorem bigFile_two_levels (E : Env σ) (st : St σ) :
    dfsForSlice E bigFile 2 0 st =
      some (
        { Links := List.replicate 4096
            { Name := "", Hash := E.digest (E.marshal (leafLevelObject E bigFile.Bytes 0)),
              Size := 1073479681 },
          Data := .mk (List.replicate 4096 tagLink).flatten },
        4096 * 1073479681,
        run E (internalEvents E (leafLevelObject E bigFile.Bytes 0) 1073479681
          (leafLevelEvents E bigFile.Bytes 0)) st) := by
  rw [dfsForSlice_internal E bigFile 0 0 _ _ _ (fun s => bigFile_leafLevel E s)
    (by rw [bigFile_len]; decide) st]
  have ht : kindTag (leafLevelObject E bigFile.Bytes 0) = tagLink := by
    unfold kindTag
    rw [if_neg (leafLevelObject_links_ne E _ _)]
  simp only [internalObject, ht, linkTo, keyOf, fanout_eq]
  rfl

/-- C4 (the code departs from it): `dfsForSlice` at height 2 and cursor 0 on the 1073479681
bytes of `bigFile`, for every store and hash.  The call at height 1 and cursor 0 covers all
1073479681 bytes, so the cursor of a second child would be the end of the buffer and no second
child should be built.  The code builds 4096 children, every one of them the object built at
cursor 0, and reports `4096 * 1073479681` bytes. -/
theorem dfsForSlice_children_all_start_at_the_cursor (E : Env σ) (st : St σ) :
    bigFile.Bytes.len = 1073479681 ∧
    (∀ s, ∃ s2, dfsForSlice E bigFile 1 0 s =
      some (leafLevelObject E bigFile.Bytes 0, 1073479681, s2)) ∧
    ∃ st2, dfsForSlice E bigFile 2 0 st =
      some (
        { Links := List.replicate 4096
            { Name := "", Hash := E.digest (E.marshal (leafLevelObject E bigFile.Bytes 0)),
              Size := 1073479681 },
          Data := .mk (List.replicate 4096 tagLink).flatten },
        4096 * 1073479681, st2) :=
  ⟨bigFile_len, fun s => ⟨_, bigFile_leafLevel E s⟩, _, bigFile_two_levels E st⟩

theorem sum_replicate_size (n : Nat) (l : Link) :
    ((List.replicate n l).map (fun x => x.Size)).sum = (n : Int) * l.Size := by
  induction n with
  | zero => simp
  | succ n ih =>
    rw [List.replicate_succ, List.map_cons, List.sum_cons, ih]
    push_cast
    ring

/-- C5 (the code departs from it): `sliceFile` on the 1073479681 bytes of `bigFile`, for every
store and hash.  The height is 2; the root has 4096 links of size 1073479681 each, so the
sizes add up to `4096 * 1073479681`, and so does the number of bytes the block builder
reports as covered from cursor 0: not the length of the file. -/
theorem sliceFile_two_levels_cover_too_much (E : Env σ) (st : St σ) :
    bigFile.Bytes.len = 1073479681 ∧ hightLoop 0 (linkLen bigFile.Bytes.len) = 2 ∧
    ∃ o st2, sliceFile E bigFile st = some (o, st2) ∧
      dfsForSlice E bigFile (hightLoop 0 (linkLen bigFile.Bytes.len)) 0 st =
        some (o, 4396972773376, st2) ∧
      o.Links.length = 4096 ∧ (∀ l ∈ o.Links, l.Size = 1073479681) ∧
      (o.Links.map (fun l => l.Size)).sum = 4396972773376 ∧
      (4396972773376 : Int) ≠ 1073479681 := by
  refine ⟨bigFile_len, bigFile_hight,
    { Links := List.replicate 4096
        { Name := "", Hash := E.digest (E.marshal (leafLevelObject E bigFile.Bytes 0)),
          Size := 1073479681 },
      Data := .mk (List.replicate 4096 tagLink).flatten },
    run E (internalEvents E (leafLevelObject E bigFile.Bytes 0) 1073479681
      (leafLevelEvents E bigFile.Bytes 0)) st, ?_, ?_, ?_, ?_, ?_, by decide⟩
  · have hgt : ¬ bigFile.Bytes.len ≤ leafSize := by rw [bigFile_len]; decide
    simp only [sliceFile, if_neg hgt, bigFile_hight, bigFile_two_levels E st]
  · rw [bigFile_hight, bigFile_two_levels E st]
  · exact List.length_replicate _ _
  · intro l hl
    rw [List.eq_of_mem_replicate hl]
  · rw [sum_replicate_size]
    show ((4096 : Nat) : Int) * 1073479681 = 4396972773376
    decide

theorem run_putsGuarded (E : Env σ) (evs : List Ev) (st : St σ) :
    ∃ cs, (run E evs st).calls = st.calls ++ cs ∧ PutsGuarded cs := by
  obtain ⟨cs, h, g, _⟩ := run_calls E evs st
  exact ⟨cs, h, guarded_putsGuarded g⟩

/-- C8: dedup check before write.  For every root node, file, directory, height and cursor,
and every store and hash, each of `Add`, `sliceFile`, `sliceDirectory` and `dfsForSlice`
(height at least 1, cursor inside the buffer) returns, and in the store calls `cs` it makes
every `Put` comes immediately after a `Has` of the same key that reported the key absent.
Consequently, against a store that is a key-value map, every key the store held before the
build is still held afterwards, with the same value. -/
theorem put_only_after_has_reported_absent (E : Env σ)
    (marshal : Object → List Byte) (digest : List Byte → List Byte)
    (node : Node) (file : File) (dir : Dir) (hight seedId : Nat) (st : St σ)
    (ms : St MapStore) :
    (∃ d st2 cs, Add E node st = some (d, st2) ∧ st2.calls = st.calls ++ cs ∧ PutsGuarded cs) ∧
    (∃ o st2 cs, sliceFile E file st = some (o, st2) ∧ st2.calls = st.calls ++ cs ∧
      PutsGuarded cs) ∧
    (∃ o st2 cs, sliceDirectory E dir st = some (o, st2) ∧ st2.calls = st.calls ++ cs ∧
      PutsGuarded cs) ∧
    (1 ≤ hight → seedId ≤ file.Bytes.len →
      ∃ o t st2 cs, dfsForSlice E file hight seedId st = some (o, t, st2) ∧
        st2.calls = st.calls ++ cs ∧ PutsGuarded cs) ∧
    (∃ d ms2, Add (mapEnv marshal digest) node ms = some (d, ms2) ∧
      ∀ k v, ms.store.get k = some v → ms2.store.get k = some v) ∧
    (∃ o ms2, sliceFile (mapEnv marshal digest) file ms = some (o, ms2) ∧
      ∀ k v, ms.store.get k = some v → ms2.store.get k = some v) ∧
    (∃ o ms2, sliceDirectory (mapEnv marshal digest) dir ms = some (o, ms2) ∧
      ∀ k v, ms.store.get k = some v → ms2.store.get k = some v) ∧
    (1 ≤ hight → seedId ≤ file.Bytes.len →
      ∃ o t ms2, dfsForSlice (mapEnv marshal digest) file hight seedId ms = some (o, t, ms2) ∧
        ∀ k v, ms.store.get k = some v → ms2.store.get k = some v) := by
  refine ⟨?_, ?_, ?_, ?_, ?_, ?_, ?_, ?_⟩
  · obtain ⟨o, evs, _, h⟩ := Add_eq E node
    obtain ⟨cs, hc, hg⟩ := run_putsGuarded E evs st
    exact ⟨_, _, cs, h st, by simpa [hWrite, jsonMarshal] using hc, hg⟩
  · obtain ⟨o, evs, h, _⟩ := sliceFile_builds E file
    obtain ⟨cs, hc, hg⟩ := run_putsGuarded E evs st
    exact ⟨_, _, cs, h st, hc, hg⟩
  · obtain ⟨o, evs, h, _⟩ := sliceDirectory_builds E dir
    obtain ⟨cs, hc, hg⟩ := run_putsGuarded E evs st
    exact ⟨_, _, cs, h st, hc, hg⟩
  · intro h1 h2
    obtain ⟨o, t, evs, h, _⟩ := dfsForSlice_builds E file hight h1 seedId h2
    obtain ⟨cs, hc, hg⟩ := run_putsGuarded E evs st
    exact ⟨_, _, _, cs, h st, hc, hg⟩
  · obtain ⟨o, evs, _, h⟩ := Add_eq (mapEnv marshal digest) node
    refine ⟨_, _, h ms, fun k v hk => ?_⟩
    simpa [hWrite, jsonMarshal] using mapEnv_run_keeps marshal digest evs ms k v hk
  · obtain ⟨o, evs, h, _⟩ := sliceFile_builds (mapEnv marshal digest) file
    exact ⟨_, _, h ms, mapEnv_run_keeps marshal digest evs ms⟩
  · obtain ⟨o, evs, h, _⟩ := sliceDirectory_builds (mapEnv marshal digest) dir
    exact ⟨_, _, h ms, mapEnv_run_keeps marshal digest evs ms⟩
  · intro h1 h2
    obtain ⟨o, t, evs, h, _⟩ := dfsForSlice_builds (mapEnv marshal digest) file hight h1 seedId h2
    exact ⟨_, _, _, h ms, mapEnv_run_keeps marshal digest evs ms⟩

/-- C8 at a file holding `abc`, height 1 and cursor 0, with an empty map store. -/
theorem put_only_after_has_reported_absent_witness :
    1 ≤ 1 ∧ 0 ≤ (GoBytes.mk [97, 98, 99]).len ∧
    ∃ o t st2 cs,
      dfsForSlice goEnv { Name := "f", Size := 3, Bytes := .mk [97, 98, 99] } 1 0 St.init =
        some (o, t, st2) ∧
      st2.calls = St.init.calls ++ cs ∧ PutsGuarded cs :=
  ⟨by decide, by decide,
    (put_only_after_has_reported_absent goEnv goJSON fnv32a
      (.file { Name := "f", Size := 3, Bytes := .mk [97, 98, 99] })
      { Name := "f", Size := 3, Bytes := .mk [97, 98, 99] } (.mk "d" 0 []) 1 0 St.init
      St.init).2.2.2.1 (by decide) (by decide)⟩

/-- C9: children are persisted before a parent refers to them.  Against a store that
faithfully records `Put`, `sliceFile` and `sliceDirectory` return an object `o`; afterwards
the store holds the digest of the serialization of `o` and the hash of every link of `o`, and
the same is true of every object `c` marshalled during the pass. -/
theorem children_are_stored_before_parents (E : Env σ) (hE : Faithful E) (file : File)
    (dir : Dir) (st : St σ) :
    (∃ o st2 objs, sliceFile E file st = some (o, st2) ∧ st2.built = st.built ++ objs ∧
      (E.Has st2.store (E.digest (E.marshal o))).1 = true ∧
      (∀ l ∈ o.Links, (E.Has st2.store l.Hash).1 = true) ∧
      ∀ c ∈ objs, (E.Has st2.store (E.digest (E.marshal c))).1 = true ∧
        ∀ l ∈ c.Links, (E.Has st2.store l.Hash).1 = true) ∧
    (∃ o st2 objs, sliceDirectory E dir st = some (o, st2) ∧ st2.built = st.built ++ objs ∧
      (E.Has st2.store (E.digest (E.marshal o))).1 = true ∧
      (∀ l ∈ o.Links, (E.Has st2.store l.Hash).1 = true) ∧
      ∀ c ∈ objs, (E.Has st2.store (E.digest (E.marshal c))).1 = true ∧
        ∀ l ∈ c.Links, (E.Has st2.store l.Hash).1 = true) := by
  have key : ∀ (o : Object) (evs : List Ev), Builds E o evs →
      (E.Has (run E evs st).store (E.digest (E.marshal o))).1 = true ∧
      (∀ l ∈ o.Links, (E.Has (run E evs st).store l.Hash).1 = true) ∧
      ∀ c ∈ evs.map Ev.object, (E.Has (run E evs st).store (E.digest (E.marshal c))).1 = true ∧
        ∀ l ∈ c.Links, (E.Has (run E evs st).store l.Hash).1 = true := by
    intro o evs hb
    have hs := run_stored hE evs [] st (hb.2 []) (by simp)
    refine ⟨(hs o (by simpa using (builds_mem_putsOf hb))).1, (hs o (by simpa using (builds_mem_putsOf hb))).2, ?_⟩
    intro c hc
    obtain ⟨e, he, rfl⟩ := List.mem_map.mp hc
    exact hs _ (ok_object_mem E evs [] (hb.2 []) e he)
  constructor
  · obtain ⟨o, evs, h, hb⟩ := sliceFile_builds E file
    obtain ⟨k1, k2, k3⟩ := key o evs hb
    exact ⟨o, _, _, h st, run_built E evs st, k1, k2, k3⟩
  · obtain ⟨o, evs, h, hb⟩ := sliceDirectory_builds E dir
    obtain ⟨k1, k2, k3⟩ := key o evs hb
    exact ⟨o, _, _, h st, run_built E evs st, k1, k2, k3⟩

/-- C9 at a file holding `abc`, with an empty map store, Go JSON and FNV-1a. -/
theorem children_are_stored_before_parents_witness :
    Faithful goEnv ∧
    ∃ o st2 objs,
      sliceFile goEnv { Name := "f", Size := 3, Bytes := .mk [97, 98, 99] } St.init =
        some (o, st2) ∧
      st2.built = St.init.built ++ objs ∧
      (goEnv.Has st2.store (goEnv.digest (goEnv.marshal o))).1 = true ∧
      (∀ l ∈ o.Links, (goEnv.Has st2.store l.Hash).1 = true) ∧
      ∀ c ∈ objs, (goEnv.Has st2.store (goEnv.digest (goEnv.marshal c))).1 = true ∧
        ∀ l ∈ c.Links, (goEnv.Has st2.store l.Hash).1 = true :=
  ⟨mapEnv_faithful goJSON fnv32a,
    (children_are_stored_before_parents goEnv (mapEnv_faithful goJSON fnv32a)
      { Name := "f", Size := 3, Bytes := .mk [97, 98, 99] } (.mk "d" 0 []) St.init).1⟩

set_option maxRecDepth 100000 in
/-- C10, the claim as stated fails for a directory with no children.  `Add` on it, with an
empty map store, Go JSON and FNV-1a, marshals only the empty object, which has no links and
no data bytes; the one entry it writes holds the 26 bytes of the serialization of that
object, not its raw data. -/
theorem empty_directory_is_stored_as_serialization :
    (Add goEnv (.dir (.mk "d" 0 [])) St.init).map (fun r => (r.2.calls, r.2.built)) =
      some ([Call.has [207, 195, 205, 206] false false,
          Call.put [207, 195, 205, 206]
            (ascii "\x7b\"Links\":null,\"Data\":null\x7d") false],
        [{ Links := [], Data := .nil }, { Links := [], Data := .nil }]) ∧
    goJSON { Links := [], Data := .nil } = ascii "\x7b\"Links\":null,\"Data\":null\x7d" ∧
    ascii "\x7b\"Links\":null,\"Data\":null\x7d" ≠ GoBytes.toList .nil := by
  decide

/-- C10 as amended: for every root node, store and hash, `Add` returns, and every entry it
writes has as key the digest of the serialization of an object `o` marshalled in the pass.
When `o` has links the value is the serialization of `o`.  When `o` has no links the value
is the raw data of `o`, except that the empty object, which is what a directory with no
children is built as, may be written as its serialization. -/
theorem put_writes_leaf_data_or_serialization (E : Env σ) (node : Node) (st : St σ) :
    ∃ d st2 cs objs, Add E node st = some (d, st2) ∧ st2.calls = st.calls ++ cs ∧
      st2.built = st.built ++ objs ∧
      ∀ k v f, Call.put k v f ∈ cs → ∃ o ∈ objs, k = E.digest (E.marshal o) ∧
        ((o.Links = [] ∧ v = o.Data.toList) ∨
          ((o.Links ≠ [] ∨ o = { Links := [], Data := .nil }) ∧ v = E.marshal o)) := by
  obtain ⟨o, evs, hb, h⟩ := Add_eq E node
  obtain ⟨cs, hc, _, hp⟩ := run_calls E evs st
  refine ⟨_, _, cs, evs.map Ev.object ++ [o], h st, by simpa [hWrite, jsonMarshal] using hc,
    by simp [hWrite, jsonMarshal, run_built], ?_⟩
  intro k v f hmem
  obtain ⟨e, he, hput⟩ := hp k v f hmem
  obtain ⟨hs1, hs2⟩ := ok_shape E evs [] (hb.2 []) e he
  rcases hput with ⟨o2, d2, rfl, rfl, rfl⟩ | ⟨o2, rfl, rfl, rfl⟩
  · refine ⟨o2, List.mem_append_left _ (List.mem_map.mpr ⟨_, he, rfl⟩), rfl, Or.inl ?_⟩
    obtain ⟨a1, a2⟩ := hs1 o2 d2 rfl
    exact ⟨a1, by rw [a2]⟩
  · exact ⟨o2, List.mem_append_left _ (List.mem_map.mpr ⟨_, he, rfl⟩), rfl,
      Or.inr ⟨hs2 o2 rfl, rfl⟩⟩

/-! ## The results of slicing -/

/-- For a height of at least 1 and a cursor inside the buffer (its end included)
`dfsForSlice` returns its closed form, in every state. -/
theorem dfsForSlice_result (E : Env σ) (node : File) : ∀ hight, 1 ≤ hight →
    ∀ seedId, seedId ≤ node.Bytes.len → ∀ st,
    dfsForSlice E node hight seedId st =
      some (dfsObject E node.Bytes hight seedId, dfsLen node.Bytes hight seedId,
        run E (dfsEvents E node.Bytes hight seedId) st) := by
  intro hight
  induction hight with
  | zero => intro h; omega
  | succ k ih =>
    intro _ seedId hs st
    rcases k with _ | k
    · by_cases hl : node.Bytes.len - seedId ≤ leafSize
      · rw [dfsForSlice_one_blob E node seedId st hs hl]
        simp only [dfsObject, dfsLen, dfsEvents, if_pos hl]
      · rw [dfsForSlice_one_loop E node seedId st (by omega)]
        simp only [dfsObject, dfsLen, dfsEvents, if_neg hl]
    · by_cases hlt : seedId < node.Bytes.len
      · rw [dfsForSlice_internal E node k seedId _ _ _ (fun s => ih (by omega) seedId hs s)
          hlt st]
        simp only [dfsObject, dfsLen, dfsEvents, if_pos hlt]
      · rw [dfsForSlice_internal_done E node k seedId (by omega) st]
        simp only [dfsObject, dfsLen, dfsEvents, if_neg hlt]

/-- For every file and state `sliceFile` returns its closed form. -/
theorem sliceFile_result (E : Env σ) (node : File) (st : St σ) :
    sliceFile E node st = some (fileObject E node, run E (fileEvents E node) st) := by
  by_cases hle : node.Bytes.len ≤ leafSize
  · simp [sliceFile, fileObject, fileEvents, hle, leafOf, step]
  · have h1 : 1 ≤ hightLoop 0 (linkLen node.Bytes.len) := (hightLoop_spec _ 0).1
    unfold sliceFile fileObject fileEvents
    rw [if_neg hle, if_neg hle, if_neg hle]
    generalize hightLoop 0 (linkLen node.Bytes.len) = h at h1
    simp only [dfsForSlice_result E node h h1 0 (Nat.zero_le _) st]

mutual
/-- For every directory and state `sliceDirectory` returns its closed form. -/
theorem sliceDirectory_result (E : Env σ) : ∀ (dir : Dir) (st : St σ),
    sliceDirectory E dir st = some (dirObject E dir, run E (dirEvents E dir) st)
  | .mk _ _ It, st => by
    simp only [sliceDirectory, dirLoop_result E It _ st, dirObject, dirEvents, run_append,
      run_cons, run_nil, step]
/-- For every list of children and state the loop of `sliceDirectory` returns its closed
form. -/
theorem dirLoop_result (E : Env σ) : ∀ (children : List Node) (tree : Object) (st : St σ),
    dirLoop E children tree st =
      some (childrenObject E children tree, run E (childrenEvents E children) st)
  | [], tree, st => by simp [dirLoop, childrenObject, childrenEvents]
  | .file f :: rest, tree, st => by
    simp only [dirLoop, sliceFile_result E f st, hSum_rehash]
    rw [show (if (fileObject E f).Links = [] then tagData else tagLink) =
      kindTag (fileObject E f) from rfl, dirLoop_result E rest]
    simp [childrenObject, childrenEvents, run_append, step]
  | .dir d :: rest, tree, st => by
    simp only [dirLoop, sliceDirectory_result E d st, hSum_rehash, dirLoop_result E rest]
    simp [childrenObject, childrenEvents, run_append, step]
end

/-- For every node and state slicing returns its closed form. -/
theorem sliceNode_result (E : Env σ) (node : Node) (st : St σ) :
    sliceNode E node st = some (nodeObject E node, run E (nodeEvents E node) st) := by
  cases node with
  | file f => exact sliceFile_result E f st
  | dir d => exact sliceDirectory_result E d st

/-! ## What the closed forms build -/

/-- The closed form of `dfsForSlice` is a building sequence of its object. -/
theorem builds_dfs (E : Env σ) (b : GoBytes) : ∀ hight, 1 ≤ hight → ∀ seedId,
    Builds E (dfsObject E b hight seedId) (dfsEvents E b hight seedId) := by
  intro hight
  induction hight with
  | zero => intro h; omega
  | succ k ih =>
    intro _ seedId
    rcases k with _ | k
    · by_cases hl : b.len - seedId ≤ leafSize
      · simp only [dfsObject, dfsEvents, if_pos hl]
        exact builds_blob E _
      · simp only [dfsObject, dfsEvents, if_neg hl]
        exact builds_leafLevel E _ _
    · by_cases hlt : seedId < b.len
      · simp only [dfsObject, dfsEvents, if_pos hlt]
        exact builds_internal E _ _ _ (ih (by omega) seedId)
      · simp only [dfsObject, dfsEvents, if_neg hlt]
        exact builds_empty E

/-- The closed form of `sliceFile` is a building sequence of its object. -/
theorem builds_file (E : Env σ) (node : File) :
    Builds E (fileObject E node) (fileEvents E node) := by
  unfold fileObject fileEvents
  by_cases hle : node.Bytes.len ≤ leafSize
  · rw [if_pos hle, if_pos hle]
    exact builds_blob E _
  · rw [if_neg hle, if_neg hle]
    exact builds_dfs E _ _ (hightLoop_spec _ 0).1 0

mutual
/-- The closed form of `sliceDirectory` is a building sequence of its object. -/
theorem builds_dir (E : Env σ) : ∀ dir : Dir, Builds E (dirObject E dir) (dirEvents E dir)
  | .mk _ _ It => by
    obtain ⟨h2, h3⟩ := builds_children E It { Links := [], Data := .nil }
    refine ⟨⟨childrenEvents E It, Ev.obj (childrenObject E It { Links := [], Data := .nil }),
      by simp only [dirEvents], by simp only [Ev.put, dirObject]⟩, fun os => ?_⟩
    have hemp : LinksIn E os { Links := [], Data := .nil } := by
      intro l hl
      simp at hl
    simp only [dirEvents]
    exact ok_append E (h2 os hemp).1 ⟨⟨(h2 os hemp).2, h3 (Or.inr rfl)⟩, trivial⟩
/-- The events of the loop of `sliceDirectory` are well formed, and every link of its object
points to a child built before. -/
theorem builds_children (E : Env σ) : ∀ (children : List Node) (tree : Object),
    (∀ os, LinksIn E os tree → Ok E os (childrenEvents E children) ∧
      LinksIn E (os ++ putsOf (childrenEvents E children)) (childrenObject E children tree)) ∧
    ((tree.Links ≠ [] ∨ tree = { Links := [], Data := .nil }) →
      ((childrenObject E children tree).Links ≠ [] ∨
        childrenObject E children tree = { Links := [], Data := .nil }))
  | [], tree => by
    simp only [childrenEvents, childrenObject]
    exact ⟨fun os h => ⟨trivial, by simpa [putsOf] using h⟩, fun h => h⟩
  | .file f :: rest, tree => by
    obtain ⟨h2, h3⟩ := builds_children E rest
      { Links := tree.Links ++
          [{ Name := f.Name, Hash := keyOf E (fileObject E f), Size := intOfUint64 f.Size }],
        Data := tree.Data.append (kindTag (fileObject E f)) }
    simp only [childrenEvents, childrenObject]
    exact ⟨dirLoop_step E _ _ (builds_file E f) _ _ _ tree _ _ h2, fun _ => h3 (Or.inl (by simp))⟩
  | .dir d :: rest, tree => by
    obtain ⟨h2, h3⟩ := builds_children E rest
      { Links := tree.Links ++
          [{ Name := d.Name, Hash := keyOf E (dirObject E d), Size := intOfUint64 d.Size }],
        Data := tree.Data.append tagTree }
    simp only [childrenEvents, childrenObject]
    exact ⟨dirLoop_step E _ _ (builds_dir E d) _ _ _ tree _ _ h2, fun _ => h3 (Or.inl (by simp))⟩
end

/-- The closed form of slicing a node is a building sequence of its object. -/
theorem builds_node (E : Env σ) (node : Node) :
    Builds E (nodeObject E node) (nodeEvents E node) := by
  cases node with
  | file f => exact builds_file E f
  | dir d => exact builds_dir E d

/-! ## The object of a directory -/

/-- The links of the object of the directory loop: those it started with, then one per child,
in the order of the children. -/
theorem childrenObject_links (E : Env σ) : ∀ (children : List Node) (tree : Object),
    (childrenObject E children tree).Links = tree.Links ++ children.map (childLink E) := by
  intro children
  induction children with
  | nil => intro tree; simp [childrenObject]
  | cons c rest ih =>
    intro tree
    cases c with
    | file f => simp [childrenObject, ih, childLink, Node.Name, Node.Size, nodeObject]
    | dir d => simp [childrenObject, ih, childLink, Node.Name, Node.Size, nodeObject]

/-- The data of the object of the directory loop: the bytes it started with, then one tag per
child, in the order of the children. -/
theorem childrenObject_data (E : Env σ) : ∀ (children : List Node) (tree : Object),
    (childrenObject E children tree).Data.toList =
      tree.Data.toList ++ (children.map (codeTag E)).flatten := by
  intro children
  induction children with
  | nil => intro tree; simp [childrenObject]
  | cons c rest ih =>
    intro tree
    cases c with
    | file f =>
      simp only [childrenObject, ih, codeTag, goBytes_append_tag _ _ (kindTag_ne _),
        List.map_cons, List.flatten_cons]
      exact List.append_assoc _ _ _
    | dir d =>
      simp only [childrenObject, ih, codeTag, goBytes_append_tag _ _ tagTree_ne,
        List.map_cons, List.flatten_cons]
      exact List.append_assoc _ _ _

/-- At a height of at least 1, with more than `leafSize` bytes left, the object of
`dfsForSlice` has links. -/
theorem dfsObject_links_ne (E : Env σ) (b : GoBytes) (hight seedId : Nat) (h1 : 1 ≤ hight)
    (hl : leafSize < b.len - seedId) : (dfsObject E b hight seedId).Links ≠ [] := by
  rcases hight with _ | _ | k
  · omega
  · simp only [dfsObject, if_neg (by omega : ¬ b.len - seedId ≤ leafSize)]
    exact leafLevelObject_links_ne E b seedId
  · obtain ⟨n, hn⟩ : ∃ n, fanout = n + 1 := ⟨4095, by decide⟩
    simp only [dfsObject, if_pos (by omega : seedId < b.len), internalObject, hn,
      List.replicate_succ]
    exact List.cons_ne_nil _ _

/-- The object of `sliceFile` has no links exactly when the file has at most `leafSize`
bytes. -/
theorem fileObject_links_nil_iff (E : Env σ) (node : File) :
    (fileObject E node).Links = [] ↔ node.Bytes.len ≤ leafSize := by
  unfold fileObject
  by_cases hle : node.Bytes.len ≤ leafSize
  · rw [if_pos hle]
    simp [leafOf, hle]
  · rw [if_neg hle]
    have := dfsObject_links_ne E node.Bytes (hightLoop 0 (linkLen node.Bytes.len)) 0
      (hightLoop_spec _ 0).1 (by omega)
    simp [this, hle]

/-- The tag the code appends for a child is the tag the specification names. -/
theorem codeTag_eq_childTag (E : Env σ) (c : Node) : codeTag E c = childTag c := by
  cases c with
  | dir d => rfl
  | file f =>
    simp only [codeTag, childTag, kindTag, fileObject_links_nil_iff, leafSize_eq]
    by_cases h : f.Bytes.len ≤ 262144
    · rw [if_pos h, if_neg (by omega)]
    · rw [if_neg h, if_pos (by omega)]

/-! ## The links and tags of a directory -/

set_option maxRecDepth 100000 in
/-- C11, the claim as stated fails for a child that reports a size of `2 ^ 63` or more: the
link stores `int(Size())`, which is negative there.  With an empty map store, Go JSON and
FNV-1a, the directory whose only child is a file reporting the size `2 ^ 63` gets one link, of
size `-2 ^ 63`. -/
theorem link_size_wraps_above_int_range :
    (sliceDirectory goEnv hugeSizeDir St.init).map (fun r => r.1.Links.map (fun l => l.Size)) =
      some [-9223372036854775808] ∧
    hugeSizeDir.It.map Node.Size = [9223372036854775808] ∧
    ((9223372036854775808 : Nat) : Int) ≠ -9223372036854775808 := by
  decide

/-- C11 as amended: for every directory whose iterator yields the children c1..cn in that
order, `sliceDirectory` returns an object with exactly n links in the same order, where link i
has as name the name of ci, as size `int(ci.Size())`, which is `ci.Size()` when that is below
`2 ^ 63`, and as hash the digest of the serialization of the object obtained by slicing ci
(`sliceFile` for a file, `sliceDirectory` for a subdirectory), and whose data is the
concatenation of n four-byte tags in the same order: `tree` for a subdirectory, `link` for a
file with more than 262144 bytes, `data` for a file with at most 262144 bytes. -/
theorem sliceDirectory_links_follow_children (E : Env σ) (dir : Dir) (st : St σ) :
    ∃ o st2, sliceDirectory E dir st = some (o, st2) ∧
      o.Links.length = dir.It.length ∧
      List.Forall₂ (fun c l => ∃ oc, (∀ s, ∃ s2, sliceNode E c s = some (oc, s2)) ∧
        l = { Name := c.Name, Hash := E.digest (E.marshal oc), Size := intOfUint64 c.Size } ∧
        (c.Size < 2 ^ 63 → l.Size = (c.Size : Int))) dir.It o.Links ∧
      o.Data.toList = (dir.It.map childTag).flatten ∧
      (∀ c, (childTag c).length = 4) ∧
      tagTree = ascii "tree" ∧ tagLink = ascii "link" ∧ tagData = ascii "data" := by
  refine ⟨dirObject E dir, _, sliceDirectory_result E dir st, ?_⟩
  cases dir with
  | mk name size It =>
    simp only [dirObject, Dir.It, childrenObject_links, childrenObject_data, List.nil_append,
      List.length_map, true_and]
    refine ⟨?_, ?_, ?_, by decide, by decide, by decide⟩
    · rw [List.forall₂_map_right_iff, List.forall₂_same]
      intro c _
      refine ⟨nodeObject E c, fun s => ⟨_, sliceNode_result E c s⟩, rfl, fun h => ?_⟩
      simp only [childLink, intOfUint64]
      have h64 : c.Size % 2 ^ 64 = c.Size := Nat.mod_eq_of_lt (by omega)
      rw [h64, if_pos h]
    · rw [List.map_congr_left (fun c _ => codeTag_eq_childTag E c)]
      rfl
    · intro c
      cases c with
      | dir d => rfl
      | file f =>
        simp only [childTag]
        split <;> rfl

/-! ## Building twice -/

/-- An event that offers an object whose key the store reports present leaves a faithful store
as it is and makes no `Put`. -/
theorem step_quiet {E : Env σ} (hE : Faithful E) (e : Ev) (st : St σ)
    (h : ∀ o, e.put = some o → (E.Has st.store (keyOf E o)).1 = true) :
    (step E e st).store = st.store ∧
      ∃ cs, (step E e st).calls = st.calls ++ cs ∧ ∀ k v f, Call.put k v f ∉ cs := by
  cases e with
  | blob o d =>
    have hp := h o rfl
    simp only [step, putBlob_store, putBlob_calls, hp, if_true, hE.1]
    exact ⟨trivial, _, rfl, by simp⟩
  | obj o =>
    have hp := h o rfl
    simp only [step, putObject_store, putObject_calls, hp, if_true, hE.1]
    exact ⟨trivial, _, rfl, by simp⟩
  | rehash o =>
    exact ⟨rfl, [], by simp [step, hWrite, hReset, jsonMarshal], by simp⟩

/-- A run all of whose offered keys the store reports present leaves a faithful store as it is
and makes no `Put`. -/
theorem run_quiet {E : Env σ} (hE : Faithful E) (evs : List Ev) : ∀ st : St σ,
    (∀ o ∈ putsOf evs, (E.Has st.store (keyOf E o)).1 = true) →
    (run E evs st).store = st.store ∧
      ∃ cs, (run E evs st).calls = st.calls ++ cs ∧ ∀ k v f, Call.put k v f ∉ cs := by
  induction evs with
  | nil => intro st _; exact ⟨rfl, [], by simp, by simp⟩
  | cons e es ih =>
    intro st h
    obtain ⟨hs, cs, hc, hn⟩ := step_quiet hE e st (fun o ho => h o (by
      simp only [putsOf, List.filterMap_cons, ho]
      exact List.mem_cons_self _ _))
    obtain ⟨hs2, cs2, hc2, hn2⟩ := ih (step E e st) (fun o ho => by
      rw [hs]
      refine h o ?_
      simp only [putsOf, List.filterMap_cons]
      cases e.put with
      | none => exact ho
      | some o2 => exact List.mem_cons_of_mem _ ho)
    refine ⟨by rw [run_cons, hs2, hs], cs ++ cs2, by rw [run_cons, hc2, hc, List.append_assoc], ?_⟩
    intro k v f hmem
    rcases List.mem_append.mp hmem with h1 | h1
    · exact hn k v f h1
    · exact hn2 k v f h1

/-- C12: idempotence.  For every root node, every store that faithfully records `Put` and
every state of the hash, `Add` returns, and running `Add` again in the state the first run
left (store, hash and all) returns the same digest; the second run makes no `Put`, and the
store after the second run is the store after the first. -/
theorem Add_twice_same_digest_no_put (E : Env σ) (hE : Faithful E) (node : Node) (st : St σ) :
    ∃ d st1 st2 cs, Add E node st = some (d, st1) ∧ Add E node st1 = some (d, st2) ∧
      st2.calls = st1.calls ++ cs ∧ (∀ k v f, Call.put k v f ∉ cs) ∧
      st2.store = st1.store := by
  obtain ⟨o, evs, hb, h⟩ := Add_eq E node
  have hst := run_stored hE evs [] st (hb.2 []) (by simp)
  obtain ⟨hs, cs, hc, hn⟩ := run_quiet hE evs
    (hWrite (E.marshal o) (jsonMarshal E o (run E evs st)).2) (fun c hc => by
      have := (hst c (by simpa using hc)).1
      simpa [hWrite, jsonMarshal] using this)
  refine ⟨_, _, _, cs, h st, h _, ?_, hn, ?_⟩
  · simp only [hWrite, jsonMarshal] at hc ⊢
    exact hc
  · simp only [hWrite, jsonMarshal] at hs ⊢
    exact hs

/-- C12 at a directory holding a file and an empty subdirectory, with an empty map store, Go
JSON and FNV-1a. -/
theorem Add_twice_same_digest_no_put_witness :
    Faithful goEnv ∧
    ∃ d st1 st2 cs, Add goEnv smallTree St.init = some (d, st1) ∧
      Add goEnv smallTree st1 = some (d, st2) ∧
      st2.calls = st1.calls ++ cs ∧ (∀ k v f, Call.put k v f ∉ cs) ∧
      st2.store = st1.store :=
  ⟨mapEnv_faithful goJSON fnv32a,
    Add_twice_same_digest_no_put goEnv (mapEnv_faithful goJSON fnv32a) smallTree St.init⟩

/-! ## The digest `Add` returns -/

/-- For every root node and every state `Add` returns the digest of the serialization of the
object of the node, written to the hash twice. -/
theorem Add_result (E : Env σ) (node : Node) (st : St σ) :
    Add E node st =
      some (E.digest (E.marshal (nodeObject E node) ++ E.marshal (nodeObject E node)),
        hWrite (E.marshal (nodeObject E node))
          (jsonMarshal E (nodeObject E node) (run E (nodeEvents E node) st)).2) := by
  cases node with
  | file f =>
    simp only [Add, sliceFile_result, nodeObject, nodeEvents]
    simp [hSum, hWrite, jsonMarshal, builds_run_h (builds_file E f)]
  | dir d =>
    simp only [Add, sliceDirectory_result, nodeObject, nodeEvents]
    simp [hSum, hWrite, jsonMarshal, builds_run_h (builds_dir E d)]

/-! ## The order of the children -/

/-- Two lists that are permutations of each other and agree under a map that has no
duplicates on them are equal. -/
theorem perm_eq_of_map_nodup {α β : Type} (f : α → β) : ∀ (l1 l2 : List α), l1.Perm l2 →
    l1.map f = l2.map f → (l2.map f).Nodup → l1 = l2 := by
  intro l1
  induction l1 with
  | nil => intro l2 hp _ _; exact hp.nil_eq
  | cons a t ih =>
    intro l2 hp hmap hnd
    cases l2 with
    | nil => simp at hmap
    | cons b u =>
      simp only [List.map_cons, List.cons.injEq] at hmap
      simp only [List.map_cons, List.nodup_cons] at hnd
      have ha : a ∈ b :: u := hp.subset (List.mem_cons_self _ _)
      rcases List.mem_cons.mp ha with e | hu
      · subst e
        rw [ih u hp.cons_inv hmap.2 hnd.2]
      · exact absurd (hmap.1 ▸ List.mem_map_of_mem f hu) hnd.1

/-- The names of the links of a directory object are the names of the children, in order. -/
theorem dirObject_link_names (E : Env σ) (name : String) (size : Nat) (cs : List Node) :
    (dirObject E (.mk name size cs)).Links.map (fun l => l.Name) = cs.map Node.Name := by
  simp only [dirObject, childrenObject_links, List.nil_append, List.map_map]
  rfl

theorem objectCode_injective : Function.Injective objectCode := by
  intro a b h
  have h1 := Encodable.encode_injective h
  simp only [Prod.mk.injEq] at h1
  obtain ⟨hl, hd⟩ := h1
  have hu : Function.Injective UInt8.toNat := by
    intro x y hxy
    cases x with
    | mk vx =>
      cases y with
      | mk vy =>
        have : vx = vy := BitVec.eq_of_toNat_eq hxy
        rw [this]
  have hc : Function.Injective Char.toNat := by
    intro x y hxy
    exact Char.ext (UInt32.ext hxy)
  have hlink : Function.Injective
      (fun l : Link => (l.Name.toList.map Char.toNat, l.Hash.map UInt8.toNat, l.Size)) := by
    intro x y hxy
    simp only [Prod.mk.injEq] at hxy
    cases x with
    | mk nx hx sx =>
      cases y with
      | mk ny hy sy =>
        have e1 : nx = ny := String.ext (List.map_injective_iff.mpr hc hxy.1)
        have e2 : hx = hy := List.map_injective_iff.mpr hu hxy.2.1
        have e3 : sx = sy := hxy.2.2
        rw [e1, e2, e3]
  cases a with
  | mk la da =>
    cases b with
    | mk lb db =>
      have e1 : la = lb := List.map_injective_iff.mpr hlink hl
      have e2 : da = db := by
        cases da <;> cases db <;> simp at hd ⊢
        exact List.map_injective_iff.mpr hu hd
      rw [e1, e2]

theorem unaryMarshal_injective : Function.Injective unaryMarshal := by
  intro a b h
  have := congrArg List.length h
  simp only [unaryMarshal, List.length_replicate] at this
  exact objectCode_injective this

/-- C13: order sensitivity.  With a digest without collisions and an injective serialization,
for every directory whose children have pairwise distinct names and every reordering of the
children other than the identity, the object `sliceDirectory` returns for the reordered
directory has another digest of its serialization, the key it is stored under, than that of
the original directory, and `Add` returns another digest for it. -/
theorem reordered_directory_has_other_digest (E : Env σ)
    (hd : Function.Injective E.digest) (hm : Function.Injective E.marshal)
    (name : String) (size : Nat) (cs cs2 : List Node)
    (hn : (cs.map Node.Name).Nodup) (hp : cs2.Perm cs) (hne : cs2 ≠ cs) :
    ∃ o o2 d d2, (∀ st, ∃ st2, sliceDirectory E (.mk name size cs) st = some (o, st2)) ∧
      (∀ st, ∃ st2, sliceDirectory E (.mk name size cs2) st = some (o2, st2)) ∧
      (∀ st, ∃ st2, Add E (.dir (.mk name size cs)) st = some (d, st2)) ∧
      (∀ st, ∃ st2, Add E (.dir (.mk name size cs2)) st = some (d2, st2)) ∧
      E.digest (E.marshal o2) ≠ E.digest (E.marshal o) ∧ d2 ≠ d := by
  have hobj : dirObject E (.mk name size cs2) ≠ dirObject E (.mk name size cs) := by
    intro h
    have h2 := congrArg (fun o => o.Links.map (fun l => l.Name)) h
    simp only [dirObject_link_names] at h2
    exact hne (perm_eq_of_map_nodup Node.Name cs2 cs hp h2 hn)
  refine ⟨_, _, _, _, fun st => ⟨_, sliceDirectory_result E _ st⟩,
    fun st => ⟨_, sliceDirectory_result E _ st⟩, fun st => ⟨_, Add_result E _ st⟩,
    fun st => ⟨_, Add_result E _ st⟩, fun h => hobj (hm (hd h)), fun h => ?_⟩
  have h2 := hd h
  have h3 := List.append_inj_left h2 (by
    have := congrArg List.length h2
    simp only [List.length_append] at this
    omega)
  exact hobj (hm h3)

/-- C13 at a directory of two files `a` and `b` and the directory that yields `b` before `a`,
with a map store, an injective serialization and the identity as digest. -/
theorem reordered_directory_has_other_digest_witness :
    Function.Injective plainEnv.digest ∧ Function.Injective plainEnv.marshal ∧
    ([fileA, fileB].map Node.Name).Nodup ∧ [fileB, fileA].Perm [fileA, fileB] ∧
    [fileB, fileA] ≠ [fileA, fileB] ∧
    ∃ o o2 d d2,
      (∀ st, ∃ st2, sliceDirectory plainEnv (.mk "d" 2 [fileA, fileB]) st = some (o, st2)) ∧
      (∀ st, ∃ st2, sliceDirectory plainEnv (.mk "d" 2 [fileB, fileA]) st = some (o2, st2)) ∧
      (∀ st, ∃ st2, Add plainEnv (.dir (.mk "d" 2 [fileA, fileB])) st = some (d, st2)) ∧
      (∀ st, ∃ st2, Add plainEnv (.dir (.mk "d" 2 [fileB, fileA])) st = some (d2, st2)) ∧
      plainEnv.digest (plainEnv.marshal o2) ≠ plainEnv.digest (plainEnv.marshal o) ∧ d2 ≠ d :=
  have hne : [fileB, fileA] ≠ [fileA, fileB] := fun h =>
    absurd (congrArg (List.map Node.Name) h) (by decide)
  ⟨fun _ _ h => h, unaryMarshal_injective, by decide, List.Perm.swap _ _ _, hne,
    reordered_directory_has_other_digest plainEnv (fun _ _ h => h) unaryMarshal_injective
      "d" 2 [fileA, fileB] [fileB, fileA] (by decide) (List.Perm.swap _ _ _) hne⟩

/-! ## Exactly one `Put` under a key -/

/-- A map store records exactly what was put. -/
theorem mapEnv_exact (marshal : Object → List Byte) (digest : List Byte → List Byte) :
    Exact (mapEnv marshal digest) := by
  refine ⟨mapEnv_faithful marshal digest, fun s k v k2 h => ?_⟩
  simp [mapEnv, mapStore_get_put_of_ne _ _ _ _ h]

/-- An event that offers no object of key `k` makes no `Put` under `k` and leaves `k` absent
from a store that records exactly what was put. -/
theorem step_other_key {E : Env σ} (hE : Exact E) (e : Ev) (st : St σ) (k : List Byte)
    (hk : (E.Has st.store k).1 = false) (hne : ∀ o, e.put = some o → keyOf E o ≠ k) :
    (E.Has (step E e st).store k).1 = false ∧
      ∃ cs, (step E e st).calls = st.calls ++ cs ∧ ∀ v f, Call.put k v f ∉ cs := by
  cases e with
  | blob o d =>
    have h1 := hne o rfl
    simp only [step, putBlob_store, putBlob_calls, hE.1.1]
    split
    · exact ⟨hk, _, rfl, by simp⟩
    · refine ⟨by rw [hE.2 _ _ _ _ (Ne.symm h1)]; exact hk, _, rfl, ?_⟩
      intro v f hmem
      simp at hmem
      exact h1 hmem.1.symm
  | obj o =>
    have h1 := hne o rfl
    simp only [step, putObject_store, putObject_calls, hE.1.1]
    split
    · exact ⟨hk, _, rfl, by simp⟩
    · refine ⟨by rw [hE.2 _ _ _ _ (Ne.symm h1)]; exact hk, _, rfl, ?_⟩
      intro v f hmem
      simp at hmem
      exact h1 hmem.1.symm
  | rehash o =>
    exact ⟨by simpa [step, hWrite, hReset, jsonMarshal] using hk, [],
      by simp [step, hWrite, hReset, jsonMarshal], by simp⟩

/-- An event that offers an object of a key the store reports absent makes one `Put` under
that key, right after the `Has`, and a faithful store then reports the key present. -/
theorem step_first_put {E : Env σ} (hE : Faithful E) (e : Ev) (st : St σ) (o : Object)
    (ho : e.put = some o) (hk : (E.Has st.store (keyOf E o)).1 = false) :
    (E.Has (step E e st).store (keyOf E o)).1 = true ∧
      ∃ v f f2, (step E e st).calls =
          st.calls ++ [Call.has (keyOf E o) false f2, Call.put (keyOf E o) v f] ∧
        PutOf E e (keyOf E o) v := by
  refine ⟨faithful_step_put hE e st o ho, ?_⟩
  cases e with
  | blob o2 d =>
    simp only [Ev.put, Option.some.injEq] at ho
    subst ho
    simp only [step, putBlob_calls, hk, Bool.false_eq_true, if_false]
    exact ⟨_, _, _, rfl, Or.inl ⟨_, _, rfl, rfl, rfl⟩⟩
  | obj o2 =>
    simp only [Ev.put, Option.some.injEq] at ho
    subst ho
    simp only [step, putObject_calls, hk, Bool.false_eq_true, if_false]
    exact ⟨_, _, _, rfl, Or.inr ⟨_, rfl, rfl, rfl⟩⟩
  | rehash o2 => simp [Ev.put] at ho

/-- With the key `k` reported present by the store, an event makes no `Put` under `k`. -/
theorem step_present_no_put (E : Env σ) (e : Ev) (st : St σ) (k : List Byte)
    (hk : (E.Has st.store k).1 = true) :
    ∃ cs, (step E e st).calls = st.calls ++ cs ∧ ∀ v f, Call.put k v f ∉ cs := by
  cases e with
  | blob o d =>
    simp only [step, putBlob_calls]
    split
    · exact ⟨_, rfl, by simp⟩
    · next hn =>
      refine ⟨_, rfl, fun v f hmem => ?_⟩
      simp at hmem
      rw [← hmem.1] at hn
      exact hn hk
  | obj o =>
    simp only [step, putObject_calls]
    split
    · exact ⟨_, rfl, by simp⟩
    · next hn =>
      refine ⟨_, rfl, fun v f hmem => ?_⟩
      simp at hmem
      rw [← hmem.1] at hn
      exact hn hk
  | rehash o => exact ⟨[], by simp [step, hWrite, hReset, jsonMarshal], by simp⟩

/-- With the key `k` reported present by a faithful store, a run makes no `Put` under `k`. -/
theorem run_present_no_put {E : Env σ} (hE : Faithful E) (k : List Byte) (evs : List Ev) :
    ∀ st : St σ, (E.Has st.store k).1 = true →
    ∃ cs, (run E evs st).calls = st.calls ++ cs ∧ ∀ v f, Call.put k v f ∉ cs := by
  induction evs with
  | nil => intro st _; exact ⟨[], by simp, by simp⟩
  | cons e es ih =>
    intro st hk
    obtain ⟨cs, hc, hn⟩ := step_present_no_put E e st k hk
    obtain ⟨cs2, hc2, hn2⟩ := ih (step E e st) (faithful_step_present hE e st k hk)
    refine ⟨cs ++ cs2, by rw [run_cons, hc2, hc, List.append_assoc], fun v f hmem => ?_⟩
    rcases List.mem_append.mp hmem with h1 | h1
    · exact hn v f h1
    · exact hn2 v f h1

/-- A run that offers an object of key `k` to a store that records exactly what was put and
reports `k` absent makes exactly one `Put` under `k`, by the first event that offers an object
of that key. -/
theorem run_exactly_one_put {E : Env σ} (hE : Exact E) (k : List Byte) (evs : List Ev) :
    ∀ st : St σ, (E.Has st.store k).1 = false →
    (∃ e ∈ evs, ∃ o, e.put = some o ∧ keyOf E o = k) →
    ∃ pre v f post, (run E evs st).calls = st.calls ++ (pre ++ Call.put k v f :: post) ∧
      (∀ v2 f2, Call.put k v2 f2 ∉ pre) ∧ (∀ v2 f2, Call.put k v2 f2 ∉ post) ∧
      ∃ e ∈ evs, PutOf E e k v := by
  induction evs with
  | nil => intro st _ h; obtain ⟨e, he, _⟩ := h; simp at he
  | cons e es ih =>
    intro st hk hex
    by_cases he : ∃ o, e.put = some o ∧ keyOf E o = k
    · obtain ⟨o, ho, hko⟩ := he
      subst hko
      obtain ⟨hp, v, f, f2, hc, hput⟩ := step_first_put hE.1 e st o ho hk
      obtain ⟨cs2, hc2, hn2⟩ := run_present_no_put hE.1 (keyOf E o) es (step E e st) hp
      refine ⟨[Call.has (keyOf E o) false f2], v, f, cs2, ?_, by simp, hn2,
        e, List.mem_cons_self _ _, hput⟩
      rw [run_cons, hc2, hc]
      simp
    · have hne : ∀ o, e.put = some o → keyOf E o ≠ k := fun o ho hko => he ⟨o, ho, hko⟩
      obtain ⟨hk2, cs, hc, hn⟩ := step_other_key hE e st k hk hne
      have hex2 : ∃ e2 ∈ es, ∃ o, e2.put = some o ∧ keyOf E o = k := by
        obtain ⟨e2, he2, o, ho, hko⟩ := hex
        rcases List.mem_cons.mp he2 with h1 | h1
        · subst h1
          exact absurd hko (hne o ho)
        · exact ⟨e2, h1, o, ho, hko⟩
      obtain ⟨pre, v, f, post, hc2, hpre, hpost, e2, he2, hput⟩ := ih (step E e st) hk2 hex2
      refine ⟨cs ++ pre, v, f, post, ?_, ?_, hpost, e2, List.mem_cons_of_mem _ he2, hput⟩
      · rw [run_cons, hc2, hc]
        simp
      · intro v2 f2 hmem
        rcases List.mem_append.mp hmem with h1 | h1
        · exact hn v2 f2 h1
        · exact hpre v2 f2 h1

/-- The events of the loop of `sliceDirectory`: for every child in order, the events of
slicing it followed by its hashing. -/
theorem childrenEvents_eq (E : Env σ) (children : List Node) :
    childrenEvents E children =
      (children.map (fun c => nodeEvents E c ++ [Ev.rehash (nodeObject E c)])).flatten := by
  induction children with
  | nil => simp [childrenEvents]
  | cons c rest ih =>
    cases c with
    | file f => simp [childrenEvents, ih, nodeEvents, nodeObject]
    | dir d => simp [childrenEvents, ih, nodeEvents, nodeObject]

/-! ## Files of identical content -/

set_option maxRecDepth 100000 in
/-- C14, the claim as stated fails in two ways, shown with an empty map store, Go JSON and
FNV-1a.  A file whose content is the nil slice and a file whose content is an empty slice
hold the same bytes, none, yet `sliceFile` returns different leaf objects with different
digests for them.  And in a directory that yields an empty subdirectory and then two files of
nil content, the leaf of the files is the object of the empty subdirectory: the one `Put`
under its key is made for the subdirectory and holds the 26 bytes of the serialization, not
the raw bytes of the files, and the files make no `Put`. -/
theorem shared_leaf_key_may_hold_serialization :
    ((nilFile "a").Bytes.toList = (emptyFile "b").Bytes.toList ∧
      (sliceFile goEnv (nilFile "a") St.init).map (fun r => r.1) =
        some { Links := [], Data := .nil } ∧
      (sliceFile goEnv (emptyFile "b") St.init).map (fun r => r.1) =
        some { Links := [], Data := .mk [] } ∧
      keyOf goEnv { Links := [], Data := .nil } ≠ keyOf goEnv { Links := [], Data := .mk [] }) ∧
    ((sliceDirectory goEnv nilTwinsDir St.init).map
        (fun r => (r.2.calls.take 4, r.2.calls.length, r.2.store.get [207, 195, 205, 206])) =
      some ([Call.has [207, 195, 205, 206] false false,
          Call.put [207, 195, 205, 206] (ascii "\x7b\"Links\":null,\"Data\":null\x7d") false,
          Call.has [207, 195, 205, 206] true false,
          Call.has [207, 195, 205, 206] true false], 6,
        some (ascii "\x7b\"Links\":null,\"Data\":null\x7d")) ∧
      keyOf goEnv (leafOf (nilFile "a").Bytes) = [207, 195, 205, 206] ∧
      ascii "\x7b\"Links\":null,\"Data\":null\x7d" ≠ (nilFile "a").Bytes.toList) := by
  decide

/-- The object and the events of `sliceFile` for a file of at most `leafSize` bytes. -/
theorem fileObject_small (E : Env σ) (f : File) (h : f.Bytes.len ≤ leafSize) :
    fileObject E f = leafOf f.Bytes ∧ fileEvents E f = [Ev.blob (leafOf f.Bytes) f.Bytes] := by
  unfold fileObject fileEvents
  rw [if_pos h, if_pos h]
  exact ⟨rfl, rfl⟩

/-- The events of every child are among the events of the directory loop. -/
theorem nodeEvents_sub_childrenEvents (E : Env σ) (children : List Node) (c : Node)
    (hc : c ∈ children) (e : Ev) (he : e ∈ nodeEvents E c) : e ∈ childrenEvents E children := by
  rw [childrenEvents_eq]
  exact List.mem_flatten.mpr ⟨_, List.mem_map_of_mem _ hc, List.mem_append_left _ he⟩

/-- C14 as amended: for every two files whose contents are the same slice, both nil or both
not nil and with the same bytes, of at most 262144 bytes, `sliceFile` returns the same leaf
object, hence the same digest, for both.  For every directory that yields two such files
under different names, built against a store that records exactly what was put and does not
yet hold the key of that leaf, the directory object has two links with equal hash, the key of
the leaf, and different names, and exactly one `Put` is made under the key of the leaf.  When
moreover the digest has no collisions, the serialization is injective and the content is not
the nil slice, that `Put` holds the raw bytes. -/
theorem identical_small_files_share_one_leaf (E : Env σ) (hE : Exact E) (f1 f2 : File)
    (hb : f1.Bytes = f2.Bytes) (hlen : f1.Bytes.len ≤ 262144) (hname : f1.Name ≠ f2.Name)
    (name : String) (size : Nat) (pre mid post : List Node) (st : St σ)
    (habs : (E.Has st.store (E.digest (E.marshal (leafOf f1.Bytes)))).1 = false) :
    (∀ s, ∃ s2, sliceFile E f1 s = some (leafOf f1.Bytes, s2)) ∧
    (∀ s, ∃ s2, sliceFile E f2 s = some (leafOf f1.Bytes, s2)) ∧
    ∃ o st2 la l1 lb l2 lc cs0 v f cs1,
      sliceDirectory E (.mk name size (pre ++ .file f1 :: mid ++ .file f2 :: post)) st =
        some (o, st2) ∧
      o.Links = la ++ l1 :: lb ++ l2 :: lc ∧ la.length = pre.length ∧
      lb.length = mid.length ∧
      l1.Hash = E.digest (E.marshal (leafOf f1.Bytes)) ∧ l2.Hash = l1.Hash ∧
      l1.Name = f1.Name ∧ l2.Name = f2.Name ∧ l1.Name ≠ l2.Name ∧
      st2.calls = st.calls ++
        (cs0 ++ Call.put (E.digest (E.marshal (leafOf f1.Bytes))) v f :: cs1) ∧
      (∀ v2 f2, Call.put (E.digest (E.marshal (leafOf f1.Bytes))) v2 f2 ∉ cs0) ∧
      (∀ v2 f2, Call.put (E.digest (E.marshal (leafOf f1.Bytes))) v2 f2 ∉ cs1) ∧
      (Function.Injective E.digest → Function.Injective E.marshal → f1.Bytes ≠ .nil →
        v = f1.Bytes.toList) := by
  have h1 := fileObject_small E f1 (by rw [leafSize_eq]; exact hlen)
  have h2 := fileObject_small E f2 (by rw [leafSize_eq, ← hb]; exact hlen)
  rw [← hb] at h2
  refine ⟨fun s => ⟨_, by rw [sliceFile_result, h1.1]⟩,
    fun s => ⟨_, by rw [sliceFile_result, h2.1]⟩, ?_⟩
  have hmem : Ev.blob (leafOf f1.Bytes) f1.Bytes ∈
      dirEvents E (.mk name size (pre ++ .file f1 :: mid ++ .file f2 :: post)) := by
    simp only [dirEvents]
    refine List.mem_append_left _ (nodeEvents_sub_childrenEvents E _ (.file f1) (by simp) _ ?_)
    simp only [nodeEvents, h1.2]
    exact List.mem_singleton.mpr rfl
  obtain ⟨cs0, v, f, cs1, hc, hn0, hn1, e, he, hput⟩ :=
    run_exactly_one_put hE (keyOf E (leafOf f1.Bytes)) _ st habs ⟨_, hmem, _, rfl, rfl⟩
  refine ⟨_, _, pre.map (childLink E), childLink E (.file f1), mid.map (childLink E),
    childLink E (.file f2), post.map (childLink E), cs0, v, f, cs1,
    sliceDirectory_result E _ st, ?_, by simp, by simp, ?_, ?_, rfl, rfl, hname, hc, hn0, hn1,
    ?_⟩
  · simp [dirObject, childrenObject_links]
  · simp only [childLink, nodeObject, h1.1]
    rfl
  · simp only [childLink, nodeObject, h1.1, h2.1]
  · intro hd hm hnil
    have hshape := ok_shape E _ [] ((builds_dir E _).2 []) e he
    have hkey : ∀ o2, keyOf E (leafOf f1.Bytes) = keyOf E o2 → o2 = leafOf f1.Bytes :=
      fun o2 h => (hm (hd h)).symm
    rcases hput with ⟨o2, d2, rfl, hk, hv⟩ | ⟨o2, rfl, hk, hv⟩
    · have := (hshape.1 o2 d2 rfl).2
      rw [hkey o2 hk] at this
      rw [hv, ← this]
      rfl
    · have := hshape.2 o2 rfl
      rw [hkey o2 hk] at this
      rcases this with h | h
      · exact absurd rfl h
      · simp only [leafOf, Object.mk.injEq, true_and] at h
        exact absurd h hnil

/-- C14 as amended, at a directory that yields two files of the same three bytes under the
names `a` and `b`, with an empty map store, an injective
serialization and the identity as digest, for which the conditions of the last part hold. -/
theorem identical_small_files_share_one_leaf_witness :
    Exact plainEnv ∧ Function.Injective plainEnv.digest ∧
    Function.Injective plainEnv.marshal ∧ (abcFile "a").Bytes ≠ .nil ∧
    (abcFile "a").Bytes = (abcFile "b").Bytes ∧
    (abcFile "a").Bytes.len ≤ 262144 ∧ (abcFile "a").Name ≠ (abcFile "b").Name ∧
    (plainEnv.Has St.init.store (plainEnv.digest (plainEnv.marshal (leafOf (abcFile "a").Bytes)))).1 =
      false ∧
    (∀ s, ∃ s2, sliceFile plainEnv (abcFile "a") s = some (leafOf (abcFile "a").Bytes, s2)) ∧
    (∀ s, ∃ s2, sliceFile plainEnv (abcFile "b") s = some (leafOf (abcFile "a").Bytes, s2)) ∧
    ∃ o st2 la l1 lb l2 lc cs0 v f cs1,
      sliceDirectory plainEnv
          (.mk "d" 6 ([] ++ .file (abcFile "a") :: [] ++ .file (abcFile "b") :: [])) St.init =
        some (o, st2) ∧
      o.Links = la ++ l1 :: lb ++ l2 :: lc ∧ la.length = ([] : List Node).length ∧
      lb.length = ([] : List Node).length ∧
      l1.Hash = plainEnv.digest (plainEnv.marshal (leafOf (abcFile "a").Bytes)) ∧
      l2.Hash = l1.Hash ∧
      l1.Name = (abcFile "a").Name ∧ l2.Name = (abcFile "b").Name ∧ l1.Name ≠ l2.Name ∧
      st2.calls = St.init.calls ++
        (cs0 ++ Call.put (plainEnv.digest (plainEnv.marshal (leafOf (abcFile "a").Bytes))) v f ::
          cs1) ∧
      (∀ v2 f2,
        Call.put (plainEnv.digest (plainEnv.marshal (leafOf (abcFile "a").Bytes))) v2 f2 ∉ cs0) ∧
      (∀ v2 f2,
        Call.put (plainEnv.digest (plainEnv.marshal (leafOf (abcFile "a").Bytes))) v2 f2 ∉ cs1) ∧
      (Function.Injective plainEnv.digest → Function.Injective plainEnv.marshal →
        (abcFile "a").Bytes ≠ .nil → v = (abcFile "a").Bytes.toList) :=
  ⟨mapEnv_exact unaryMarshal id, fun _ _ h => h, unaryMarshal_injective, by decide, rfl,
    by decide, by decide, by decide,
    identical_small_files_share_one_leaf plainEnv (mapEnv_exact unaryMarshal id)
      (abcFile "a") (abcFile "b") rfl (by decide) (by decide) "d" 6 [] [] [] St.init
      (by decide)⟩

/-! ## The example of two small files -/

/-- The object and the events of the directory of the example. -/
theorem example_closed_form (marshal : Object → List Byte) (digest : List Byte → List Byte)
    (name : String) (size : Nat) :
    dirObject (mapEnv marshal digest) (.mk name size [.file aTxt, .file bTxt]) =
        exampleObject marshal digest ∧
      dirEvents (mapEnv marshal digest) (.mk name size [.file aTxt, .file bTxt]) =
        [Ev.blob (leafOf aTxt.Bytes) aTxt.Bytes, Ev.rehash (leafOf aTxt.Bytes),
          Ev.blob (leafOf bTxt.Bytes) bTxt.Bytes, Ev.rehash (leafOf bTxt.Bytes),
          Ev.obj (exampleObject marshal digest)] := by
  have ha := fileObject_small (mapEnv marshal digest) aTxt (by decide)
  have hb := fileObject_small (mapEnv marshal digest) bTxt (by decide)
  have ho : dirObject (mapEnv marshal digest) (.mk name size [.file aTxt, .file bTxt]) =
      exampleObject marshal digest := by
    simp only [dirObject, childrenObject, ha.1, hb.1, List.nil_append]
    rfl
  refine ⟨ho, ?_⟩
  have ho2 := ho
  simp only [dirObject] at ho2
  simp only [dirEvents, childrenEvents, ha, hb, ho2]
  rfl

/-- The store after a run against a map store: every event that offers an object puts it
unless its key is held. -/
theorem mapEnv_step_store (marshal : Object → List Byte) (digest : List Byte → List Byte)
    (e : Ev) (st : St MapStore) :
    (step (mapEnv marshal digest) e st).store =
      match e with
      | .blob o d =>
        if (st.store.get (digest (marshal o))).isSome then st.store
        else st.store.put (digest (marshal o)) d.toList
      | .obj o =>
        if (st.store.get (digest (marshal o))).isSome then st.store
        else st.store.put (digest (marshal o)) (marshal o)
      | .rehash _ => st.store := by
  cases e with
  | blob o d => simp only [step, putBlob_store]; rfl
  | obj o => simp only [step, putObject_store]; rfl
  | rehash o => rfl

/-- What a map store holds after an object was offered to it. -/
theorem mapStore_get_offer (s : MapStore) (k v k2 : List Byte) :
    ((if (s.get k).isSome then s else s.put k v).get k2).isSome ↔
      (k2 = k ∨ (s.get k2).isSome) := by
  by_cases hk : k2 = k
  · subst hk
    by_cases hp : (s.get k2).isSome
    · simp [hp]
    · simp [hp, mapStore_get_put_self]
  · by_cases hp : (s.get k).isSome
    · simp [hp, hk]
    · simp only [hp, if_false, hk, false_or, Bool.false_eq_true]
      rw [mapStore_get_put_of_ne _ _ _ _ hk]

/-- Offering an object under a key other than the keys held adds an entry in front. -/
theorem mapStore_offer_new (s : MapStore) (k v : List Byte) (h : ∀ p ∈ s, p.1 ≠ k) :
    (if (s.get k).isSome then s else s.put k v) = (k, v) :: s := by
  have hg : s.get k = none := by
    unfold MapStore.get
    rw [List.find?_eq_none.mpr (fun p hp => by simpa using h p hp)]
    rfl
  rw [hg]
  simp only [Option.isSome_none, Bool.false_eq_true, if_false, MapStore.put, List.cons.injEq,
    true_and]
  exact List.filter_eq_self.mpr (fun p hp => by simpa using h p hp)

/-- C15: the end-to-end example.  Against an empty map store, with any serialization and
digest, `sliceDirectory` on a directory that yields `a.txt` (size 10, content ten `a`) and then
`b.txt` (size 10, content ten `b`) returns the object with exactly the two links
`a.txt`, 10, H_a and `b.txt`, 10, H_b, where H_a and H_b are the digests of the serializations
of the two single-leaf objects, and the data `datadata`.  The store then holds exactly the keys
H_a, H_b and the digest H_d of the serialization of the directory object; when these three
digests do not collide they are three distinct keys and the store has exactly three entries:
the ten bytes of `a` under H_a, the ten bytes of `b` under H_b and the serialization of the
directory object under H_d. -/
theorem example_directory_of_two_files (marshal : Object → List Byte)
    (digest : List Byte → List Byte) (name : String) (size : Nat) :
    ∃ o st2, sliceDirectory (mapEnv marshal digest) (.mk name size [.file aTxt, .file bTxt])
        St.init = some (o, st2) ∧
      o.Links =
        [{ Name := "a.txt", Size := 10,
           Hash := digest (marshal { Links := [], Data := .mk (ascii "aaaaaaaaaa") }) },
         { Name := "b.txt", Size := 10,
           Hash := digest (marshal { Links := [], Data := .mk (ascii "bbbbbbbbbb") }) }] ∧
      o.Data = .mk (ascii "datadata") ∧
      (∀ k, (st2.store.get k).isSome ↔
        (k = digest (marshal { Links := [], Data := .mk (ascii "aaaaaaaaaa") }) ∨
          k = digest (marshal { Links := [], Data := .mk (ascii "bbbbbbbbbb") }) ∨
          k = digest (marshal o))) ∧
      (digest (marshal { Links := [], Data := .mk (ascii "aaaaaaaaaa") }) ≠
          digest (marshal { Links := [], Data := .mk (ascii "bbbbbbbbbb") }) →
        digest (marshal { Links := [], Data := .mk (ascii "aaaaaaaaaa") }) ≠
          digest (marshal o) →
        digest (marshal { Links := [], Data := .mk (ascii "bbbbbbbbbb") }) ≠
          digest (marshal o) →
        st2.store =
          [(digest (marshal o), marshal o),
            (digest (marshal { Links := [], Data := .mk (ascii "bbbbbbbbbb") }),
              ascii "bbbbbbbbbb"),
            (digest (marshal { Links := [], Data := .mk (ascii "aaaaaaaaaa") }),
              ascii "aaaaaaaaaa")]) := by
  obtain ⟨ho, hev⟩ := example_closed_form marshal digest name size
  refine ⟨exampleObject marshal digest, _, by rw [sliceDirectory_result, ho], rfl, rfl, ?_⟩
  rw [hev]
  simp only [run, mapEnv_step_store, St.init, leafOf, aTxt, bTxt, GoBytes.toList]
  generalize digest (marshal { Links := [], Data := .mk (ascii "aaaaaaaaaa") }) = ka
  generalize digest (marshal { Links := [], Data := .mk (ascii "bbbbbbbbbb") }) = kb
  generalize digest (marshal (exampleObject marshal digest)) = kd
  generalize marshal (exampleObject marshal digest) = md
  generalize ascii "aaaaaaaaaa" = va
  generalize ascii "bbbbbbbbbb" = vb
  refine ⟨fun k => ?_, fun hab had hbd => ?_⟩
  · rw [mapStore_get_offer, mapStore_get_offer, mapStore_get_offer]
    have : (MapStore.get [] k).isSome = false := rfl
    rw [this]
    simp only [Bool.false_eq_true, or_false]
    tauto
  · rw [mapStore_offer_new [] ka va (by simp),
      mapStore_offer_new [(ka, va)] kb vb (by simpa using hab),
      mapStore_offer_new [(kb, vb), (ka, va)] kd md (by simpa using ⟨hbd, had⟩)]

set_option maxRecDepth 100000 in
/-- C15 with Go JSON and FNV-1a: the three digests of the example are pairwise distinct, so
the store ends with exactly the three entries. -/
theorem example_directory_of_two_files_witness :
    (fnv32a (goJSON { Links := [], Data := .mk (ascii "aaaaaaaaaa") }) ≠
        fnv32a (goJSON { Links := [], Data := .mk (ascii "bbbbbbbbbb") }) ∧
      fnv32a (goJSON { Links := [], Data := .mk (ascii "aaaaaaaaaa") }) ≠
        fnv32a (goJSON (exampleObject goJSON fnv32a)) ∧
      fnv32a (goJSON { Links := [], Data := .mk (ascii "bbbbbbbbbb") }) ≠
        fnv32a (goJSON (exampleObject goJSON fnv32a))) ∧
    ∃ o st2, sliceDirectory goEnv (.mk "dir" 20 [.file aTxt, .file bTxt]) St.init =
        some (o, st2) ∧
      o.Links =
        [{ Name := "a.txt", Size := 10,
           Hash := fnv32a (goJSON { Links := [], Data := .mk (ascii "aaaaaaaaaa") }) },
         { Name := "b.txt", Size := 10,
           Hash := fnv32a (goJSON { Links := [], Data := .mk (ascii "bbbbbbbbbb") }) }] ∧
      o.Data = .mk (ascii "datadata") ∧
      (∀ k, (st2.store.get k).isSome ↔
        (k = fnv32a (goJSON { Links := [], Data := .mk (ascii "aaaaaaaaaa") }) ∨
          k = fnv32a (goJSON { Links := [], Data := .mk (ascii "bbbbbbbbbb") }) ∨
          k = fnv32a (goJSON o))) ∧
      (fnv32a (goJSON { Links := [], Data := .mk (ascii "aaaaaaaaaa") }) ≠
          fnv32a (goJSON { Links := [], Data := .mk (ascii "bbbbbbbbbb") }) →
        fnv32a (goJSON { Links := [], Data := .mk (ascii "aaaaaaaaaa") }) ≠
          fnv32a (goJSON o) →
        fnv32a (goJSON { Links := [], Data := .mk (ascii "bbbbbbbbbb") }) ≠
          fnv32a (goJSON o) →
        st2.store =
          [(fnv32a (goJSON o), goJSON o),
            (fnv32a (goJSON { Links := [], Data := .mk (ascii "bbbbbbbbbb") }),
              ascii "bbbbbbbbbb"),
            (fnv32a (goJSON { Links := [], Data := .mk (ascii "aaaaaaaaaa") }),
              ascii "aaaaaaaaaa")]) :=
  ⟨by decide, example_directory_of_two_files goJSON fnv32a "dir" 20⟩

/-! ## Failures of the store -/

/-- The object of the leaf level depends on the environment only through the keys. -/
theorem leafLevelObject_congr (E : Env σ) {τ : Type} (E2 : Env τ)
    (h : ∀ o, keyOf E2 o = keyOf E o) (b : GoBytes) (seedId : Nat) :
    leafLevelObject E2 b seedId = leafLevelObject E b seedId := by
  simp only [leafLevelObject, linkTo, h]

/-- The object of `dfsForSlice` depends on the environment only through the keys. -/
theorem dfsObject_congr (E : Env σ) {τ : Type} (E2 : Env τ)
    (h : ∀ o, keyOf E2 o = keyOf E o) (b : GoBytes) : ∀ hight seedId,
    dfsObject E2 b hight seedId = dfsObject E b hight seedId := by
  intro hight
  induction hight with
  | zero => intro seedId; rfl
  | succ k ih =>
    intro seedId
    rcases k with _ | k
    · simp only [dfsObject, leafLevelObject_congr E E2 h]
    · simp only [dfsObject, ih, internalObject, linkTo, h]

/-- The object of `sliceFile` depends on the environment only through the keys. -/
theorem fileObject_congr (E : Env σ) {τ : Type} (E2 : Env τ)
    (h : ∀ o, keyOf E2 o = keyOf E o) (f : File) : fileObject E2 f = fileObject E f := by
  simp only [fileObject, dfsObject_congr E E2 h]

mutual
/-- The object of `sliceDirectory` depends on the environment only through the keys. -/
theorem dirObject_congr (E : Env σ) {τ : Type} (E2 : Env τ)
    (h : ∀ o, keyOf E2 o = keyOf E o) : ∀ dir : Dir, dirObject E2 dir = dirObject E dir
  | .mk _ _ It => by
    simp only [dirObject]
    exact childrenObject_congr E E2 h It _
/-- The object of the directory loop depends on the environment only through the keys. -/
theorem childrenObject_congr (E : Env σ) {τ : Type} (E2 : Env τ)
    (h : ∀ o, keyOf E2 o = keyOf E o) : ∀ (children : List Node) (tree : Object),
    childrenObject E2 children tree = childrenObject E children tree
  | [], tree => by simp only [childrenObject]
  | .file f :: rest, tree => by
    simp only [childrenObject, fileObject_congr E E2 h, h]
    exact childrenObject_congr E E2 h rest _
  | .dir d :: rest, tree => by
    simp only [childrenObject, dirObject_congr E E2 h d, h]
    exact childrenObject_congr E E2 h rest _
end

/-- The object of slicing a node depends on the environment only through the keys. -/
theorem nodeObject_congr (E : Env σ) {τ : Type} (E2 : Env τ)
    (h : ∀ o, keyOf E2 o = keyOf E o) (node : Node) : nodeObject E2 node = nodeObject E node := by
  cases node with
  | file f => exact fileObject_congr E E2 h f
  | dir d => exact dirObject_congr E E2 h d

set_option maxRecDepth 100000 in
/-- C16, the claim as stated fails: the results of `Has` and `Put` that report a failure are
dropped.  With a store every call of which fails, `Add` on a directory holding a file and an
empty subdirectory makes six calls, all failing, and still returns a digest, the one it
returns with a map store that never fails. -/
theorem Add_returns_digest_when_every_call_fails :
    (Add failEnv smallTree St.init).map (fun r => (r.2.calls.length, r.2.calls.all Call.failed)) =
      some (6, true) ∧
    ((Add failEnv smallTree St.init).map (fun r => r.1)).isSome = true ∧
    (Add failEnv smallTree St.init).map (fun r => r.1) =
      (Add goEnv smallTree St.init).map (fun r => r.1) := by
  decide

/-- C16 as amended: failures of the store are discarded.  For every root node, whatever `Has`
and `Put` report, failures included, `Add`, `sliceFile` and `sliceDirectory` return: two
stores used with the same serialization and digest, one failing and one not, give the same
object and the same digest, from every state. -/
theorem store_failures_are_discarded (E : Env σ) {τ : Type} (E2 : Env τ)
    (hm : E2.marshal = E.marshal) (hd : E2.digest = E.digest) (node : Node)
    (st : St σ) (st2 : St τ) :
    ∃ o d r r2 s s2, sliceNode E node st = some (o, r) ∧ sliceNode E2 node st2 = some (o, r2) ∧
      Add E node st = some (d, s) ∧ Add E2 node st2 = some (d, s2) := by
  have hk : ∀ o, keyOf E2 o = keyOf E o := fun o => by simp only [keyOf, hm, hd]
  have h1 := sliceNode_result E2 node st2
  have h2 := Add_result E2 node st2
  rw [nodeObject_congr E E2 hk] at h1 h2
  rw [hm, hd] at h2
  exact ⟨nodeObject E node, _, _, _, _, _, sliceNode_result E node st, h1,
    Add_result E node st, h2⟩

/-- C16 as amended, at a directory holding a file and an empty subdirectory, with a map store
that never fails and a store every call of which fails. -/
theorem store_failures_are_discarded_witness :
    failEnv.marshal = goEnv.marshal ∧ failEnv.digest = goEnv.digest ∧
    ∃ o d r r2 s s2, sliceNode goEnv smallTree St.init = some (o, r) ∧
      sliceNode failEnv smallTree St.init = some (o, r2) ∧
      Add goEnv smallTree St.init = some (d, s) ∧ Add failEnv smallTree St.init = some (d, s2) :=
  ⟨rfl, rfl, store_failures_are_discarded goEnv failEnv rfl rfl smallTree St.init St.init⟩

/-! ## The limits on leaves and links -/

theorem leafSeeds_length_le (len : Nat) : ∀ n seedId, (leafSeeds len n seedId).length ≤ n := by
  intro n
  induction n with
  | zero => intro seedId; simp [leafSeeds]
  | succ n ih =>
    intro seedId
    rw [leafSeeds]
    split
    · simp
    · simp only [List.length_cons]
      exact Nat.succ_le_succ (ih _)

theorem bounded_blob (d : GoBytes) (h : d.len ≤ leafSize) : Bounded (Ev.blob (leafOf d) d) :=
  ⟨Nat.zero_le _, fun _ => h, rfl⟩

/-- The events of the leaf level are within the limits. -/
theorem leafLevelEvents_bounded (E : Env σ) (b : GoBytes) (seedId : Nat) :
    ∀ e ∈ leafLevelEvents E b seedId, Bounded e := by
  intro e he
  simp only [leafLevelEvents, List.mem_append, List.mem_map, List.mem_singleton] at he
  rcases he with ⟨s, _, rfl⟩ | rfl
  · exact bounded_blob _ (by rw [chunkAt_len]; exact Nat.min_le_left _ _)
  · refine ⟨?_, fun h => absurd h (leafLevelObject_links_ne E b seedId),
      leafLevelObject_links_ne E b seedId⟩
    show ((leafSeeds b.len fanout seedId).map _).length ≤ fanout
    rw [List.length_map]
    exact leafSeeds_length_le _ _ _

/-- The events of `dfsForSlice`, at a height of at least 1 and a cursor inside the buffer,
are within the limits. -/
theorem dfsEvents_bounded (E : Env σ) (b : GoBytes) : ∀ hight, 1 ≤ hight → ∀ seedId,
    seedId < b.len → ∀ e ∈ dfsEvents E b hight seedId, Bounded e := by
  intro hight
  induction hight with
  | zero => intro h; omega
  | succ k ih =>
    intro _ seedId hlt e he
    rcases k with _ | k
    · by_cases hl : b.len - seedId ≤ leafSize
      · simp only [dfsEvents, if_pos hl, List.mem_singleton] at he
        subst he
        exact bounded_blob _ (by rw [chunkAt_len]; exact Nat.min_le_left _ _)
      · simp only [dfsEvents, if_neg hl] at he
        exact leafLevelEvents_bounded E b seedId e he
    · simp only [dfsEvents, if_pos hlt, internalEvents, List.mem_append, List.mem_flatten,
        List.mem_singleton] at he
      have hb := builds_dfs E b (k + 1) (by omega) seedId
      rcases he with ⟨l, hl, hel⟩ | rfl
      · rw [List.eq_of_mem_replicate hl] at hel
        rcases List.mem_append.mp hel with h1 | h1
        · exact ih (by omega) seedId hlt e h1
        · simp only [List.mem_singleton] at h1
          subst h1
          obtain ⟨⟨pre, e0, hev, hput⟩, _⟩ := hb
          obtain ⟨a1, a2, _⟩ := ih (by omega) seedId hlt e0 (by rw [hev]; simp)
          rw [ev_object_of_put hput] at a1 a2
          exact ⟨a1, a2, trivial⟩
      · have hne : (internalObject E (dfsObject E b (k + 1) seedId)
            (dfsLen b (k + 1) seedId)).Links ≠ [] := by
          obtain ⟨n, hn⟩ : ∃ n, fanout = n + 1 := ⟨4095, by decide⟩
          simp only [internalObject, hn, List.replicate_succ]
          exact List.cons_ne_nil _ _
        refine ⟨?_, fun h => absurd h hne, hne⟩
        show (List.replicate fanout _).length ≤ fanout
        rw [List.length_replicate]

/-- The events of `sliceFile` are within the limits. -/
theorem fileEvents_bounded (E : Env σ) (node : File) : ∀ e ∈ fileEvents E node, Bounded e := by
  intro e he
  unfold fileEvents at he
  by_cases hle : node.Bytes.len ≤ leafSize
  · rw [if_pos hle, List.mem_singleton] at he
    subst he
    exact bounded_blob _ hle
  · rw [if_neg hle] at he
    exact dfsEvents_bounded E _ _ (hightLoop_spec _ 0).1 0 (by omega) e he

/-- What a run of events within the limits logs: every object marshalled has at most 4096
links and, when it has none, at most 262144 bytes of data; every `Put` is made for an object
marshalled, under the digest of its serialization, and holds either the data of a leaf, of at
most 262144 bytes, or the serialization of an object with links. -/
theorem run_bounded (E : Env σ) (evs : List Ev) (hb : ∀ e ∈ evs, Bounded e) (st : St σ) :
    ∃ cs objs, (run E evs st).calls = st.calls ++ cs ∧ (run E evs st).built = st.built ++ objs ∧
      (∀ o ∈ objs, o.Links.length ≤ 4096 ∧ (o.Links = [] → o.Data.len ≤ 262144)) ∧
      ∀ k v f, Call.put k v f ∈ cs → ∃ o ∈ objs, k = E.digest (E.marshal o) ∧
        ((o.Links = [] ∧ v = o.Data.toList ∧ v.length ≤ 262144) ∨
          (o.Links ≠ [] ∧ v = E.marshal o)) := by
  obtain ⟨cs, hc, _, hp⟩ := run_calls E evs st
  refine ⟨cs, evs.map Ev.object, hc, run_built E evs st, ?_, ?_⟩
  · intro o ho
    obtain ⟨e, he, rfl⟩ := List.mem_map.mp ho
    obtain ⟨a1, a2, _⟩ := hb e he
    rw [fanout_eq] at a1
    rw [leafSize_eq] at a2
    exact ⟨a1, a2⟩
  · intro k v f hmem
    obtain ⟨e, he, hput⟩ := hp k v f hmem
    obtain ⟨_, a2, a3⟩ := hb e he
    rw [leafSize_eq] at a2
    rcases hput with ⟨o, d, rfl, hk, hv⟩ | ⟨o, rfl, hk, hv⟩
    · have ho : o = leafOf d := a3
      subst ho
      exact ⟨_, List.mem_map_of_mem Ev.object he, hk, Or.inl ⟨rfl, hv, by
        rw [hv]
        exact a2 rfl⟩⟩
    · exact ⟨_, List.mem_map_of_mem Ev.object he, hk, Or.inr ⟨a3, hv⟩⟩

/-- C17: the limits of the wire contract.  For every file, store and hash `sliceFile`
returns; every object built for the file has at most 4096 links, every leaf built, an object
without links, holds at most 262144 bytes, and every `Put` made holds either the raw data of
such a leaf or the serialization of an object with links.  The same holds for `dfsForSlice`
at every height of at least 1 and every cursor inside the buffer. -/
theorem leaves_and_links_within_wire_limits (E : Env σ) (node : File) (st : St σ) :
    (∃ o st2 cs objs, sliceFile E node st = some (o, st2) ∧ st2.calls = st.calls ++ cs ∧
      st2.built = st.built ++ objs ∧
      (∀ o ∈ objs, o.Links.length ≤ 4096 ∧ (o.Links = [] → o.Data.len ≤ 262144)) ∧
      ∀ k v f, Call.put k v f ∈ cs → ∃ o ∈ objs, k = E.digest (E.marshal o) ∧
        ((o.Links = [] ∧ v = o.Data.toList ∧ v.length ≤ 262144) ∨
          (o.Links ≠ [] ∧ v = E.marshal o))) ∧
    ∀ hight seedId, 1 ≤ hight → seedId < node.Bytes.len →
      ∃ o n st2 cs objs, dfsForSlice E node hight seedId st = some (o, n, st2) ∧
        st2.calls = st.calls ++ cs ∧ st2.built = st.built ++ objs ∧
        (∀ o ∈ objs, o.Links.length ≤ 4096 ∧ (o.Links = [] → o.Data.len ≤ 262144)) ∧
        ∀ k v f, Call.put k v f ∈ cs → ∃ o ∈ objs, k = E.digest (E.marshal o) ∧
          ((o.Links = [] ∧ v = o.Data.toList ∧ v.length ≤ 262144) ∨
            (o.Links ≠ [] ∧ v = E.marshal o)) := by
  constructor
  · obtain ⟨cs, objs, h⟩ := run_bounded E _ (fileEvents_bounded E node) st
    exact ⟨_, _, cs, objs, sliceFile_result E node st, h⟩
  · intro hight seedId h1 hlt
    obtain ⟨cs, objs, h⟩ := run_bounded E _ (dfsEvents_bounded E node.Bytes hight h1 seedId hlt) st
    exact ⟨_, _, _, cs, objs, dfsForSlice_result E node hight h1 seedId (Nat.le_of_lt hlt) st, h⟩

/-! ## The kind tags of file trees -/

theorem flatten_length_of_four {α : Type} : ∀ tags : List (List α),
    (∀ t ∈ tags, t.length = 4) → tags.flatten.length = 4 * tags.length := by
  intro tags
  induction tags with
  | nil => intro _; rfl
  | cons t ts ih =>
    intro h
    simp only [List.flatten_cons, List.length_append, List.length_cons]
    rw [ih (fun t2 h2 => h t2 (List.mem_cons_of_mem _ h2)), h t (List.mem_cons_self _ _)]
    omega

theorem forall₂_replicate {α β : Type} (R : α → β → Prop) (a : α) (b : β) (h : R a b) :
    ∀ n, List.Forall₂ R (List.replicate n a) (List.replicate n b) := by
  intro n
  induction n with
  | zero => exact List.Forall₂.nil
  | succ n ih => exact List.Forall₂.cons h ih

theorem kindTag_length (c : Object) : (kindTag c).length = 4 := by
  unfold kindTag
  split <;> rfl

/-- C18: the kind tags of file trees are decodable by fixed stride.  For every buffer, height
of at least 1 and cursor inside the buffer `dfsForSlice` returns, and when the object it
returns has links, its data is the concatenation of one four-byte tag per link, in the order
of the links, so its length is 4 times the number of links.  At the leaf level, height 1,
every tag is `data`; at a height above 1 the links are, in order, the digests of the
serializations of the child objects the recursive calls return, and the tag of a child is
`data` when the child has no links, a bare leaf, and `link` when it has links. -/
theorem file_tree_tags_have_fixed_stride (E : Env σ) (node : File) (hight seedId : Nat)
    (st : St σ) (h1 : 1 ≤ hight) (hlt : seedId < node.Bytes.len) :
    ∃ o n st2, dfsForSlice E node hight seedId st = some (o, n, st2) ∧
      (o.Links ≠ [] → ∃ tags : List (List Byte),
        o.Data.toList = tags.flatten ∧ tags.length = o.Links.length ∧
        (∀ t ∈ tags, t.length = 4) ∧ o.Data.len = 4 * o.Links.length ∧
        (hight = 1 → ∀ t ∈ tags, t = ascii "data") ∧
        (1 < hight → ∃ children : List Object,
          (∀ c ∈ children, ∀ s, ∃ m s2,
            dfsForSlice E node (hight - 1) seedId s = some (c, m, s2)) ∧
          List.Forall₂ (fun c l => l.Hash = E.digest (E.marshal c)) children o.Links ∧
          tags = children.map
            (fun c => if c.Links = [] then ascii "data" else ascii "link"))) := by
  refine ⟨_, _, _, dfsForSlice_result E node hight h1 seedId (Nat.le_of_lt hlt) st, ?_⟩
  rcases hight with _ | _ | k
  · omega
  · by_cases hl : node.Bytes.len - seedId ≤ leafSize
    · simp only [dfsObject, if_pos hl]
      intro h
      exact absurd rfl h
    · simp only [dfsObject, if_neg hl]
      intro _
      have h4 : ∀ t ∈ List.replicate (leafSeeds node.Bytes.len fanout seedId).length tagData,
          t.length = 4 := by
        intro t ht
        rw [List.eq_of_mem_replicate ht]
        rfl
      refine ⟨List.replicate (leafSeeds node.Bytes.len fanout seedId).length tagData, rfl,
        by simp [leafLevelObject], h4, ?_, ?_, fun h => by omega⟩
      · show (List.replicate _ tagData).flatten.length = _
        rw [flatten_length_of_four _ h4]
        simp [leafLevelObject]
      · intro _ t ht
        rw [List.eq_of_mem_replicate ht]
        decide
  · simp only [dfsObject, if_pos hlt]
    intro _
    have h4 : ∀ t ∈ List.replicate fanout (kindTag (dfsObject E node.Bytes (k + 1) seedId)),
        t.length = 4 := by
      intro t ht
      rw [List.eq_of_mem_replicate ht]
      exact kindTag_length _
    refine ⟨List.replicate fanout (kindTag (dfsObject E node.Bytes (k + 1) seedId)), rfl, ?_, h4,
      ?_, fun h => by omega, fun _ => ?_⟩
    · show (List.replicate fanout _).length = (List.replicate fanout _).length
      rw [List.length_replicate, List.length_replicate]
    · show (List.replicate fanout _).flatten.length = 4 * (List.replicate fanout _).length
      rw [flatten_length_of_four _ h4, List.length_replicate, List.length_replicate]
    · refine ⟨List.replicate fanout (dfsObject E node.Bytes (k + 1) seedId), ?_, ?_, ?_⟩
      · intro c hc s
        rw [List.eq_of_mem_replicate hc]
        exact ⟨_, _, dfsForSlice_result E node (k + 1) (by omega) seedId (Nat.le_of_lt hlt) s⟩
      · exact forall₂_replicate (fun (c : Object) (l : Link) => l.Hash = E.digest (E.marshal c))
          (dfsObject E node.Bytes (k + 1) seedId)
          (linkTo E (dfsObject E node.Bytes (k + 1) seedId) (dfsLen node.Bytes (k + 1) seedId))
          rfl fanout
      · rw [List.map_replicate]
        have e1 : tagData = ascii "data" := by decide
        have e2 : tagLink = ascii "link" := by decide
        rw [← e1, ← e2]
        rfl

/-- C18 at a buffer of three bytes, height 2 and cursor 0, with an empty map store, Go JSON
and FNV-1a. -/
theorem file_tree_tags_have_fixed_stride_witness :
    1 ≤ 2 ∧ 0 < threeBytes.Bytes.len ∧
    ∃ o n st2, dfsForSlice goEnv threeBytes 2 0 St.init = some (o, n, st2) ∧
      (o.Links ≠ [] → ∃ tags : List (List Byte),
        o.Data.toList = tags.flatten ∧ tags.length = o.Links.length ∧
        (∀ t ∈ tags, t.length = 4) ∧ o.Data.len = 4 * o.Links.length ∧
        (2 = 1 → ∀ t ∈ tags, t = ascii "data") ∧
        (1 < 2 → ∃ children : List Object,
          (∀ c ∈ children, ∀ s, ∃ m s2,
            dfsForSlice goEnv threeBytes (2 - 1) 0 s = some (c, m, s2)) ∧
          List.Forall₂ (fun c l => l.Hash = goEnv.digest (goEnv.marshal c)) children o.Links ∧
          tags = children.map
            (fun c => if c.Links = [] then ascii "data" else ascii "link"))) :=
  ⟨by decide, by decide,
    file_tree_tags_have_fixed_stride goEnv threeBytes 2 0 St.init (by decide) (by decide)⟩

/-! ## Totality of file slicing -/

/-- A slice is taken without panic exactly when its bounds are in range. -/
theorem slice_isSome_iff (b : GoBytes) (lo hi : Nat) :
    (b.slice lo hi).isSome = true ↔ lo ≤ hi ∧ hi ≤ b.len := by
  unfold GoBytes.slice
  by_cases h : lo ≤ hi ∧ hi ≤ b.len
  · rw [if_pos h]
    cases b <;> simp [h]
  · rw [if_neg h]
    simp [h]

/-- The internal loop calls `child` only at its own cursor, and only with the cursor inside the
buffer. -/
theorem internalLoop_congr (E : Env σ) (node : File)
    (child child2 : Nat → St σ → Option (Object × Nat × St σ)) (seedId : Nat)
    (h : seedId < node.Bytes.len → ∀ t, child2 seedId t = child seedId t) :
    ∀ (n : Nat) (links : Object) (totalLen : Nat) (st : St σ),
      internalLoop E node child2 seedId n links totalLen st =
        internalLoop E node child seedId n links totalLen st := by
  intro n
  induction n with
  | zero => intro links totalLen st; rfl
  | succ n ih =>
    intro links totalLen st
    by_cases hge : seedId ≥ node.Bytes.len
    · simp only [internalLoop, if_pos hge]
    · simp only [internalLoop, if_neg hge, h (by omega) st, ih]

/-- The object of `dfsForSlice` has at most `fanout` links. -/
theorem dfsObject_links_le (E : Env σ) (b : GoBytes) (hight seedId : Nat) :
    (dfsObject E b hight seedId).Links.length ≤ fanout := by
  rcases hight with _ | _ | k
  · exact Nat.zero_le _
  · simp only [dfsObject]
    split
    · exact Nat.zero_le _
    · show ((leafSeeds b.len fanout seedId).map _).length ≤ fanout
      rw [List.length_map]
      exact leafSeeds_length_le _ _ _
  · simp only [dfsObject]
    split
    · show (List.replicate fanout _).length ≤ fanout
      rw [List.length_replicate]
    · exact Nat.zero_le _

/-- C19: totality of file slicing.  For every file, store and hash: the height loop of
`sliceFile` ends with a height of at least 1, and `sliceFile` returns; `dfsForSlice` returns
at every height of at least 1 and every cursor at most the length of the buffer, with an
object of at most 4096 links, one per iteration of the loop of its level; at a height
`hight + 2` it calls itself only at the height `hight + 1`, strictly smaller and still at
least 1, at its own cursor and only with that cursor inside the buffer, for its result is the
same with any function in place of the recursive call that agrees with it there; and the
slices taken, `[seedId:]` at a cursor at most the length and `[seedId:end]` in the leaf loop,
which returns whatever the number of iterations allowed, have bounds in range,
`seedId <= end <= length`, a slice out of range being a result `none`. -/
theorem file_slicing_is_total (E : Env σ) (node : File) (st : St σ) :
    1 ≤ hightLoop 0 (linkLen node.Bytes.len) ∧
    (∃ o st2, sliceFile E node st = some (o, st2)) ∧
    (∀ hight seedId s, 1 ≤ hight → seedId ≤ node.Bytes.len →
      ∃ o n s2, dfsForSlice E node hight seedId s = some (o, n, s2) ∧ o.Links.length ≤ 4096) ∧
    (∀ hight seedId s (child : Nat → St σ → Option (Object × Nat × St σ)),
      (seedId < node.Bytes.len → ∀ t, child seedId t = dfsForSlice E node (hight + 1) seedId t) →
      dfsForSlice E node (hight + 2) seedId s =
        match internalLoop E node child seedId fanout { Links := [], Data := .nil } 0 s with
        | none => none
        | some (links, totalLen, s2) => some (links, totalLen, putObject E links s2)) ∧
    (∀ n links totalLen seedId s, seedId ≤ node.Bytes.len →
      ∃ r, leafLoop E node n links totalLen seedId s = some r) ∧
    (∀ seedId, seedId ≤ node.Bytes.len →
      (node.Bytes.slice seedId node.Bytes.len).isSome = true ∧
      (node.Bytes.slice seedId
        (if node.Bytes.len < seedId + 262144 then node.Bytes.len else seedId + 262144)).isSome =
          true ∧
      seedId ≤ (if node.Bytes.len < seedId + 262144 then node.Bytes.len else seedId + 262144) ∧
      (if node.Bytes.len < seedId + 262144 then node.Bytes.len else seedId + 262144) ≤
        node.Bytes.len) ∧
    (∀ lo hi, (node.Bytes.slice lo hi).isSome = true ↔ lo ≤ hi ∧ hi ≤ node.Bytes.len) := by
  refine ⟨(hightLoop_spec _ 0).1, ⟨_, _, sliceFile_result E node st⟩, ?_, ?_, ?_, ?_,
    slice_isSome_iff node.Bytes⟩
  · intro hight seedId s h1 hle
    refine ⟨_, _, _, dfsForSlice_result E node hight h1 seedId hle s, ?_⟩
    rw [← fanout_eq]
    exact dfsObject_links_le E _ _ _
  · intro hight seedId s child hc
    rw [dfsForSlice, internalLoop_congr E node _ child seedId hc]
  · intro n
    induction n with
    | zero => intro links totalLen seedId s _; exact ⟨_, rfl⟩
    | succ n ih =>
      intro links totalLen seedId s hle
      simp only [leafLoop, slice_chunk _ _ hle]
      split
      · exact ⟨_, rfl⟩
      · exact ih _ _ _ _ (by omega)
  · intro seedId hle
    have h2 : seedId ≤ (if node.Bytes.len < seedId + 262144 then node.Bytes.len
        else seedId + 262144) ∧
        (if node.Bytes.len < seedId + 262144 then node.Bytes.len else seedId + 262144) ≤
          node.Bytes.len := by
      split <;> omega
    exact ⟨(slice_isSome_iff _ _ _).mpr ⟨hle, Nat.le_refl _⟩, (slice_isSome_iff _ _ _).mpr h2,
      h2.1, h2.2⟩

/-! ## The digest of the root -/

/-- C20: for every root node there is one root object, the object slicing the node returns
from every state, such that for every store and every initial state of the hash `Add` returns
the digest of the serialization of the root object written twice in a row after a reset; the
hash then holds exactly these bytes.  So the digest `Add` returns does not depend on the
initial state of the hash nor on the contents of the store. -/
theorem Add_returns_digest_of_serialization_twice (E : Env σ) (node : Node) :
    ∃ o, (∀ st, ∃ st2, sliceNode E node st = some (o, st2)) ∧
      (∀ st, ∃ st2, Add E node st = some (E.digest (E.marshal o ++ E.marshal o), st2) ∧
        st2.h = E.marshal o ++ E.marshal o) ∧
      ∀ st st2, (Add E node st).map (fun r => r.1) = (Add E node st2).map (fun r => r.1) := by
  refine ⟨nodeObject E node, fun st => ⟨_, sliceNode_result E node st⟩,
    fun st => ⟨_, Add_result E node st, ?_⟩, fun st st2 => ?_⟩
  · simp only [hWrite, jsonMarshal]
    rw [builds_run_h (builds_node E node)]
  · rw [Add_result, Add_result]
    rfl

end Merkledag
